import Mathlib

/-!
# Distributed file system: storage engine, stream codec and frame decoder

A shallow embedding of the Go sources (`store.go`, `crypto.go`, `server.go`,
`p2p/encoding.go`, `p2p/message.go`) together with the properties proved
about them.  Go strings are Lean strings, byte slices are `List UInt8`,
functions that return `(value, error)` return the value together with an
`Option Err` (or an `Except`), and every piece of mutable state a function
touches (file system, reader, writer) is passed in and handed back.

The first half of the file holds the definitions, the second half the
lemmas and theorems.
-/

namespace DFS

/-! ## Errors -/

/-- Error values that the embedded code can observe.  `ENOENT` is the only
errno for which `errors.Is(err, os.ErrNotExist)` holds. -/
inductive Err where
  | EOF
  | ErrUnexpectedEOF
  | ErrShortWrite
  | KeySizeError
  | ENOENT
  | ENOTDIR
  | EISDIR
  | EINVAL
  | EBUSY
  | ENAMETOOLONG
  | other (msg : String)
deriving DecidableEq, Repr

/-! ## Strings (package `strings`, `fmt`, `encoding/hex`) -/

/-- Modelled from the spec: the conversion `[]byte(s)` of a Go string, the
UTF-8 bytes of the string. -/
def stringBytes (s : String) : List UInt8 :=
  s.data.flatMap String.utf8EncodeChar

/-- Go slice expression `s[lo:hi]` on a string of one-byte characters. -/
def goSlice (s : String) (lo hi : Nat) : String :=
  String.mk ((s.data.drop lo).take (hi - lo))

/-- Modelled from the spec: `strings.Join(elems, sep)` of the Go standard library. -/
def stringsJoin : List String → String → String
  | [], _ => ""
  | [s], _ => s
  | s :: t :: rest, sep => s ++ sep ++ stringsJoin (t :: rest) sep

/-- Splitting a character list at every occurrence of `sep`; the result
always has one more piece than there are separators. -/
def splitChars (sep : Char) : List Char → List (List Char)
  | [] => [[]]
  | c :: cs =>
    if c = sep then [] :: splitChars sep cs
    else
      match splitChars sep cs with
      | [] => [[c]]
      | w :: ws => (c :: w) :: ws

/-- Modelled from the spec: `strings.Split(s, sep)` of the Go standard library
for a one-character separator. -/
def stringsSplit (s : String) (sep : Char) : List String :=
  (splitChars sep s.data).map String.mk

/-- The table `"0123456789abcdef"` of `encoding/hex`. -/
def hextable : List Char :=
  ['0', '1', '2', '3', '4', '5', '6', '7', '8', '9', 'a', 'b', 'c', 'd', 'e', 'f']

/-- Modelled from the spec: `hex.EncodeToString` of the Go standard library, two
lowercase digits per byte, high nibble first. -/
def hexEncodeToString (bs : List UInt8) : String :=
  String.mk (bs.flatMap fun b =>
    [hextable.getD (b.toNat / 16) '0', hextable.getD (b.toNat % 16) '0'])

/-! ## SHA-1 (package `crypto/sha1`) -/

/-- Rotate a 32-bit word left by `n` bits. -/
def rotl32 (x n : Nat) : Nat :=
  ((x <<< n) ||| (x >>> (32 - n))) % 2 ^ 32

/-- Big-endian value of a byte list. -/
def beValue (bs : List Nat) : Nat :=
  bs.foldl (fun acc b => acc * 256 + b) 0

/-- Big-endian rendering of `n` on `w` bytes. -/
def beBytes (n w : Nat) : List Nat :=
  (List.range w).map fun i => (n >>> (8 * (w - 1 - i))) % 256

/-- SHA-1 padding: a `0x80` byte, zeros up to 56 modulo 64, then the
message length in bits on 8 bytes. -/
def sha1Pad (msg : List Nat) : List Nat :=
  msg ++ [0x80] ++ List.replicate ((119 - msg.length % 64) % 64) 0
    ++ beBytes (8 * msg.length) 8

/-- The first `k` consecutive groups of `n` elements. -/
def groupsOf (n : Nat) : Nat → List Nat → List (List Nat)
  | 0, _ => []
  | k + 1, xs => xs.take n :: groupsOf n k (xs.drop n)

/-- Message schedule: extends the 16 words of a block by `k` more words. -/
def sha1Schedule : Nat → List Nat → List Nat
  | 0, w => w
  | k + 1, w =>
    let t := w.length
    sha1Schedule k
      (w ++ [rotl32 (w.getD (t - 3) 0 ^^^ w.getD (t - 8) 0
        ^^^ w.getD (t - 14) 0 ^^^ w.getD (t - 16) 0) 1])

/-- The five chaining words of SHA-1. -/
structure Sha1State where
  a : Nat
  b : Nat
  c : Nat
  d : Nat
  e : Nat
deriving DecidableEq, Repr

/-- Round function and round constant of round `t`. -/
def sha1Fk (t b c d : Nat) : Nat × Nat :=
  if t < 20 then ((b &&& c) ||| ((b ^^^ 0xFFFFFFFF) &&& d), 0x5A827999)
  else if t < 40 then (b ^^^ c ^^^ d, 0x6ED9EBA1)
  else if t < 60 then ((b &&& c) ||| (b &&& d) ||| (c &&& d), 0x8F1BBCDC)
  else (b ^^^ c ^^^ d, 0xCA62C1D6)

/-- One of the 80 rounds, on the pair (round number, schedule word). -/
def sha1Round (s : Sha1State) (tw : Nat × Nat) : Sha1State :=
  let fk := sha1Fk tw.1 s.b s.c s.d
  { a := (rotl32 s.a 5 + fk.1 + s.e + fk.2 + tw.2) % 2 ^ 32
    b := s.a
    c := rotl32 s.b 30
    d := s.c
    e := s.d }

/-- Compression of one 64-byte block into the chaining state. -/
def sha1Block (h : Sha1State) (blk : List Nat) : Sha1State :=
  let w := sha1Schedule 64 ((groupsOf 4 16 blk).map beValue)
  let s := ((List.range 80).zip w).foldl sha1Round h
  { a := (h.a + s.a) % 2 ^ 32
    b := (h.b + s.b) % 2 ^ 32
    c := (h.c + s.c) % 2 ^ 32
    d := (h.d + s.d) % 2 ^ 32
    e := (h.e + s.e) % 2 ^ 32 }

/-- Initial chaining value of SHA-1. -/
def sha1Init : Sha1State :=
  ⟨0x67452301, 0xEFCDAB89, 0x98BADCFE, 0x10325476, 0xC3D2E1F0⟩

/-- Modelled from the spec: `sha1.Sum` of the Go standard library (FIPS 180-4),
which returns a `[20]byte`. -/
def sha1Sum (data : List UInt8) : List UInt8 :=
  let p := sha1Pad (data.map UInt8.toNat)
  let s := (groupsOf 64 (p.length / 64) p).foldl sha1Block sha1Init
  (beBytes s.a 4 ++ beBytes s.b 4 ++ beBytes s.c 4 ++ beBytes s.d 4
    ++ beBytes s.e 4).map Nat.toUInt8

/-! ## Path transform (`store.go`) -/

/-- `PathKey` of `store.go`. -/
structure PathKey where
  PathName : String
  Filename : String
deriving DecidableEq, Repr

/-- `CASPathTransformFunc` of `store.go`: hash the key with SHA-1, render it
in hex, and cut the hex string into `len / 5` blocks of 5 characters. -/
def CASPathTransformFunc (key : String) : PathKey :=
  let hash := sha1Sum (stringBytes key)
  let hashStr := hexEncodeToString hash
  let blocksize := 5
  let sliceLen := hashStr.length / blocksize
  let paths := (List.range sliceLen).map fun i =>
    goSlice hashStr (i * blocksize) (i * blocksize + blocksize)
  { PathName := stringsJoin paths "/", Filename := hashStr }

/-- `DefaultPathTransformFunc` of `store.go`. -/
def DefaultPathTransformFunc (key : String) : PathKey :=
  { PathName := key, Filename := key }

/-- `PathKey.FirstPathName` of `store.go`. -/
def PathKey.FirstPathName (p : PathKey) : String :=
  let paths := stringsSplit p.PathName '/'
  match paths with
  | [] => ""
  | first :: _ => first

/-- `PathKey.FullPath` of `store.go`. -/
def PathKey.FullPath (p : PathKey) : String :=
  p.PathName ++ "/" ++ p.Filename

/-- The hex string cut left to right into blocks of `n` characters, as the
specification words it (`fuel` bounds the number of blocks). -/
def cutBlocks (n : Nat) : Nat → List Char → List String
  | 0, _ => []
  | fuel + 1, cs =>
    if cs = [] then [] else String.mk (cs.take n) :: cutBlocks n fuel (cs.drop n)

/-! ## Readers and writers (package `io`) -/

/-- One scripted `Read` outcome: a chunk of bytes and the error the reader
reports once the chunk has been handed over in full (`none` is Go's `nil`). -/
abbrev ReadEvent := List UInt8 × Option Err

/-- Modelled from the spec: an `io.Reader`.  A `script` reader delivers its
events in order, cutting a chunk that is larger than the caller's buffer;
after the last event every `Read` returns `(0, io.EOF)`.  `tee src buf` is
`io.TeeReader(src, buf)` over a `bytes.Buffer` holding `buf`, and `limit src n`
is `io.LimitReader(src, n)`. -/
inductive Reader where
  | script (events : List ReadEvent)
  | tee (src : Reader) (buf : List UInt8)
  | limit (src : Reader) (n : Int)
deriving DecidableEq, Repr

/-- `bytes.NewReader(data)` / a `bytes.Buffer` holding `data`: everything that
fits the caller's buffer at once, then `io.EOF` on its own. -/
def bytesReader (data : List UInt8) : Reader :=
  if data = [] then .script [] else .script [(data, none)]

/-- One `Read(p)` call with `len(p) = cap`: the bytes copied into `p`, the
error returned, and the reader afterwards. -/
def Reader.read : Reader → Nat → (List UInt8 × Option Err) × Reader
  | .script [], _ => (([], some Err.EOF), .script [])
  | .script ((b, e) :: rest), cap =>
    if b.length ≤ cap then ((b, e), .script rest)
    else ((b.take cap, none), .script ((b.drop cap, e) :: rest))
  | .tee src buf, cap =>
    let r := src.read cap
    (r.1, .tee r.2 (buf ++ r.1.1))
  | .limit src n, cap =>
    if n ≤ 0 then (([], some Err.EOF), .limit src n)
    else
      let r := src.read (min cap n.toNat)
      (r.1, .limit r.2 (n - r.1.1.length))

/-- All bytes that a reader still has to deliver. -/
def Reader.content : Reader → List UInt8
  | .script events => events.flatMap fun ev => ev.1
  | .tee src _ => src.content
  | .limit src n => src.content.take n.toNat

/-- The reader that a `LimitReader` wraps (the reader itself otherwise). -/
def Reader.inner : Reader → Reader
  | .limit src _ => src
  | r => r

/-- The bytes accumulated in the buffer of a `TeeReader` (empty for a plain reader). -/
def Reader.teeBuf : Reader → List UInt8
  | .script _ => []
  | .tee _ buf => buf
  | .limit _ _ => []

/-- A reader delivers its content without error: no event but the last one
carries an error, and the last one carries at most `io.EOF`. -/
def cleanEvents : List ReadEvent → Bool
  | [] => true
  | [(_, e)] => e = none || e = some Err.EOF
  | (_, e) :: rest => e = none && cleanEvents rest

/-- A reader that delivers its content without error. -/
def Reader.clean : Reader → Bool
  | .script events => cleanEvents events
  | .tee src _ => src.clean
  | .limit src _ => src.clean

/-- A bound on the number of `Read` calls with a non-empty buffer that can
return a `nil` error. -/
def Reader.fuel : Reader → Nat
  | .script events => (events.map fun ev => ev.1.length + 1).sum
  | .tee src _ => src.fuel
  | .limit src _ => src.fuel

/-- Modelled from the spec: an `io.Writer`, one `Write(p)` call returning the
byte count, the error and the writer afterwards. -/
class IOWriter (ω : Type) where
  write : ω → List UInt8 → (Nat × Option Err) × ω

/-- An in-memory or network sink: the bytes accepted so far and, when the
sink is going to fail, how many more bytes it accepts before that. -/
structure Sink where
  written : List UInt8
  room : Option Nat
deriving DecidableEq, Repr

/-- A `bytes.Buffer` used as a writer; it never fails. -/
def Sink.buffer (pre : List UInt8) : Sink :=
  { written := pre, room := none }

/-- `Write` on a sink: everything is accepted while there is room; otherwise
the part that fits is accepted and an error is returned. -/
def Sink.write (s : Sink) (p : List UInt8) : (Nat × Option Err) × Sink :=
  match s.room with
  | none => ((p.length, none), { s with written := s.written ++ p })
  | some k =>
    if p.length ≤ k then
      ((p.length, none), { written := s.written ++ p, room := some (k - p.length) })
    else
      ((k, some (Err.other "write failed")),
        { written := s.written ++ p.take k, room := some 0 })

instance : IOWriter Sink := ⟨Sink.write⟩

/-- Modelled from the spec: `Write` of `io.MultiWriter`: the writers are served
in order, stopping at the first error or short write. -/
def multiWrite {ω : Type} [IOWriter ω] : List ω → List UInt8 → (Nat × Option Err) × List ω
  | [], p => ((p.length, none), [])
  | w :: ws, p =>
    let r := IOWriter.write w p
    if r.1.2 ≠ none then (r.1, r.2 :: ws)
    else if r.1.1 ≠ p.length then ((r.1.1, some Err.ErrShortWrite), r.2 :: ws)
    else
      let rs := multiWrite ws p
      (rs.1, r.2 :: rs.2)

/-- The outcome of a copy loop: byte count, error, and the reader and writer
as the loop left them. -/
structure CopyResult (ω : Type) where
  n : Nat
  err : Option Err
  src : Reader
  dst : ω
deriving Repr

/-- Loop of `io.Copy` with its 32 KiB buffer. `none` stands for a loop that
has not ended within `fuel` iterations. -/
def ioCopyLoop {ω : Type} [IOWriter ω] :
    Nat → Reader → ω → Nat → Option (CopyResult ω)
  | 0, _, _, _ => none
  | fuel + 1, src, dst, written =>
    let r := src.read (32 * 1024)
    let chunk := r.1.1
    let er := r.1.2
    if 0 < chunk.length then
      let w := IOWriter.write dst chunk
      if w.1.2 ≠ none then
        some { n := written + w.1.1, err := w.1.2, src := r.2, dst := w.2 }
      else if chunk.length ≠ w.1.1 then
        some { n := written + w.1.1, err := some Err.ErrShortWrite, src := r.2, dst := w.2 }
      else if er = some Err.EOF then
        some { n := written + w.1.1, err := none, src := r.2, dst := w.2 }
      else if er ≠ none then
        some { n := written + w.1.1, err := er, src := r.2, dst := w.2 }
      else ioCopyLoop fuel r.2 w.2 (written + w.1.1)
    else if er = some Err.EOF then
      some { n := written, err := none, src := r.2, dst := dst }
    else if er ≠ none then
      some { n := written, err := er, src := r.2, dst := dst }
    else ioCopyLoop fuel r.2 dst written

/-- Modelled from the spec: `io.Copy(dst, src)` of the Go standard library: copy
until `io.EOF` (not reported as an error) or the first error. -/
def ioCopy {ω : Type} [IOWriter ω] (dst : ω) (src : Reader) : Option (CopyResult ω) :=
  ioCopyLoop (src.fuel + 1) src dst 0

/-! ## Stream codec (`crypto.go`) -/

/-- Modelled from the spec: the counter block of CTR mode after `i` increments,
the 16 bytes read as a big-endian integer that wraps around at `2 ^ 128`. -/
def ctrBlock (iv : List UInt8) (i : Nat) : List UInt8 :=
  (beBytes ((beValue (iv.map UInt8.toNat) + i) % 2 ^ 128) 16).map Nat.toUInt8

/-- Modelled from the spec: byte `m` of the CTR keystream for a key and an IV, byte
`m % 16` of the encryption of counter block `m / 16`.  The block cipher
(`Block.Encrypt` of `crypto/aes`) is the parameter `aes`. -/
def ctrKeystream (aes : List UInt8 → List UInt8 → List UInt8)
    (key iv : List UInt8) (m : Nat) : UInt8 :=
  (aes key (ctrBlock iv (m / 16))).getD (m % 16) 0

/-- The keystream of `cipher.NewCTR(block, iv)` and the number of keystream
bytes already used. -/
structure CTRStream where
  key : List UInt8
  iv : List UInt8
  pos : Nat
deriving DecidableEq, Repr

/-- XOR of a byte list with a keystream, starting at keystream byte `pos`. -/
def xorBytes (ks : Nat → UInt8) : Nat → List UInt8 → List UInt8
  | _, [] => []
  | pos, b :: bs => (b ^^^ ks pos) :: xorBytes ks (pos + 1) bs

/-- Modelled from the spec: `XORKeyStream(dst, src)` of a CTR stream: the
transformed bytes and the advanced stream. -/
def CTRStream.xorKeyStream (aes : List UInt8 → List UInt8 → List UInt8)
    (s : CTRStream) (src : List UInt8) : List UInt8 × CTRStream :=
  (xorBytes (ctrKeystream aes s.key s.iv) s.pos src, { s with pos := s.pos + src.length })

/-- Modelled from the spec: `aes.NewCipher(key)`, which accepts keys of 16, 24 or 32
bytes only; the block is represented by its key. -/
def aesNewCipher (key : List UInt8) : Except Err (List UInt8) :=
  if key.length = 16 ∨ key.length = 24 ∨ key.length = 32 then .ok key
  else .error Err.KeySizeError

/-- `block.BlockSize()` of an AES block. -/
def aesBlockSize : Nat := 16

/-- Loop of `copyStream` of `crypto.go`; `none` stands for a loop that has not
ended within `fuel` iterations. -/
def copyStreamLoop {ω : Type} [IOWriter ω] (aes : List UInt8 → List UInt8 → List UInt8) :
    Nat → CTRStream → Reader → ω → Nat → Option (CopyResult ω)
  | 0, _, _, _, _ => none
  | fuel + 1, stream, src, dst, nw =>
    let r := src.read (32 * 1024)
    let chunk := r.1.1
    let err := r.1.2
    if 0 < chunk.length then
      let x := stream.xorKeyStream aes chunk
      let w := IOWriter.write dst x.1
      if w.1.2 ≠ none then
        some { n := 0, err := w.1.2, src := r.2, dst := w.2 }
      else if err = some Err.EOF then
        some { n := nw + w.1.1, err := none, src := r.2, dst := w.2 }
      else if err ≠ none then
        some { n := 0, err := err, src := r.2, dst := w.2 }
      else copyStreamLoop aes fuel x.2 r.2 w.2 (nw + w.1.1)
    else if err = some Err.EOF then
      some { n := nw, err := none, src := r.2, dst := dst }
    else if err ≠ none then
      some { n := 0, err := err, src := r.2, dst := dst }
    else copyStreamLoop aes fuel stream r.2 dst nw

/-- `copyStream` of `crypto.go`. -/
def copyStream {ω : Type} [IOWriter ω] (aes : List UInt8 → List UInt8 → List UInt8)
    (stream : CTRStream) (blockSize : Nat) (src : Reader) (dst : ω) :
    Option (CopyResult ω) :=
  copyStreamLoop aes (src.fuel + 1) stream src dst blockSize

/-- `copyDecrypt` of `crypto.go`: one `Read` into a 16-byte buffer supplies the
IV (the buffer starts zeroed, so a short read leaves zeros at the end). -/
def copyDecrypt {ω : Type} [IOWriter ω] (aes : List UInt8 → List UInt8 → List UInt8)
    (key : List UInt8) (src : Reader) (dst : ω) : Option (CopyResult ω) :=
  match aesNewCipher key with
  | .error e => some { n := 0, err := some e, src := src, dst := dst }
  | .ok block =>
    let r := src.read aesBlockSize
    let iv := r.1.1 ++ List.replicate (aesBlockSize - r.1.1.length) 0
    if r.1.2 ≠ none then some { n := 0, err := r.1.2, src := r.2, dst := dst }
    else
      let stream : CTRStream := { key := block, iv := iv, pos := 0 }
      copyStream aes stream aesBlockSize r.2 dst

/-- `copyEncrypt` of `crypto.go`; `rnd` is the outcome of
`io.ReadFull(rand.Reader, iv)`, an error or the 16 random bytes. -/
def copyEncrypt {ω : Type} [IOWriter ω] (aes : List UInt8 → List UInt8 → List UInt8)
    (rnd : Except Err (List UInt8)) (key : List UInt8) (src : Reader) (dst : ω) :
    Option (CopyResult ω) :=
  match aesNewCipher key with
  | .error e => some { n := 0, err := some e, src := src, dst := dst }
  | .ok block =>
    match rnd with
    | .error e => some { n := 0, err := some e, src := src, dst := dst }
    | .ok iv =>
      let w := IOWriter.write dst iv
      if w.1.2 ≠ none then some { n := 0, err := w.1.2, src := src, dst := w.2 }
      else
        let stream : CTRStream := { key := block, iv := iv, pos := 0 }
        copyStream aes stream aesBlockSize src w.2

/-- The script after `k` bytes have been read from it, the reading stopping
as soon as the `k` bytes are there. -/
def advanceEvents : List ReadEvent → Nat → List ReadEvent
  | [], _ => []
  | (b, e) :: rest, k =>
    if k = 0 then (b, e) :: rest
    else if b.length ≤ k then advanceEvents rest (k - b.length)
    else (b.drop k, e) :: rest

/-- The reader after `k` bytes have been read from it, the reading stopping
as soon as the `k` bytes are there. -/
def Reader.advance : Reader → Nat → Reader
  | .script events, k => .script (advanceEvents events k)
  | .tee src buf, k => .tee (src.advance k) (buf ++ src.content.take k)
  | .limit src n, k => .limit (src.advance (min k n.toNat)) (n - (min k n.toNat : Nat))

/-- The reader after everything has been read from it: an empty script, a
tee buffer that has received the whole content, and a limited reader whose
source has been read up to the limit or to its end. -/
def Reader.drained : Reader → Reader
  | .script _ => .script []
  | .tee src buf => .tee src.drained (buf ++ src.content)
  | .limit src n =>
    if n.toNat ≤ src.content.length then .limit (src.advance n.toNat) (n - (n.toNat : Nat))
    else .limit src.drained (n - (src.content.length : Nat))

/-- A family `ok` of writers on which every `Write` succeeds in full;
`app w p` is the writer `w` after it has accepted the bytes `p`. -/
structure Accepts {ω : Type} [IOWriter ω] (ok : ω → Prop) (app : ω → List UInt8 → ω) :
    Prop where
  write_eq : ∀ w p, ok w → IOWriter.write w p = ((p.length, none), app w p)
  ok_app : ∀ w p, ok w → ok (app w p)
  app_nil : ∀ w, ok w → app w [] = w
  app_app : ∀ w p q, app (app w p) q = app w (p ++ q)

/-- A stand-in block function for examples: each byte of the counter block
is added to the matching key byte. -/
def exampleBlock (key blk : List UInt8) : List UInt8 :=
  List.zipWith (fun k b => k + b) key blk

/-- A 32-byte key for examples. -/
def exampleKey : List UInt8 := List.replicate 32 7

/-- A 16-byte IV for examples. -/
def exampleIV : List UInt8 := List.replicate 16 9

/-! ## Frames and the default decoder (`p2p/message.go`, `p2p/encoding.go`) -/

/-- `IncomingMessage` of `p2p/message.go`. -/
def IncomingMessage : UInt8 := 0x1

/-- `IncomingStream` of `p2p/message.go`. -/
def IncomingStream : UInt8 := 0x2

/-- `RPC` of `p2p/message.go`; a `nil` payload is the empty list. -/
structure RPC where
  From : String
  Payload : List UInt8
  Stream : Bool
deriving DecidableEq, Repr

/-- The zero value `RPC{}`. -/
def RPC.fresh : RPC :=
  { From := "", Payload := [], Stream := false }

/-- `DefaultDecoder.Decode` of `p2p/encoding.go`: the returned error, the frame
as the call left it, and the reader afterwards.  `peekBuf` starts as one zero
byte, which a `Read` that copies nothing leaves in place. -/
def DefaultDecoder.Decode (r : Reader) (msg : RPC) : Option Err × RPC × Reader :=
  let p := r.read 1
  let peekBuf := p.1.1 ++ List.replicate (1 - p.1.1.length) 0
  if p.1.2 ≠ none then (none, msg, p.2)
  else
    let stream := peekBuf.getD 0 0 == IncomingStream
    if stream then (none, { msg with Stream := true }, p.2)
    else
      let q := p.2.read 1028
      if q.1.2 ≠ none then (q.1.2, msg, q.2)
      else (none, { msg with Payload := q.1.1 }, q.2)

/-! ## File system (package `os`) -/

/-- A node of the file tree: a directory or a regular file with its content. -/
inductive Node where
  | dir
  | file (content : List UInt8)
deriving DecidableEq, Repr

/-- Modelled from the spec: the file system below the working directory, a map
from normalised paths (the names from the working directory down) to nodes.
Permissions, links and disk exhaustion are not represented. -/
structure FS where
  nodes : List String → Option Node

/-- Modelled from the spec: `NAME_MAX` of Linux, the longest name in bytes that
a directory looks up; a longer one fails with `ENAMETOOLONG`. -/
def nameMax : Nat := 255

/-- Modelled from the spec: `PATH_MAX` of Linux: a system call takes a path
only when it is shorter than this many bytes, and fails with `ENAMETOOLONG`
before any lookup otherwise. -/
def pathMax : Nat := 4096

/-- The empty file system. -/
def FS.empty : FS :=
  { nodes := fun _ => none }

/-- The node at a normalised path; the working directory itself always exists. -/
def FS.get (fs : FS) (p : List String) : Option Node :=
  if p = [] then some Node.dir else fs.nodes p

/-- The file system with the node at `p` replaced. -/
def FS.set (fs : FS) (p : List String) (n : Node) : FS :=
  { nodes := fun q => if q = p then some n else fs.nodes q }

/-- The file system without `p` and everything below it. -/
def FS.removeTree (fs : FS) (p : List String) : FS :=
  { nodes := fun q => if p.isPrefixOf q then none else fs.nodes q }

/-- Path resolution as the kernel performs it: every component is looked up in
a directory that must exist, `""` and `"."` stay in place, `".."` moves up, and
a name longer than `nameMax` is not looked up (`ENAMETOOLONG`).
The result is the normalised path of the last component, which need not exist. -/
def FS.walk (fs : FS) : List String → List String → Except Err (List String)
  | cur, [] => .ok cur
  | cur, c :: rest =>
    match fs.get cur with
    | none => .error Err.ENOENT
    | some (Node.file _) => .error Err.ENOTDIR
    | some Node.dir =>
      if c = "" ∨ c = "." then fs.walk cur rest
      else if c = ".." then fs.walk cur.dropLast rest
      else if nameMax < c.utf8ByteSize then .error Err.ENAMETOOLONG
      else fs.walk (cur ++ [c]) rest

/-- Resolution of a path string handed to a system call; the empty path does
not resolve, and a path of `pathMax` bytes or more is refused before any
lookup. -/
def FS.resolve (fs : FS) (path : String) : Except Err (List String) :=
  if path = "" then .error Err.ENOENT
  else if pathMax ≤ path.utf8ByteSize then .error Err.ENAMETOOLONG
  else fs.walk [] (stringsSplit path '/')

/-- Modelled from the spec: `os.Stat(path)`: the node, or `ENOENT` when a component
is missing, or `ENOTDIR` when a component that must be a directory is a file,
or `ENAMETOOLONG` when the path or a name that is looked up is too long. -/
def osStat (fs : FS) (path : String) : Except Err Node :=
  match fs.resolve path with
  | .error e => .error e
  | .ok p =>
    match fs.get p with
    | none => .error Err.ENOENT
    | some n => .ok n

/-- `errors.Is(err, os.ErrNotExist)`. -/
def isNotExist (err : Option Err) : Bool :=
  err = some Err.ENOENT

/-- Creation of the directories along the components of a path, left to
right, resolving as `FS.walk` does and making each missing directory; the
directories made before a failure stay. -/
def FS.mkdirWalk (fs : FS) : List String → List String → Option Err × FS
  | cur, [] =>
    match fs.get cur with
    | some Node.dir => (none, fs)
    | some (Node.file _) => (some Err.ENOTDIR, fs)
    | none => (some Err.ENOENT, fs)
  | cur, c :: rest =>
    match fs.get cur with
    | none => (some Err.ENOENT, fs)
    | some (Node.file _) => (some Err.ENOTDIR, fs)
    | some Node.dir =>
      if c = "" ∨ c = "." then fs.mkdirWalk cur rest
      else if c = ".." then fs.mkdirWalk cur.dropLast rest
      else if nameMax < c.utf8ByteSize then (some Err.ENAMETOOLONG, fs)
      else
        match fs.get (cur ++ [c]) with
        | none => (fs.set (cur ++ [c]) Node.dir).mkdirWalk (cur ++ [c]) rest
        | some _ => fs.mkdirWalk (cur ++ [c]) rest

/-- Modelled from the spec: the leading components of a path that, joined by
`/` after `used` bytes, still make a path shorter than `pathMax`. -/
def shortComps (used : Nat) : List String → List String
  | [] => []
  | c :: rest =>
    if used + c.utf8ByteSize < pathMax then c :: shortComps (used + c.utf8ByteSize + 1) rest
    else []

/-- Modelled from the spec: `os.MkdirAll(path, perm)`: create the directory and all
missing parents; fail when a component is a regular file.  For a path of
`pathMax` bytes or more the leading directories whose own path is short enough
are made as for any path, and the call then fails (`ENAMETOOLONG`). -/
def osMkdirAll (fs : FS) (path : String) : Option Err × FS :=
  if path = "" then (some Err.ENOENT, fs)
  else if pathMax ≤ path.utf8ByteSize then
    let m := fs.mkdirWalk [] (shortComps 0 (stringsSplit path '/'))
    (some (m.1.getD Err.ENAMETOOLONG), m.2)
  else fs.mkdirWalk [] (stringsSplit path '/')

/-- An open file: the file system it lives in and its normalised path. -/
structure FileHandle where
  fs : FS
  path : List String

/-- `Write` on an open file appends to its content. -/
def FileHandle.write (f : FileHandle) (p : List UInt8) : (Nat × Option Err) × FileHandle :=
  match f.fs.get f.path with
  | some (Node.file c) => ((p.length, none), { f with fs := f.fs.set f.path (Node.file (c ++ p)) })
  | _ => ((0, some Err.EINVAL), f)

instance : IOWriter FileHandle := ⟨FileHandle.write⟩

/-- Modelled from the spec: `os.Create(path)`: create or truncate the file; the
parent must be an existing directory and the target must not be a directory. -/
def osCreate (fs : FS) (path : String) : Except Err FileHandle :=
  match fs.resolve path with
  | .error e => .error e
  | .ok p =>
    match fs.get p with
    | some Node.dir => .error Err.EISDIR
    | _ => .ok { fs := fs.set p (Node.file []), path := p }

/-- Modelled from the spec: `os.Open(path)` followed by `file.Stat()`: the size and a
reader over the content.  A directory opens too; its size is not specified
(0 here) and reading it fails. -/
def osOpen (fs : FS) (path : String) : Except Err (Nat × Reader) :=
  match osStat fs path with
  | .error e => .error e
  | .ok (Node.file c) => .ok (c.length, bytesReader c)
  | .ok Node.dir => .ok (0, .script [([], some Err.EISDIR)])

/-- Modelled from the spec: the first step of `splitPath` of package `os`, all
but one of the leading `/` of a path dropped. -/
def dropLeadingSlashes : List Char → List Char
  | [] => []
  | c :: rest =>
    if c = '/' then
      match rest with
      | '/' :: _ => dropLeadingSlashes rest
      | _ => c :: rest
    else c :: rest

/-- Modelled from the spec: `splitPath` of package `os`: the directory and the
base name of a path, after all but one leading `/` and the trailing `/` have
been dropped; the directory of a path without `/` is `.`. -/
def splitPath (path : String) : String × String :=
  let trimmed : List Char :=
    match dropLeadingSlashes path.data with
    | [] => []
    | c :: rest => c :: (rest.reverse.dropWhile (fun x => x = '/')).reverse
  let base := (trimmed.reverse.takeWhile (fun x => x ≠ '/')).reverse
  if trimmed.length ≤ 1 ∨ base.length = trimmed.length then (".", String.mk trimmed)
  else if base.length + 1 = trimmed.length then ("/", String.mk base)
  else (String.mk (trimmed.take (trimmed.length - base.length - 1)), String.mk base)

/-- Modelled from the spec: `os.RemoveAll(path)` as on Linux: remove the node and
everything below it; a path that does not exist is not an error, a path
through a regular file is (`ENOTDIR`).  The removal is tried on the path and
then from its directory (`splitPath`), so that only a path whose directory is
too long as well fails with `ENAMETOOLONG` before any lookup.  For a path
whose last component is `.` or `..`, or that names the working directory
itself, only the fact that an error comes back is represented. -/
def osRemoveAll (fs : FS) (path : String) : Option Err × FS :=
  if path = "" then (none, fs)
  else if (stringsSplit path '/').getLast? = some "." ∨
      (stringsSplit path '/').getLast? = some ".." then (some Err.EINVAL, fs)
  else if pathMax ≤ path.utf8ByteSize ∧ pathMax ≤ (splitPath path).1.utf8ByteSize then
    (some Err.ENAMETOOLONG, fs)
  else
    match fs.walk [] (stringsSplit path '/') with
    | .error Err.ENOENT => (none, fs)
    | .error e => (some e, fs)
    | .ok p =>
      if p = [] then (some Err.EBUSY, fs)
      else (none, fs.removeTree p)

/-! ## The store (`store.go`) -/

/-- `defaultRootFolderName` of `store.go`. -/
def defaultRootFolderName : String := "ggnetwork"

/-- `StoreOpts` of `store.go`; a `nil` transform function is `none`. -/
structure StoreOpts where
  Root : String
  PathTransformFunc : Option (String → PathKey)

/-- `Store` of `store.go`, after `NewStore` has filled in the defaults. -/
structure Store where
  Root : String
  PathTransformFunc : String → PathKey

/-- `NewStore` of `store.go`. -/
def NewStore (opts : StoreOpts) : Store :=
  { Root := if opts.Root.length = 0 then defaultRootFolderName else opts.Root
    PathTransformFunc :=
      match opts.PathTransformFunc with
      | none => DefaultPathTransformFunc
      | some f => f }

/-- `Store.Has` of `store.go`: `!errors.Is(err, os.ErrNotExist)` on the result
of `os.Stat`. -/
def Store.Has (s : Store) (fs : FS) (id key : String) : Bool :=
  let pathKey := s.PathTransformFunc key
  let fullPathWithRoot := s.Root ++ "/" ++ id ++ "/" ++ pathKey.FullPath
  match osStat fs fullPathWithRoot with
  | .ok _ => !isNotExist none
  | .error e => !isNotExist (some e)

/-- `Store.Clear` of `store.go`. -/
def Store.Clear (s : Store) (fs : FS) : Option Err × FS :=
  osRemoveAll fs s.Root

/-- `Store.Delete` of `store.go`. -/
def Store.Delete (s : Store) (fs : FS) (id key : String) : Option Err × FS :=
  let pathKey := s.PathTransformFunc key
  let firstPathNameWithRoot := s.Root ++ "/" ++ id ++ "/" ++ pathKey.FirstPathName
  osRemoveAll fs firstPathNameWithRoot

/-- `Store.openFileForWriting` of `store.go`: the open file, or the error and
the file system as the failed call left it. -/
def Store.openFileForWriting (s : Store) (fs : FS) (id key : String) :
    Except (Err × FS) FileHandle :=
  let pathKey := s.PathTransformFunc key
  let pathNameWithRoot := s.Root ++ "/" ++ id ++ "/" ++ pathKey.PathName
  let m := osMkdirAll fs pathNameWithRoot
  match m.1 with
  | some e => .error (e, m.2)
  | none =>
    let fullPathWithRoot := s.Root ++ "/" ++ id ++ "/" ++ pathKey.FullPath
    match osCreate m.2 fullPathWithRoot with
    | .error e => .error (e, m.2)
    | .ok f => .ok f

/-- The outcome of a store write: byte count, error, the file system and the
reader afterwards. -/
structure WriteResult where
  n : Nat
  err : Option Err
  fs : FS
  src : Reader

/-- `Store.writeStream` of `store.go`. -/
def Store.writeStream (s : Store) (fs : FS) (id key : String) (r : Reader) :
    Option WriteResult :=
  match s.openFileForWriting fs id key with
  | .error e => some { n := 0, err := some e.1, fs := e.2, src := r }
  | .ok f =>
    match ioCopy f r with
    | none => none
    | some c => some { n := c.n, err := c.err, fs := c.dst.fs, src := c.src }

/-- `Store.Write` of `store.go`. -/
def Store.Write (s : Store) (fs : FS) (id key : String) (r : Reader) : Option WriteResult :=
  s.writeStream fs id key r

/-- `Store.WriteDecrypt` of `store.go`. -/
def Store.WriteDecrypt (aes : List UInt8 → List UInt8 → List UInt8) (s : Store) (fs : FS)
    (encKey : List UInt8) (id key : String) (r : Reader) : Option WriteResult :=
  match s.openFileForWriting fs id key with
  | .error e => some { n := 0, err := some e.1, fs := e.2, src := r }
  | .ok f =>
    match copyDecrypt aes encKey r f with
    | none => none
    | some c => some { n := c.n, err := c.err, fs := c.dst.fs, src := c.src }

/-- `Store.readStream` of `store.go`: size, reader and error. -/
def Store.readStream (s : Store) (fs : FS) (id key : String) : Except Err (Nat × Reader) :=
  let pathKey := s.PathTransformFunc key
  let fullPathWithRoot := s.Root ++ "/" ++ id ++ "/" ++ pathKey.FullPath
  osOpen fs fullPathWithRoot

/-- `Store.Read` of `store.go`. -/
def Store.Read (s : Store) (fs : FS) (id key : String) : Except Err (Nat × Reader) :=
  s.readStream fs id key

/-- A write for examples: node `node` writes the bytes `1, 2, 3` under the key
`foo_1` into an empty CAS store rooted at `ggnetwork`. -/
def exampleWrite : WriteResult :=
  match Store.Write { Root := "ggnetwork", PathTransformFunc := CASPathTransformFunc }
      FS.empty "node" "foo_1" (bytesReader [1, 2, 3]) with
  | some res => res
  | none => { n := 0, err := some Err.EOF, fs := FS.empty, src := .script [] }

/-- The file system that `exampleWrite` leaves. -/
def exampleFS : FS := exampleWrite.fs

/-- A file system for examples in which `ggnetwork/node1` is a regular file. -/
def exampleFileAsDir : FS :=
  (FS.empty.set ["ggnetwork"] Node.dir).set ["ggnetwork", "node1"] (Node.file [])

/-- A node id for examples that is 4000 bytes long. -/
def exampleLongId : String :=
  String.mk (List.replicate 4000 'a')

/-! ## Peers and the file server (`p2p/tcp_transport.go`, `server.go`) -/

/-- `TCPPeer` of `p2p/tcp_transport.go`.  The embedded connection is its remote
address, the bytes written to it so far (`conn`) and the bytes still to arrive
on it (`input`); `wg` is the counter of the wait group. -/
structure TCPPeer where
  addr : String
  outbound : Bool
  conn : Sink
  input : Reader
  wg : Int
deriving Repr

/-- `Write` of the embedded `net.Conn`. -/
def TCPPeer.write (p : TCPPeer) (b : List UInt8) : (Nat × Option Err) × TCPPeer :=
  let r := p.conn.write b
  (r.1, { p with conn := r.2 })

instance : IOWriter TCPPeer := ⟨TCPPeer.write⟩

/-- `TCPPeer.Send` of `p2p/tcp_transport.go`. -/
def TCPPeer.Send (p : TCPPeer) (b : List UInt8) : Option Err × TCPPeer :=
  let r := p.write b
  (r.1.2, r.2)

/-- `io.MultiWriter(writers...)`. -/
structure MultiWriter (ω : Type) where
  writers : List ω

instance {ω : Type} [IOWriter ω] : IOWriter (MultiWriter ω) :=
  ⟨fun m p => ((multiWrite m.writers p).1, { writers := (multiWrite m.writers p).2 })⟩

/-- `MessageStoreFile` of `server.go`. -/
structure MessageStoreFile where
  ID : String
  Key : String
  Size : Int
deriving DecidableEq, Repr

/-- `MessageGetFile` of `server.go`. -/
structure MessageGetFile where
  ID : String
  Key : String
deriving DecidableEq, Repr

/-- `Message` of `server.go`; the payload is one of the two registered types. -/
inductive Message where
  | storeFile (m : MessageStoreFile)
  | getFile (m : MessageGetFile)
deriving DecidableEq, Repr

/-- Modelled from the spec: the library functions whose values the server code
only passes along: the AES block function, `md5.Sum`, and the `encoding/gob`
encoding of a message. -/
structure Lib where
  aes : List UInt8 → List UInt8 → List UInt8
  md5Sum : List UInt8 → List UInt8
  gobEncode : Message → Except Err (List UInt8)

/-- `hashKey` of `crypto.go`. -/
def hashKey (lib : Lib) (key : String) : String :=
  hexEncodeToString (lib.md5Sum (stringBytes key))

/-- `FileServer` of `server.go`: identity, key, store with its disk, and the
peer map as a list of peers carrying their remote address. -/
structure FileServer where
  ID : String
  EncKey : List UInt8
  store : Store
  disk : FS
  peers : List TCPPeer

/-- Loop of `FileServer.broadcast`: the message sentinel (its error ignored),
then the encoded message, to each peer; stops at the first failed send. -/
def broadcastLoop (buf : List UInt8) : List TCPPeer → Option Err × List TCPPeer
  | [] => (none, [])
  | peer :: rest =>
    let s1 := peer.Send [IncomingMessage]
    let s2 := s1.2.Send buf
    match s2.1 with
    | some e => (some e, s2.2 :: rest)
    | none =>
      let r := broadcastLoop buf rest
      (r.1, s2.2 :: r.2)

/-- `FileServer.broadcast` of `server.go`. -/
def FileServer.broadcast (lib : Lib) (s : FileServer) (msg : Message) :
    Option Err × FileServer :=
  match lib.gobEncode msg with
  | .error e => (some e, s)
  | .ok buf =>
    let r := broadcastLoop buf s.peers
    (r.1, { s with peers := r.2 })

/-- `FileServer.Store` of `server.go`; `rnd` is the outcome of the random
source inside `copyEncrypt`.  `none` stands for a copy loop that has not ended. -/
def FileServer.Store (lib : Lib) (rnd : Except Err (List UInt8)) (s : FileServer)
    (key : String) (r : Reader) : Option (Option Err × FileServer) :=
  let tee := Reader.tee r []
  match s.store.Write s.disk s.ID key tee with
  | none => none
  | some w =>
    let s1 := { s with disk := w.fs }
    match w.err with
    | some e => some (some e, s1)
    | none =>
      let fileBuffer := w.src.teeBuf
      let msg := Message.storeFile
        { ID := s.ID, Key := hashKey lib key, Size := (w.n : Int) + 16 }
      let b := s1.broadcast lib msg
      match b.1 with
      | some e => some (some e, b.2)
      | none =>
        let mw : MultiWriter TCPPeer := { writers := b.2.peers }
        let mw1 := (IOWriter.write mw [IncomingStream]).2
        match copyEncrypt lib.aes rnd s.EncKey (bytesReader fileBuffer) mw1 with
        | none => none
        | some c =>
          match c.err with
          | some e => some (some e, { b.2 with peers := c.dst.writers })
          | none => some (none, { b.2 with peers := c.dst.writers })

/-- Library functions for examples: the stand-in block function, a digest that
keeps the first four bytes, and an encoding that carries the size in one byte. -/
def exampleLib : Lib :=
  { aes := exampleBlock
    md5Sum := fun bs => bs.take 4
    gobEncode := fun m =>
      match m with
      | .storeFile sf => .ok [0x53, sf.Size.toNat.toUInt8]
      | .getFile _ => .ok [0x47] }

/-- A file server for examples with two connected peers whose connections
have received nothing yet. -/
def exampleServer : FileServer :=
  { ID := "node"
    EncKey := exampleKey
    store := NewStore { Root := "", PathTransformFunc := some DefaultPathTransformFunc }
    disk := FS.empty
    peers :=
      [ { addr := ":3000", outbound := true, conn := Sink.buffer [], input := .script [],
          wg := 0 },
        { addr := ":7000", outbound := true, conn := Sink.buffer [], input := .script [],
          wg := 0 } ] }

/-- A source for examples: three bytes in two chunks, the last one handed over
together with `io.EOF`. -/
def exampleSource : Reader :=
  .script [([10, 20], none), ([30], some Err.EOF)]

/-! ## Binary encoding of sizes (package `encoding/binary`) and `io.ReadFull` -/

/-- Loop of `io.ReadFull(r, buf)` with `len(buf) = want`: `acc` holds the bytes
read so far.  `none` stands for a loop that has not ended within `fuel`
iterations. -/
def readFullLoop : Nat → Reader → Nat → List UInt8 → Option ((List UInt8 × Option Err) × Reader)
  | 0, _, _, _ => none
  | fuel + 1, r, want, acc =>
    if want ≤ acc.length then some ((acc, none), r)
    else
      let x := r.read (want - acc.length)
      let acc1 := acc ++ x.1.1
      if x.1.2 ≠ none then
        if want ≤ acc1.length then some ((acc1, none), x.2)
        else if 0 < acc1.length ∧ x.1.2 = some Err.EOF then
          some ((acc1, some Err.ErrUnexpectedEOF), x.2)
        else some ((acc1, x.1.2), x.2)
      else readFullLoop fuel x.2 want acc1

/-- Modelled from the spec: `io.ReadFull(r, buf)` of the Go standard library: the
bytes read, the error (`nil` exactly when the buffer was filled) and the reader
afterwards. -/
def ioReadFull (r : Reader) (want : Nat) : Option ((List UInt8 × Option Err) × Reader) :=
  readFullLoop (r.fuel + 1) r want []

/-- Little-endian value of a byte list. -/
def leValue : List UInt8 → Nat
  | [] => 0
  | b :: bs => b.toNat + 256 * leValue bs

/-- The 8 bytes of a 64-bit integer in little-endian order (two's complement). -/
def int64LE (v : Int) : List UInt8 :=
  (List.range 8).map fun i => (((v % 2 ^ 64).toNat >>> (8 * i)) % 256).toUInt8

/-- The signed 64-bit integer that 8 little-endian bytes stand for. -/
def int64OfLE (bs : List UInt8) : Int :=
  if leValue bs < 2 ^ 63 then (leValue bs : Int) else (leValue bs : Int) - 2 ^ 64

/-- Modelled from the spec: `binary.Read(r, binary.LittleEndian, &v)` for an `int64`
that starts as `v0`: 8 bytes are read in full and decoded; on an error `v` keeps
its value. -/
def binaryReadInt64 (r : Reader) (v0 : Int) : Option ((Int × Option Err) × Reader) :=
  match ioReadFull r 8 with
  | none => none
  | some x =>
    match x.1.2 with
    | some e => some ((v0, some e), x.2)
    | none => some ((int64OfLE x.1.1, none), x.2)

/-- Modelled from the spec: `binary.Write(w, binary.LittleEndian, v)` for an `int64`:
one `Write` of the 8 bytes. -/
def binaryWriteInt64 {ω : Type} [IOWriter ω] (w : ω) (v : Int) : Option Err × ω :=
  let r := IOWriter.write w (int64LE v)
  (r.1.2, r.2)

/-! ## Message handlers and `Get` (`server.go`) -/

/-- `TCPPeer.CloseStream` of `p2p/tcp_transport.go`: `wg.Done()`, which takes
one off the counter of the wait group and panics when the counter would go
negative; `none` is that panic. -/
def TCPPeer.CloseStream (p : TCPPeer) : Option TCPPeer :=
  if p.wg ≤ 0 then none else some { p with wg := p.wg - 1 }

/-- The map lookup `s.peers[addr]`. -/
def lookupPeer : List TCPPeer → String → Option TCPPeer
  | [], _ => none
  | p :: rest, addr => if p.addr = addr then some p else lookupPeer rest addr

/-- The peer stored under `addr` replaced by its new state. -/
def updatePeer : List TCPPeer → String → TCPPeer → List TCPPeer
  | [], _, _ => []
  | p :: rest, addr, q => if p.addr = addr then q :: rest else p :: updatePeer rest addr q

/-- `FileServer.handleMessageStoreFile` of `server.go`; `none` stands for a call
that does not return: a copy loop that has not ended, or the panic of
`CloseStream`. -/
def FileServer.handleMessageStoreFile (s : FileServer) (sender : String)
    (msg : MessageStoreFile) : Option (Option Err × FileServer) :=
  match lookupPeer s.peers sender with
  | none => some (some (Err.other "peer could not be found in the peer list"), s)
  | some peer =>
    match s.store.Write s.disk msg.ID msg.Key (Reader.limit peer.input msg.Size) with
    | none => none
    | some w =>
      let peer1 := { peer with input := w.src.inner }
      match w.err with
      | some e => some (some e, { s with disk := w.fs, peers := updatePeer s.peers sender peer1 })
      | none =>
        match peer1.CloseStream with
        | none => none
        | some peer2 =>
          some (none, { s with disk := w.fs, peers := updatePeer s.peers sender peer2 })

/-- `FileServer.handleMessageGetFile` of `server.go`; `none` stands for a copy
loop that has not ended. -/
def FileServer.handleMessageGetFile (s : FileServer) (sender : String)
    (msg : MessageGetFile) : Option (Option Err × FileServer) :=
  if !s.store.Has s.disk msg.ID msg.Key then
    some (some (Err.other "need to serve file but it does not exist on disk"), s)
  else
    match s.store.Read s.disk msg.ID msg.Key with
    | .error e => some (some e, s)
    | .ok (fileSize, r) =>
      match lookupPeer s.peers sender with
      | none => some (some (Err.other "peer not in map"), s)
      | some peer =>
        let p1 := (peer.Send [IncomingStream]).2
        let p2 := (binaryWriteInt64 p1 (fileSize : Int)).2
        match ioCopy p2 r with
        | none => none
        | some c =>
          match c.err with
          | some e => some (some e, { s with peers := updatePeer s.peers sender c.dst })
          | none => some (none, { s with peers := updatePeer s.peers sender c.dst })

/-- `FileServer.handleMessage` of `server.go`; `none` as in the handlers. -/
def FileServer.handleMessage (s : FileServer) (sender : String) (msg : Message) :
    Option (Option Err × FileServer) :=
  match msg with
  | .storeFile v => s.handleMessageStoreFile sender v
  | .getFile v => s.handleMessageGetFile sender v

/-- The loop of `FileServer.Get` over the peers: read the size (the error of
`binary.Read` is ignored), ingest through `WriteDecrypt` from a `LimitReader`
over the peer, and release the peer's read loop.  Returns the error, the disk
and the peers as the loop left them; `none` stands for a loop that does not
return: a copy loop that has not ended, or the panic of `CloseStream`. -/
def getLoop (lib : Lib) (store : Store) (encKey : List UInt8) (id key : String) :
    FS → List TCPPeer → Option (Option Err × FS × List TCPPeer)
  | fs, [] => some (none, fs, [])
  | fs, peer :: rest =>
    match binaryReadInt64 peer.input 0 with
    | none => none
    | some rd =>
      let fileSize := rd.1.1
      match Store.WriteDecrypt lib.aes store fs encKey id key (Reader.limit rd.2 fileSize) with
      | none => none
      | some w =>
        let peer1 := { peer with input := w.src.inner }
        match w.err with
        | some e => some (some e, w.fs, peer1 :: rest)
        | none =>
          match peer1.CloseStream with
          | none => none
          | some peer2 =>
            match getLoop lib store encKey id key w.fs rest with
            | none => none
            | some r => some (r.1, r.2.1, peer2 :: r.2.2)

/-- `FileServer.Get` of `server.go`: the reader or the error, and the server
afterwards; `none` stands for a call that does not return: a copy loop that
has not ended, or the panic of `CloseStream`. -/
def FileServer.Get (lib : Lib) (s : FileServer) (key : String) :
    Option (Except Err Reader × FileServer) :=
  if s.store.Has s.disk s.ID key then
    match s.store.Read s.disk s.ID key with
    | .error e => some (.error e, s)
    | .ok (_, r) => some (.ok r, s)
  else
    let msg := Message.getFile { ID := s.ID, Key := hashKey lib key }
    let b := s.broadcast lib msg
    match b.1 with
    | some e => some (.error e, b.2)
    | none =>
      match getLoop lib b.2.store b.2.EncKey b.2.ID key b.2.disk b.2.peers with
      | none => none
      | some g =>
        let s1 := { b.2 with disk := g.2.1, peers := g.2.2 }
        match g.1 with
        | some e => some (.error e, s1)
        | none =>
          match s1.store.Read s1.disk s1.ID key with
          | .error e => some (.error e, s1)
          | .ok (_, r) => some (.ok r, s1)

/-- A file server for examples that holds the bytes `1, 2, 3` under the key
`foo_1` in a CAS store and has the two peers of `exampleServer`. -/
def exampleHolder : FileServer :=
  { exampleServer with
    store := { Root := "ggnetwork", PathTransformFunc := CASPathTransformFunc }
    disk := exampleFS }

/-- A file server for examples with one peer whose read loop has met a stream
frame (`wg` is 1) and whose connection delivers five bytes and then ends. -/
def exampleReceiver : FileServer :=
  { exampleServer with
    peers :=
      [ { addr := ":3000", outbound := false, conn := Sink.buffer [],
          input := .script [([1, 2, 3, 4, 5], none)], wg := 1 } ] }

/-- The file that `exampleServer` opens for the key `pic` on its empty disk. -/
def exampleHandle : FileHandle :=
  match exampleServer.store.openFileForWriting FS.empty "node" "pic" with
  | .ok f => f
  | .error _ => { fs := FS.empty, path := [] }

/-- The server `exampleServer` after a `Get` of the key `pic`, which no peer answers. -/
def exampleFailedGet : FileServer :=
  match FileServer.Get exampleLib exampleServer "pic" with
  | some out => out.2
  | none => exampleServer

/-! ## The read loop of a connection (`TCPTransport.handleConn`) -/

/-- The state of one `handleConn` call once the handshake and `OnPeer` have
succeeded: the peer (its connection, what is still to arrive on it, and the
counter of its wait group), the frames sent on `rpcch` so far in order,
whether the loop has returned (the deferred `conn.Close()` has run), and
whether the loop is blocked in `peer.wg.Wait()`. -/
structure ConnState where
  peer : TCPPeer
  rpcch : List RPC
  closed : Bool
  waiting : Bool
deriving Repr

/-- The state in which the read loop starts. -/
def ConnState.start (peer : TCPPeer) : ConnState :=
  { peer := peer, rpcch := [], closed := false, waiting := false }

/-- One step of the read loop of `TCPTransport.handleConn` with the decoder
`dec`: blocked in `wg.Wait()` it goes on only when the counter is zero;
otherwise it decodes into a fresh `RPC{}`, returns on an error, stamps the
frame with the remote address, and either adds one to the wait group and
waits (stream frame) or sends the frame on `rpcch`. -/
def handleConnStep (dec : Reader → RPC → Option Err × RPC × Reader) (st : ConnState) :
    ConnState :=
  if st.closed then st
  else if st.waiting then
    if st.peer.wg = 0 then { st with waiting := false } else st
  else
    let d := dec st.peer.input RPC.fresh
    let peer1 := { st.peer with input := d.2.2 }
    match d.1 with
    | some _ => { st with peer := peer1, closed := true }
    | none =>
      let rpc := { d.2.1 with From := st.peer.addr }
      if rpc.Stream then
        { st with peer := { peer1 with wg := peer1.wg + 1 }, waiting := true }
      else { st with peer := peer1, rpcch := st.rpcch ++ [rpc] }

/-- The read loop after `n` steps on its own. -/
def handleConnLoop (dec : Reader → RPC → Option Err × RPC × Reader) : Nat → ConnState → ConnState
  | 0, st => st
  | n + 1, st => handleConnLoop dec n (handleConnStep dec st)

/-- What can happen next on a connection: the read loop takes a step, another
goroutine calls `peer.CloseStream()`, or another goroutine reads from the
connection into a buffer of `cap` bytes. -/
inductive ConnEvent where
  | loop
  | closeStream
  | read (cap : Nat)
deriving DecidableEq, Repr

/-- The effect of one event; `none` is the panic of `CloseStream`, which ends
the program. -/
def ConnState.apply (dec : Reader → RPC → Option Err × RPC × Reader) (st : ConnState) :
    ConnEvent → Option ConnState
  | .loop => some (handleConnStep dec st)
  | .closeStream =>
    match st.peer.CloseStream with
    | none => none
    | some p => some { st with peer := p }
  | .read cap =>
    some { st with peer := { st.peer with input := (st.peer.input.read cap).2 } }

/-- A run of the connection: the events in order, up to a panic, which ends
the program; the state is then the one in which the panic happened. -/
def handleConnRun (dec : Reader → RPC → Option Err × RPC × Reader) :
    ConnState → List ConnEvent → ConnState
  | st, [] => st
  | st, ev :: rest =>
    match st.apply dec ev with
    | none => st
    | some st1 => handleConnRun dec st1 rest

/-- A peer for examples whose connection has been closed by the remote side:
every `Read` returns `io.EOF`. -/
def exampleClosedPeer : TCPPeer :=
  { addr := ":3000", outbound := false, conn := Sink.buffer [], input := .script [], wg := 0 }

/-- A peer for examples on whose connection a message frame, a stream
sentinel and another message frame arrive. -/
def exampleBusyPeer : TCPPeer :=
  { addr := ":3000", outbound := false, conn := Sink.buffer [],
    input := .script [([1], none), ([65, 66], none), ([2], none), ([1], none), ([67], none)],
    wg := 0 }

/-- A file server for examples with an empty CAS store and the two peers of
`exampleServer`. -/
def exampleOrigin : FileServer :=
  { exampleServer with
    store := { Root := "ggnetwork", PathTransformFunc := CASPathTransformFunc } }

/-- The server `exampleOrigin` after it has stored `exampleSource` under `pic`. -/
def exampleStored : FileServer :=
  match FileServer.Store exampleLib (.ok exampleIV) exampleOrigin "pic" exampleSource with
  | some out => out.2
  | none => exampleOrigin

/-- The stream that `exampleOrigin` sends for `exampleSource`: the IV and the
ciphertext of the bytes `10, 20, 30`. -/
def exampleStream : List UInt8 :=
  exampleIV ++ xorBytes (ctrKeystream exampleLib.aes exampleKey exampleIV) 0 [10, 20, 30]

/-- A peer node for examples: it knows `exampleOrigin` under the address
`:3000`, its read loop has met the stream frame, and `exampleStream` is
arriving on the connection. -/
def exampleKeeper : FileServer :=
  { ID := "keeper"
    EncKey := exampleKey
    store := { Root := "keeper_network", PathTransformFunc := CASPathTransformFunc }
    disk := FS.empty
    peers :=
      [ { addr := ":3000", outbound := false, conn := Sink.buffer [],
          input := bytesReader exampleStream, wg := 1 } ] }

/-- The node `exampleKeeper` after it has handled the `StoreFile` message of
`exampleOrigin`. -/
def exampleKept : FileServer :=
  match exampleKeeper.handleMessageStoreFile ":3000"
      { ID := "node", Key := hashKey exampleLib "pic", Size := 19 } with
  | some out => out.2
  | none => exampleKeeper

/-- The server `exampleStored` after the local delete of `pic`, with one peer
on whose connection the answer to its `GetFile` request is arriving. -/
def exampleAsker : FileServer :=
  { exampleOrigin with
    disk := (exampleOrigin.store.Delete exampleStored.disk "node" "pic").2
    peers :=
      [ { addr := ":4000", outbound := true, conn := Sink.buffer [],
          input := bytesReader (int64LE 19 ++ exampleStream), wg := 1 } ] }

/-- The server `exampleAsker` when the same answer of its peer arrives in two
pieces: the size with the first 8 bytes of the IV, then the other 8 bytes of
the IV with the ciphertext. -/
def exampleSplitAsker : FileServer :=
  { exampleAsker with
    peers :=
      [ { addr := ":4000", outbound := true, conn := Sink.buffer [],
          input := .script [(int64LE 19 ++ exampleStream.take 8, none),
                            (exampleStream.drop 8, none)],
          wg := 1 } ] }

/-! ## Reference behaviour of `copyStream` -/

/-- What `copyStream` is to produce for a source that delivers the byte
sequence `S`, stated without any reference to `Read` calls: the output is `S`
XOR the first `|S|` keystream bytes, and the count is `blockSize + |S|`. -/
def copyStreamReference (ks : Nat → UInt8) (blockSize : Nat) (S : List UInt8) :
    List UInt8 × Nat :=
  ((List.range S.length).map (fun j => S.getD j 0 ^^^ ks j), blockSize + S.length)

/-! ## The peer map over the life of a server (`server.go`, `p2p/tcp_transport.go`) -/

/-- The map assignment `s.peers[addr] = q`: the entry under `addr` is replaced,
or added when there is none. -/
def setPeer : List TCPPeer → String → TCPPeer → List TCPPeer
  | [], _, q => [q]
  | p :: rest, addr, q => if p.addr = addr then q :: rest else p :: setPeer rest addr q

/-- `FileServer.OnPeer` of `server.go`: the peer is stored under its remote address. -/
def FileServer.OnPeer (s : FileServer) (p : TCPPeer) : Option Err × FileServer :=
  (none, { s with peers := setPeer s.peers p.addr p })

/-- `FileServer.Stop` of `server.go`: `close(s.quitch)`.  The channel is kept
beside the server as the flag `quit` (closed or not); closing a closed channel
panics, which is `none`. -/
def FileServer.Stop (s : FileServer) (quit : Bool) : Option (FileServer × Bool) :=
  if quit then none else some (s, true)

/-- `NOPHandshakeFunc` of `p2p/handshake.go`. -/
def NOPHandshakeFunc (_ : TCPPeer) : Option Err :=
  none

/-- `TCPTransport.handleConn` of `p2p/tcp_transport.go` for the new peer `peer`
(the result of `NewTCPPeer(conn, outbound)`), with `FileServer.OnPeer` as the
`OnPeer` callback as `main.go` sets it: the handshake, the callback, then the
read loop, here run along `events`.  A failed handshake or callback returns at
once, which closes the connection.  The result is the server and the state of
the connection. -/
def handleConn (dec : Reader → RPC → Option Err × RPC × Reader)
    (handshake : TCPPeer → Option Err) (s : FileServer) (peer : TCPPeer)
    (events : List ConnEvent) : FileServer × ConnState :=
  match handshake peer with
  | some _ => (s, { peer := peer, rpcch := [], closed := true, waiting := false })
  | none =>
    let o := s.OnPeer peer
    match o.1 with
    | some _ => (o.2, { peer := peer, rpcch := [], closed := true, waiting := false })
    | none => (o.2, handleConnRun dec (ConnState.start peer) events)

/-- The entries of a peer map, without the state of the connections: for each
peer the key it is stored under (its remote address) and whether its
connection was dialled. -/
def peerEntries (ps : List TCPPeer) : List (String × Bool) :=
  ps.map fun p => (p.addr, p.outbound)

/-- A peer for examples whose connection fails on every write. -/
def exampleBrokenPeer : TCPPeer :=
  { addr := ":9000", outbound := true, conn := { written := [], room := some 0 },
    input := .script [], wg := 0 }

/-- The server `exampleServer` with a third peer, stored first, whose connection
fails on every write. -/
def exampleCrowd : FileServer :=
  { exampleServer with peers := exampleBrokenPeer :: exampleServer.peers }

/-- The outcome of `Store` of `exampleSource` under `pic` on `exampleCrowd`. -/
def exampleCrowdStored : Option Err × FileServer :=
  match FileServer.Store exampleLib (.ok exampleIV) exampleCrowd "pic" exampleSource with
  | some out => out
  | none => (none, exampleCrowd)

/-- The outcome of the `StoreFile` message of 20 bytes on `exampleReceiver`. -/
def exampleReceived : Option Err × FileServer :=
  match exampleReceiver.handleMessage ":3000"
      (.storeFile { ID := "node", Key := "k", Size := 20 }) with
  | some out => out
  | none => (none, exampleReceiver)

/-- A peer for examples whose connection delivers a message tag and is then
reset. -/
def exampleResetPeer : TCPPeer :=
  { addr := ":8000", outbound := false, conn := Sink.buffer [],
    input := .script [([1], none), ([], some (Err.other "connection reset"))], wg := 0 }

/-! ## Paths without `..` -/

/-- The components of a path that move a walk downwards: all but `""` and `"."`. -/
def plainComps (cs : List String) : List String :=
  cs.filter fun c => !(c = "" || c = ".")

/-- A write for examples: the bytes `1, 2, 3` under the key `foo_1` and the node
id `node/.`, into an empty CAS store rooted at `ggnetwork`. -/
def exampleAliasWrite : WriteResult :=
  match Store.Write { Root := "ggnetwork", PathTransformFunc := CASPathTransformFunc }
      FS.empty "node/." "foo_1" (bytesReader [1, 2, 3]) with
  | some res => res
  | none => { n := 0, err := some Err.EOF, fs := FS.empty, src := .script [] }

/-- A write for examples into a CAS store whose root climbs back out of the
directory `a/node/95c73` (`95c73` are the first five hex characters of the
SHA-1 of `pic`). -/
def exampleClimbWrite : WriteResult :=
  match Store.Write { Root := "a/node/95c73/../..", PathTransformFunc := CASPathTransformFunc }
      FS.empty "other" "foo_1" (bytesReader [1, 2, 3]) with
  | some res => res
  | none => { n := 0, err := some Err.EOF, fs := FS.empty, src := .script [] }

/-- The file system of `exampleFS` after the bytes `4, 5` have been written
under the key `pic` too. -/
def exampleTwoBlobs : FS :=
  match Store.Write { Root := "ggnetwork", PathTransformFunc := CASPathTransformFunc }
      exampleFS "node" "pic" (bytesReader [4, 5]) with
  | some res => res.fs
  | none => exampleFS


/-! # Lemmas and theorems -/

/-! ## Lemmas: strings and hashing -/

theorem beBytes_length (n w : Nat) : (beBytes n w).length = w := by
  simp [beBytes]

theorem sha1Sum_length (data : List UInt8) : (sha1Sum data).length = 20 := by
  simp [sha1Sum, beBytes_length]

theorem flatMap_pair_length {α β : Type} (f g : α → β) (l : List α) :
    (l.flatMap fun b => [f b, g b]).length = 2 * l.length := by
  induction l with
  | nil => rfl
  | cons b bs ih =>
    rw [List.flatMap_cons, List.length_append, ih]
    simp only [List.length_cons, List.length_nil]
    omega

theorem hexEncodeToString_length (bs : List UInt8) :
    (hexEncodeToString bs).length = 2 * bs.length := by
  simp only [hexEncodeToString, String.length]
  exact flatMap_pair_length _ _ bs

theorem hextable_getD_mem (i : Nat) (h : i < 16) : hextable.getD i '0' ∈ hextable := by
  interval_cases i <;> simp [hextable]

theorem hexEncodeToString_mem (bs : List UInt8) (c : Char)
    (h : c ∈ (hexEncodeToString bs).data) : c ∈ hextable := by
  simp only [hexEncodeToString, List.mem_flatMap] at h
  obtain ⟨b, _, hc⟩ := h
  have hb : b.toNat < 256 := b.val.isLt
  simp only [List.mem_cons, List.mem_singleton, List.not_mem_nil, or_false] at hc
  rcases hc with rfl | rfl
  · exact hextable_getD_mem _ (by omega)
  · exact hextable_getD_mem _ (by omega)


theorem splitChars_append_sep (sep : Char) (w rest : List Char) (h : sep ∉ w) :
    splitChars sep (w ++ sep :: rest) = w :: splitChars sep rest := by
  induction w with
  | nil => simp [splitChars]
  | cons c w ih =>
    have hc : c ≠ sep := fun e => h (by simp [e])
    have hw : sep ∉ w := fun e => h (by simp [e])
    simp [splitChars, hc, ih hw]

theorem splitChars_no_sep (sep : Char) (w : List Char) (h : sep ∉ w) :
    splitChars sep w = [w] := by
  induction w with
  | nil => rfl
  | cons c w ih =>
    have hc : c ≠ sep := fun e => h (by simp [e])
    have hw : sep ∉ w := fun e => h (by simp [e])
    simp [splitChars, hc, ih hw]

theorem stringsSplit_stringsJoin (segs : List String) (hne : segs ≠ [])
    (h : ∀ s ∈ segs, '/' ∉ s.data) :
    stringsSplit (stringsJoin segs "/") '/' = segs := by
  induction segs with
  | nil => exact absurd rfl hne
  | cons s rest ih =>
    cases rest with
    | nil =>
      simp only [stringsJoin, stringsSplit]
      rw [splitChars_no_sep _ _ (h s (by simp))]
      rfl
    | cons t rest =>
      have hs := h s (by simp)
      have ih' := ih (by simp) (fun x hx => h x (List.mem_cons_of_mem _ hx))
      simp only [stringsSplit] at ih' ⊢
      simp only [stringsJoin, String.data_append]
      rw [List.append_assoc, List.singleton_append, splitChars_append_sep _ _ _ hs,
        List.map_cons, ih']

theorem cutBlocks_fuel (n k m : Nat) :
    ∀ l : List Char, l.length ≤ n * k → cutBlocks n (k + m) l = cutBlocks n k l := by
  induction k with
  | zero =>
    intro l hl
    have : l = [] := List.length_eq_zero.mp (by omega)
    subst this
    cases m <;> simp [cutBlocks]
  | succ k ih =>
    intro l hl
    have e : k + 1 + m = (k + m) + 1 := by omega
    rw [e]
    simp only [cutBlocks]
    split
    · rfl
    · rw [ih (l.drop n) (by simp [List.length_drop, Nat.mul_succ] at hl ⊢; omega)]

theorem slices_eq_cutBlocks (n : Nat) :
    ∀ l : List Char, l.length = 5 * n →
      ((List.range n).map fun i => goSlice (String.mk l) (i * 5) (i * 5 + 5))
        = cutBlocks 5 n l := by
  induction n with
  | zero => intro l _; rfl
  | succ n ih =>
    intro l hl
    have hne : l ≠ [] := by
      intro e; subst e; simp at hl
    rw [List.range_succ_eq_map, List.map_cons, List.map_map]
    simp only [cutBlocks, hne, if_false]
    rw [← ih (l.drop 5) (by simp [List.length_drop]; omega)]
    have h0 : goSlice (String.mk l) (0 * 5) (0 * 5 + 5) = String.mk (l.take 5) := by
      simp [goSlice]
    have hs : ∀ i : Nat, ((fun i => goSlice (String.mk l) (i * 5) (i * 5 + 5)) ∘ Nat.succ) i
        = goSlice (String.mk (l.drop 5)) (i * 5) (i * 5 + 5) := by
      intro i
      simp only [goSlice, Function.comp, List.drop_drop]
      have e1 : (i + 1) * 5 = 5 + i * 5 := by omega
      have e2 : (i + 1) * 5 + 5 - (i + 1) * 5 = 5 := by omega
      have e3 : i * 5 + 5 - i * 5 = 5 := by omega
      rw [e2, e3, e1]
    rw [h0, funext hs]


theorem cutBlocks_props (n : Nat) :
    ∀ l : List Char, l.length = 5 * n →
      (cutBlocks 5 n l).length = n ∧ (∀ s ∈ cutBlocks 5 n l, s.length = 5)
      ∧ (∀ s ∈ cutBlocks 5 n l, ∀ c ∈ s.data, c ∈ l)
      ∧ ((cutBlocks 5 n l).map String.data).flatten = l := by
  induction n with
  | zero =>
    intro l hl
    have : l = [] := List.length_eq_zero.mp (by omega)
    subst this
    simp [cutBlocks]
  | succ n ih =>
    intro l hl
    have hne : l ≠ [] := by
      intro e; subst e; simp at hl
    obtain ⟨h1, h2, h3, h4⟩ := ih (l.drop 5) (by simp [List.length_drop]; omega)
    simp only [cutBlocks, hne, if_false]
    refine ⟨by simp [h1], ?_, ?_, ?_⟩
    · intro s hs
      rcases List.mem_cons.mp hs with rfl | hs
      · simp [String.length, List.length_take]; omega
      · exact h2 s hs
    · intro s hs c hc
      rcases List.mem_cons.mp hs with rfl | hs
      · exact List.mem_of_mem_take hc
      · exact List.mem_of_mem_drop (h3 s hs c hc)
    · simp only [List.map_cons, List.flatten_cons, h4]
      exact List.take_append_drop 5 l


/-- The hex digest that `CASPathTransformFunc` computes for a key. -/
theorem hashStr_length (key : String) :
    (hexEncodeToString (sha1Sum (stringBytes key))).length = 40 := by
  rw [hexEncodeToString_length, sha1Sum_length]

theorem CASPathTransformFunc_eq (key : String) :
    CASPathTransformFunc key
      = { PathName := stringsJoin
            (cutBlocks 5 8 (hexEncodeToString (sha1Sum (stringBytes key))).data) "/"
          Filename := hexEncodeToString (sha1Sum (stringBytes key)) } := by
  have hl := hashStr_length key
  have hd : (hexEncodeToString (sha1Sum (stringBytes key))).data.length = 5 * 8 := hl
  have := slices_eq_cutBlocks 8 _ hd
  simp only [CASPathTransformFunc, hl]
  rw [← this]

/-- C3: for every key, the file name produced by `CASPathTransformFunc` is 40
lowercase hexadecimal characters, the path name splits at `/` into exactly 8
segments of exactly 5 characters each, and the segments concatenated in order
give the file name. -/
theorem CASPathTransformFunc_shape (key : String) :
    (CASPathTransformFunc key).Filename.length = 40
    ∧ (∀ c ∈ (CASPathTransformFunc key).Filename.data, c ∈ "0123456789abcdef".data)
    ∧ ∃ segs : List String,
        stringsSplit (CASPathTransformFunc key).PathName '/' = segs
        ∧ (CASPathTransformFunc key).PathName = stringsJoin segs "/"
        ∧ segs.length = 8
        ∧ (∀ s ∈ segs, s.length = 5)
        ∧ String.join segs = (CASPathTransformFunc key).Filename := by
  rw [CASPathTransformFunc_eq]
  have hl := hashStr_length key
  have hd : (hexEncodeToString (sha1Sum (stringBytes key))).data.length = 5 * 8 := hl
  obtain ⟨h1, h2, h3, h4⟩ := cutBlocks_props 8 _ hd
  refine ⟨hl, fun c hc => hexEncodeToString_mem _ c hc, _, ?_, rfl, h1, h2, ?_⟩
  · apply stringsSplit_stringsJoin
    · intro e
      rw [e] at h1
      exact absurd h1 (by decide)
    · intro s hs hmem
      have := hexEncodeToString_mem _ _ (h3 s hs _ hmem)
      revert this
      decide
  · rw [String.join_eq, h4]

/-- C4: for every key the file name is the lowercase hex rendering of the SHA-1
of the key's bytes and the path name is that hex string cut left to right into
5-character blocks joined by `/`; for the key `momsbestpicture` these are the
values of the repository's test. -/
theorem CASPathTransformFunc_sha1_hex :
    (∀ key : String,
      (CASPathTransformFunc key).Filename = hexEncodeToString (sha1Sum (stringBytes key))
      ∧ (CASPathTransformFunc key).PathName
          = stringsJoin
              (cutBlocks 5 (hexEncodeToString (sha1Sum (stringBytes key))).length
                (hexEncodeToString (sha1Sum (stringBytes key))).data) "/")
    ∧ CASPathTransformFunc "momsbestpicture"
        = { PathName := "68044/29f74/181a6/3c50c/3d81d/733a1/2f14a/353ff"
            Filename := "6804429f74181a63c50c3d81d733a12f14a353ff" } := by
  refine ⟨fun key => ?_, ?_⟩
  · rw [CASPathTransformFunc_eq]
    refine ⟨rfl, ?_⟩
    have hl := hashStr_length key
    have hd : (hexEncodeToString (sha1Sum (stringBytes key))).data.length ≤ 5 * 8 :=
      le_of_eq hl
    have := cutBlocks_fuel 5 8 32 _ hd
    rw [hl]
    exact congrArg (fun x => stringsJoin x "/") this.symm
  · set_option maxRecDepth 100000 in decide

/-! ## Lemmas: readers -/

theorem cleanEvents_cons (b : List UInt8) (e : Option Err) (rest : List ReadEvent)
    (h : cleanEvents ((b, e) :: rest) = true) :
    cleanEvents rest = true ∧ (e = none ∨ (e = some Err.EOF ∧ rest = [])) := by
  cases rest with
  | nil =>
    simp only [cleanEvents, Bool.or_eq_true, decide_eq_true_eq] at h
    rcases h with h | h
    · exact ⟨rfl, Or.inl h⟩
    · exact ⟨rfl, Or.inr ⟨h, rfl⟩⟩
  | cons ev rest =>
    simp only [cleanEvents, Bool.and_eq_true, decide_eq_true_eq] at h
    exact ⟨h.2, Or.inl h.1⟩

theorem cleanEvents_of_tail (b : List UInt8) (e : Option Err) (rest : List ReadEvent)
    (h : cleanEvents ((b, e) :: rest) = true) (b' : List UInt8) :
    cleanEvents ((b', e) :: rest) = true := by
  cases rest with
  | nil => simpa [cleanEvents] using h
  | cons ev rest => simpa [cleanEvents] using h

theorem Reader.read_length_le (src : Reader) (cap : Nat) :
    (src.read cap).1.1.length ≤ cap := by
  induction src generalizing cap with
  | script events =>
    cases events with
    | nil => simp [Reader.read]
    | cons ev rest =>
      obtain ⟨b, e⟩ := ev
      simp only [Reader.read]
      split
      · assumption
      · simp [List.length_take]
  | tee src buf ih => simpa [Reader.read] using ih cap
  | limit src n ih =>
    simp only [Reader.read]
    split
    · simp
    · have := ih (min cap n.toNat)
      simp only
      omega

theorem take_append_of_length_le {α : Type} (a b : List α) (k : Nat) (h : a.length ≤ k) :
    (a ++ b).take k = a ++ b.take (k - a.length) := by
  rw [List.take_append_eq_append_take, List.take_of_length_le h]

theorem Reader.read_content (src : Reader) (cap : Nat) :
    (src.read cap).1.1 ++ (src.read cap).2.content = src.content := by
  induction src generalizing cap with
  | script events =>
    cases events with
    | nil => simp [Reader.read, Reader.content]
    | cons ev rest =>
      obtain ⟨b, e⟩ := ev
      simp only [Reader.read]
      split
      · simp [Reader.content, List.flatMap_cons]
      · simp only [Reader.content, List.flatMap_cons]
        rw [← List.append_assoc, List.take_append_drop]
  | tee src buf ih => simpa [Reader.read, Reader.content] using ih cap
  | limit src n ih =>
    simp only [Reader.read]
    split
    · rename_i hn
      have : n.toNat = 0 := by omega
      simp [Reader.content, this]
    · rename_i hn
      have hlen := Reader.read_length_le src (min cap n.toNat)
      have hc := ih (min cap n.toNat)
      simp only [Reader.content]
      rw [← hc, take_append_of_length_le _ _ _ (by omega)]
      congr 2
      omega

theorem Reader.read_clean (src : Reader) (cap : Nat) (h : src.clean = true) :
    (src.read cap).2.clean = true
    ∧ ((src.read cap).1.2 = none ∨ (src.read cap).1.2 = some Err.EOF) := by
  induction src generalizing cap with
  | script events =>
    cases events with
    | nil => simp [Reader.read, Reader.clean, cleanEvents]
    | cons ev rest =>
      obtain ⟨b, e⟩ := ev
      simp only [Reader.clean] at h
      obtain ⟨h1, h2⟩ := cleanEvents_cons b e rest h
      simp only [Reader.read]
      split
      · refine ⟨by simpa [Reader.clean] using h1, ?_⟩
        rcases h2 with h2 | h2
        · exact Or.inl h2
        · exact Or.inr h2.1
      · exact ⟨by simpa [Reader.clean] using cleanEvents_of_tail b e rest h _, Or.inl rfl⟩
  | tee src buf ih =>
    simp only [Reader.clean] at h
    simpa [Reader.read, Reader.clean] using ih cap h
  | limit src n ih =>
    simp only [Reader.clean] at h
    simp only [Reader.read]
    split
    · exact ⟨by simpa [Reader.clean] using h, Or.inr rfl⟩
    · simpa [Reader.clean] using ih (min cap n.toNat) h

theorem advanceEvents_zero (events : List ReadEvent) : advanceEvents events 0 = events := by
  cases events with
  | nil => rfl
  | cons ev rest => obtain ⟨b, e⟩ := ev; simp [advanceEvents]

theorem Reader.advance_zero (src : Reader) : src.advance 0 = src := by
  induction src with
  | script events => simp [Reader.advance, advanceEvents_zero]
  | tee src buf ih => simp [Reader.advance, ih]
  | limit src n ih => simp [Reader.advance, ih]

/-- Reading up to `c` bytes and then advancing to `k` bytes in all is
advancing by `k`. -/
theorem Reader.advance_read (src : Reader) :
    ∀ (c k : Nat), 0 < k → c ≤ k →
      (src.read c).2.advance (k - (src.read c).1.1.length) = src.advance k := by
  induction src with
  | script events =>
    intro c k hk hck
    cases events with
    | nil => simp [Reader.read, Reader.advance, advanceEvents]
    | cons ev rest =>
      obtain ⟨b, e⟩ := ev
      have hk0 : k ≠ 0 := by omega
      simp only [Reader.read]
      split
      · rename_i hle
        have hbk : b.length ≤ k := by omega
        simp [Reader.advance, advanceEvents, hk0, hbk]
      · rename_i hgt
        have htk : (b.take c).length = c := by
          rw [List.length_take]; omega
        simp only [Reader.advance, htk, Reader.script.injEq]
        by_cases hkc : k - c = 0
        · have hkeq : k = c := by omega
          subst hkeq
          have : ¬ b.length ≤ k := hgt
          simp [advanceEvents, hk0, this]
        · by_cases hbk : b.length ≤ k
          · have h1 : (b.drop c).length ≤ k - c := by
              rw [List.length_drop]; omega
            have h2 : k - c - (b.drop c).length = k - b.length := by
              rw [List.length_drop]; omega
            rw [advanceEvents, if_neg hkc, if_pos h1, h2, advanceEvents, if_neg hk0, if_pos hbk]
          · have h1 : ¬ (b.drop c).length ≤ k - c := by
              rw [List.length_drop]; omega
            have h2 : c + (k - c) = k := by omega
            rw [advanceEvents, if_neg hkc, if_neg h1, advanceEvents, if_neg hk0, if_neg hbk,
              List.drop_drop, h2]
  | tee src buf ih =>
    intro c k hk hck
    have hlen := Reader.read_length_le src c
    have hc := Reader.read_content src c
    simp only [Reader.read, Reader.advance, ih c k hk hck, Reader.tee.injEq, true_and,
      List.append_assoc]
    rw [← hc, take_append_of_length_le _ _ _ (by omega)]
  | limit src n ih =>
    intro c k hk hck
    simp only [Reader.read]
    split
    · simp [Reader.advance]
    · rename_i hn
      have hlen := Reader.read_length_le src (min c n.toNat)
      have hmin : min (k - (src.read (min c n.toNat)).1.1.length)
          (n - ((src.read (min c n.toNat)).1.1.length : Nat)).toNat
          = min k n.toNat - (src.read (min c n.toNat)).1.1.length := by omega
      simp only [Reader.advance, hmin]
      rw [ih (min c n.toNat) (min k n.toNat) (by omega) (by omega)]
      congr 1
      omega

theorem Reader.drained_content (src : Reader) : src.drained.content = [] := by
  induction src with
  | script events => simp [Reader.drained, Reader.content]
  | tee src buf ih => simpa [Reader.drained, Reader.content] using ih
  | limit src n ih =>
    simp only [Reader.drained]
    split
    · have : (n - (n.toNat : Nat)).toNat = 0 := by omega
      simp [Reader.content, this]
    · simp [Reader.content, ih]

theorem Reader.read_drained (src : Reader) (cap : Nat) :
    (src.read cap).2.drained = src.drained := by
  induction src generalizing cap with
  | script events =>
    cases events with
    | nil => simp [Reader.read, Reader.drained]
    | cons ev rest =>
      obtain ⟨b, e⟩ := ev
      simp only [Reader.read]
      split <;> simp [Reader.drained]
  | tee src buf ih =>
    simp only [Reader.read, Reader.drained, ih, List.append_assoc]
    rw [Reader.read_content]
  | limit src n ih =>
    simp only [Reader.read]
    split
    · rfl
    · rename_i hn
      have hlen := Reader.read_length_le src (min cap n.toNat)
      have hc := Reader.read_content src (min cap n.toNat)
      have hcl : src.content.length = (src.read (min cap n.toNat)).1.1.length
          + (src.read (min cap n.toNat)).2.content.length := by
        rw [← hc, List.length_append]
      have ht : (n - ((src.read (min cap n.toNat)).1.1.length : Nat)).toNat
          = n.toNat - (src.read (min cap n.toNat)).1.1.length := by omega
      simp only [Reader.drained, ht]
      by_cases hle : n.toNat ≤ src.content.length
      · rw [if_pos hle, if_pos (by omega)]
        rw [Reader.advance_read src (min cap n.toNat) n.toNat (by omega) (by omega)]
        congr 1
        omega
      · rw [if_neg hle, if_neg (by omega), ih]
        congr 1
        omega

theorem Reader.read_eof (src : Reader) (cap : Nat) (h : src.clean = true)
    (he : (src.read cap).1.2 = some Err.EOF) :
    (src.read cap).2 = src.drained ∧ (src.read cap).1.1 = src.content := by
  induction src generalizing cap with
  | script events =>
    cases events with
    | nil => simp [Reader.read, Reader.drained, Reader.content]
    | cons ev rest =>
      obtain ⟨b, e⟩ := ev
      simp only [Reader.clean] at h
      obtain ⟨_, h2⟩ := cleanEvents_cons b e rest h
      simp only [Reader.read] at he ⊢
      split at he
      · rename_i hle
        simp only at he
        rcases h2 with h2 | ⟨_, h2⟩
        · rw [h2] at he; exact absurd he (by simp)
        · subst h2
          simp [hle, Reader.drained, Reader.content, List.flatMap_cons]
      · exact absurd he (by simp)
  | tee src buf ih =>
    simp only [Reader.clean] at h
    simp only [Reader.read] at he
    obtain ⟨h1, h2⟩ := ih cap h he
    simp [Reader.read, Reader.drained, Reader.content, h1, h2]
  | limit src n ih =>
    simp only [Reader.clean] at h
    simp only [Reader.read] at he ⊢
    split
    · rename_i hn
      have h0 : n.toNat = 0 := by omega
      simp [Reader.drained, Reader.content, h0, Reader.advance_zero]
    · rename_i hn
      rw [if_neg hn] at he
      obtain ⟨h1, h2⟩ := ih (min cap n.toNat) h he
      have hlen := Reader.read_length_le src (min cap n.toNat)
      rw [h2] at hlen
      simp only [h1, h2, Reader.drained, Reader.content]
      refine ⟨?_, (List.take_of_length_le (by omega)).symm⟩
      by_cases hle : n.toNat ≤ src.content.length
      · rw [if_pos hle]
        have hk : n.toNat = src.content.length := by omega
        have := Reader.advance_read src (min cap n.toNat) n.toNat (by omega) (by omega)
        rw [h1, h2, hk, Nat.sub_self, Reader.advance_zero] at this
        rw [hk, ← this]
      · rw [if_neg hle]

theorem Reader.read_fuel (src : Reader) (cap : Nat) (hcap : 0 < cap)
    (he : (src.read cap).1.2 = none) : (src.read cap).2.fuel < src.fuel := by
  induction src generalizing cap with
  | script events =>
    cases events with
    | nil => simp [Reader.read] at he
    | cons ev rest =>
      obtain ⟨b, e⟩ := ev
      simp only [Reader.read] at he ⊢
      split
      · simp only [Reader.fuel, List.map_cons, List.sum_cons]; omega
      · rename_i hgt
        simp only [Reader.fuel, List.map_cons, List.sum_cons, List.length_drop]; omega
  | tee src buf ih =>
    simp only [Reader.read] at he
    simpa [Reader.read, Reader.fuel] using ih cap hcap he
  | limit src n ih =>
    simp only [Reader.read] at he ⊢
    split
    · rename_i hn
      rw [if_pos hn] at he
      simp at he
    · rename_i hn
      rw [if_neg hn] at he
      simpa [Reader.fuel] using ih (min cap n.toNat) (by omega) he

/-! ## Lemmas: the CTR keystream and `copyStream` -/

theorem UInt8_xor_cancel (a k : UInt8) : (a ^^^ k) ^^^ k = a := by
  cases a with
  | mk a =>
    cases k with
    | mk k =>
      show UInt8.xor (UInt8.xor ⟨a⟩ ⟨k⟩) ⟨k⟩ = ⟨a⟩
      simp only [UInt8.xor]
      congr 1
      rw [BitVec.xor_assoc, BitVec.xor_self, BitVec.xor_zero]

theorem xorBytes_length (ks : Nat → UInt8) (l : List UInt8) :
    ∀ pos, (xorBytes ks pos l).length = l.length := by
  induction l with
  | nil => intro pos; rfl
  | cons b bs ih => intro pos; simp [xorBytes, ih]

theorem xorBytes_append (ks : Nat → UInt8) (l m : List UInt8) :
    ∀ pos, xorBytes ks pos (l ++ m) = xorBytes ks pos l ++ xorBytes ks (pos + l.length) m := by
  induction l with
  | nil => intro pos; simp [xorBytes]
  | cons b bs ih =>
    intro pos
    show (b ^^^ ks pos) :: xorBytes ks (pos + 1) (bs ++ m)
      = (b ^^^ ks pos) :: xorBytes ks (pos + 1) bs ++ xorBytes ks (pos + (bs.length + 1)) m
    rw [ih, Nat.add_assoc, Nat.add_comm 1]
    rfl

theorem xorBytes_cancel (ks : Nat → UInt8) (l : List UInt8) :
    ∀ pos, xorBytes ks pos (xorBytes ks pos l) = l := by
  induction l with
  | nil => intro pos; rfl
  | cons b bs ih => intro pos; simp [xorBytes, ih, UInt8_xor_cancel]

theorem copyStreamLoop_clean {ω : Type} [IOWriter ω]
    (aes : List UInt8 → List UInt8 → List UInt8)
    (ok : ω → Prop) (app : ω → List UInt8 → ω) (H : Accepts ok app) :
    ∀ (fuel : Nat) (stream : CTRStream) (src : Reader) (dst : ω) (nw : Nat),
      src.clean = true → src.fuel < fuel → ok dst →
      copyStreamLoop aes fuel stream src dst nw
        = some { n := nw + src.content.length, err := none, src := src.drained,
                 dst := app dst
                   (xorBytes (ctrKeystream aes stream.key stream.iv) stream.pos src.content) } := by
  intro fuel
  induction fuel with
  | zero => intro _ src _ _ _ hf; exact absurd hf (Nat.not_lt_zero _)
  | succ fuel ih =>
    intro stream src dst nw hc hf hok
    have hcont := Reader.read_content src (32 * 1024)
    obtain ⟨hc', herr⟩ := Reader.read_clean src (32 * 1024) hc
    have hdr := Reader.read_drained src (32 * 1024)
    rw [copyStreamLoop]
    simp only [CTRStream.xorKeyStream, H.write_eq _ _ hok, xorBytes_length, ne_eq,
      not_true_eq_false, if_false]
    by_cases hz : 0 < (src.read (32 * 1024)).1.1.length
    · rw [if_pos hz]
      rcases herr with hnone | heof
      · -- the read returned no error: the loop goes round again
        have hfu := Reader.read_fuel src (32 * 1024) (by decide) hnone
        simp only [hnone, reduceCtorEq, if_false, not_true_eq_false]
        rw [ih _ _ _ _ hc' (by omega) (H.ok_app _ _ hok)]
        simp only [hdr, H.app_app, ← xorBytes_append, hcont]
        rw [← hcont, List.length_append, Nat.add_assoc, hcont]
      · -- the read returned io.EOF: the loop ends
        obtain ⟨h1, h2⟩ := Reader.read_eof src (32 * 1024) hc heof
        simp only [heof, if_true, h1, h2]
    · rw [if_neg hz]
      have hnil : (src.read (32 * 1024)).1.1 = [] := List.length_eq_zero.mp (by omega)
      rcases herr with hnone | heof
      · have hfu := Reader.read_fuel src (32 * 1024) (by decide) hnone
        rw [hnil, List.nil_append] at hcont
        simp only [hnone, reduceCtorEq, if_false, not_true_eq_false]
        rw [ih _ _ _ _ hc' (by omega) hok, hdr, hcont]
      · obtain ⟨h1, h2⟩ := Reader.read_eof src (32 * 1024) hc heof
        simp only [heof, if_true]
        rw [← h2, hnil, h1]
        simp [xorBytes, H.app_nil _ hok]

theorem sink_accepts :
    Accepts (fun s : Sink => s.room = none)
      (fun s p => { s with written := s.written ++ p }) where
  write_eq := by
    intro w p h
    show Sink.write w p = _
    simp only [Sink.write, h]
  ok_app := by intro w p h; exact h
  app_nil := by intro w _; simp
  app_app := by intro w p q; simp

theorem xorBytes_getD (ks : Nat → UInt8) (l : List UInt8) :
    ∀ pos j, j < l.length → (xorBytes ks pos l).getD j 0 = l.getD j 0 ^^^ ks (pos + j) := by
  induction l with
  | nil => intro pos j hj; exact absurd hj (Nat.not_lt_zero _)
  | cons b bs ih =>
    intro pos j hj
    cases j with
    | zero => simp [xorBytes]
    | succ j =>
      simp only [xorBytes, List.getD_cons_succ]
      rw [ih (pos + 1) j (by simpa using hj)]
      congr 2
      omega

theorem aesNewCipher_ok (key : List UInt8)
    (h : key.length = 16 ∨ key.length = 24 ∨ key.length = 32) :
    aesNewCipher key = .ok key := by
  simp [aesNewCipher, h]

theorem copyEncrypt_buffer (aes : List UInt8 → List UInt8 → List UInt8)
    (key iv : List UInt8) (src : Reader) (pre : List UInt8)
    (hkey : key.length = 16 ∨ key.length = 24 ∨ key.length = 32)
    (hsrc : src.clean = true) :
    copyEncrypt aes (.ok iv) key src (Sink.buffer pre)
      = some { n := 16 + src.content.length, err := none, src := src.drained,
               dst := Sink.buffer
                 (pre ++ iv ++ xorBytes (ctrKeystream aes key iv) 0 src.content) } := by
  simp only [copyEncrypt, aesNewCipher_ok key hkey, copyStream]
  have hw : IOWriter.write (Sink.buffer pre) iv
      = ((iv.length, none), ({ written := pre ++ iv, room := none } : Sink)) := rfl
  rw [hw]
  simp only [ne_eq, not_true_eq_false, if_false]
  rw [copyStreamLoop_clean aes _ _ sink_accepts _ _ _ _ _ hsrc (Nat.lt_succ_self _) rfl]
  simp [Sink.buffer, aesBlockSize]

/-- C2: for every valid key, every 16-byte IV obtained from the random source
and every source that delivers a plaintext `P` without error, `copyEncrypt`
succeeds and appends to its sink the 16 IV bytes followed by exactly `|P|`
bytes, byte `j` being `P[j]` XOR byte `j` of the CTR keystream for the key and
the IV; the sink receives `|P| + 16` bytes. -/
theorem copyEncrypt_writes_iv_then_ciphertext
    (aes : List UInt8 → List UInt8 → List UInt8)
    (key iv : List UInt8) (src : Reader) (pre : List UInt8)
    (hkey : key.length = 16 ∨ key.length = 24 ∨ key.length = 32)
    (hiv : iv.length = 16) (hsrc : src.clean = true) :
    ∃ (res : CopyResult Sink) (ct : List UInt8),
      copyEncrypt aes (.ok iv) key src (Sink.buffer pre) = some res
      ∧ res.err = none
      ∧ res.dst.written = pre ++ iv ++ ct
      ∧ ct.length = src.content.length
      ∧ (∀ j, j < src.content.length →
          ct.getD j 0 = src.content.getD j 0 ^^^ ctrKeystream aes key iv j)
      ∧ res.dst.written.length = pre.length + (src.content.length + 16) := by
  refine ⟨_, xorBytes (ctrKeystream aes key iv) 0 src.content,
    copyEncrypt_buffer aes key iv src pre hkey hsrc, rfl, rfl, xorBytes_length _ _ _, ?_, ?_⟩
  · intro j hj
    simpa using xorBytes_getD (ctrKeystream aes key iv) src.content 0 j hj
  · simp [Sink.buffer, xorBytes_length, hiv]
    omega

theorem copyEncrypt_writes_iv_then_ciphertext_witness :
    (exampleKey.length = 16 ∨ exampleKey.length = 24 ∨ exampleKey.length = 32)
    ∧ exampleIV.length = 16
    ∧ (Reader.script [([1, 2], none), ([3], some Err.EOF)]).clean = true
    ∧ ∃ (res : CopyResult Sink) (ct : List UInt8),
      copyEncrypt exampleBlock (.ok exampleIV) exampleKey
          (Reader.script [([1, 2], none), ([3], some Err.EOF)]) (Sink.buffer []) = some res
      ∧ res.err = none
      ∧ res.dst.written = [] ++ exampleIV ++ ct
      ∧ ct.length = (Reader.script [([1, 2], none), ([3], some Err.EOF)]).content.length
      ∧ (∀ j, j < (Reader.script [([1, 2], none), ([3], some Err.EOF)]).content.length →
          ct.getD j 0 = (Reader.script [([1, 2], none), ([3], some Err.EOF)]).content.getD j 0
            ^^^ ctrKeystream exampleBlock exampleKey exampleIV j)
      ∧ res.dst.written.length
          = ([] : List UInt8).length
            + ((Reader.script [([1, 2], none), ([3], some Err.EOF)]).content.length + 16) :=
  ⟨by decide, by decide, by decide,
    copyEncrypt_writes_iv_then_ciphertext exampleBlock exampleKey exampleIV
      (Reader.script [([1, 2], none), ([3], some Err.EOF)]) [] (by decide) (by decide)
      (by decide)⟩

theorem bytesReader_read_iv (iv ct : List UInt8) (hiv : iv.length = 16) :
    ((bytesReader (iv ++ ct)).read aesBlockSize).1 = (iv, none)
    ∧ ((bytesReader (iv ++ ct)).read aesBlockSize).2.clean = true
    ∧ ((bytesReader (iv ++ ct)).read aesBlockSize).2.content = ct := by
  have hne : iv ++ ct ≠ [] := by
    intro e
    have := congrArg List.length e
    simp [hiv] at this
  simp only [bytesReader, hne, if_false, Reader.read, aesBlockSize]
  by_cases hct : ct = []
  · subst hct
    simp [hiv, Reader.clean, cleanEvents, Reader.content]
  · have hlen : ¬ (iv ++ ct).length ≤ 16 := by
      have : 0 < ct.length := List.length_pos.mpr hct
      rw [List.length_append, hiv]; omega
    rw [if_neg hlen]
    have h16 : (iv ++ ct).take 16 = iv := by
      rw [← hiv]; simp
    have hd : (iv ++ ct).drop 16 = ct := by
      rw [← hiv]; simp
    simp [h16, hd, Reader.clean, cleanEvents, Reader.content]

theorem copyDecrypt_buffer (aes : List UInt8 → List UInt8 → List UInt8)
    (key iv ct pre : List UInt8) (hkey : key.length = 16 ∨ key.length = 24 ∨ key.length = 32)
    (hiv : iv.length = 16) :
    ∃ dec : CopyResult Sink,
      copyDecrypt aes key (bytesReader (iv ++ ct)) (Sink.buffer pre) = some dec
      ∧ dec.n = 16 + ct.length ∧ dec.err = none
      ∧ dec.dst = Sink.buffer (pre ++ xorBytes (ctrKeystream aes key iv) 0 ct) := by
  obtain ⟨h1, h2, h3⟩ := bytesReader_read_iv iv ct hiv
  have h11 : ((bytesReader (iv ++ ct)).read aesBlockSize).1.1 = iv := by rw [h1]
  have h12 : ((bytesReader (iv ++ ct)).read aesBlockSize).1.2 = none := by rw [h1]
  refine ⟨{ n := 16 + ct.length, err := none,
            src := ((bytesReader (iv ++ ct)).read aesBlockSize).2.drained,
            dst := Sink.buffer (pre ++ xorBytes (ctrKeystream aes key iv) 0 ct) }, ?_,
    rfl, rfl, rfl⟩
  simp only [copyDecrypt, aesNewCipher_ok key hkey, copyStream, h11, h12, ne_eq,
    not_true_eq_false, if_false]
  rw [copyStreamLoop_clean aes _ _ sink_accepts _ _ _ _ _ h2 (Nat.lt_succ_self _) rfl, h3]
  simp [Sink.buffer, aesBlockSize, hiv]

/-- C1: for every 32-byte key, every 16-byte IV and every source that delivers
a plaintext `P` (possibly empty) without error, `copyEncrypt` into an empty
buffer succeeds, and `copyDecrypt` with the same key reading the bytes of that
buffer succeeds and writes exactly `P` to its sink. -/
theorem copyDecrypt_copyEncrypt_roundtrip
    (aes : List UInt8 → List UInt8 → List UInt8)
    (key iv : List UInt8) (src : Reader)
    (hkey : key.length = 32) (hiv : iv.length = 16) (hsrc : src.clean = true) :
    ∃ enc dec : CopyResult Sink,
      copyEncrypt aes (.ok iv) key src (Sink.buffer []) = some enc
      ∧ enc.err = none
      ∧ copyDecrypt aes key (bytesReader enc.dst.written) (Sink.buffer []) = some dec
      ∧ dec.err = none
      ∧ dec.dst.written = src.content := by
  have hk : key.length = 16 ∨ key.length = 24 ∨ key.length = 32 := Or.inr (Or.inr hkey)
  obtain ⟨dec, hd1, _, hd3, hd4⟩ := copyDecrypt_buffer aes key iv
    (xorBytes (ctrKeystream aes key iv) 0 src.content) [] hk hiv
  have henc := copyEncrypt_buffer aes key iv src [] hk hsrc
  refine ⟨_, dec, henc, rfl, ?_, hd3, ?_⟩
  · simpa [Sink.buffer] using hd1
  · rw [hd4]
    simp [Sink.buffer, xorBytes_cancel]

theorem copyDecrypt_copyEncrypt_roundtrip_witness :
    exampleKey.length = 32 ∧ exampleIV.length = 16
    ∧ (Reader.script [([70, 111, 111], none), ([], none), ([32, 110], none)]).clean = true
    ∧ ∃ enc dec : CopyResult Sink,
      copyEncrypt exampleBlock (.ok exampleIV) exampleKey
          (Reader.script [([70, 111, 111], none), ([], none), ([32, 110], none)])
          (Sink.buffer []) = some enc
      ∧ enc.err = none
      ∧ copyDecrypt exampleBlock exampleKey (bytesReader enc.dst.written) (Sink.buffer [])
          = some dec
      ∧ dec.err = none
      ∧ dec.dst.written
          = (Reader.script [([70, 111, 111], none), ([], none), ([32, 110], none)]).content :=
  ⟨by decide, by decide, by decide,
    copyDecrypt_copyEncrypt_roundtrip exampleBlock exampleKey exampleIV
      (Reader.script [([70, 111, 111], none), ([], none), ([32, 110], none)])
      (by decide) (by decide) (by decide)⟩

/-! ## The default decoder -/

/-- C8: for every reader whose first `Read` hands over the byte `0x02` (without
an error), `DefaultDecoder.Decode` on a fresh frame returns no error, sets the
`Stream` flag, leaves the payload empty, and leaves the reader exactly one
byte further: what the reader still holds is its content without that byte. -/
theorem Decode_stream_tag (r r1 : Reader)
    (h : r.read 1 = (([0x02], none), r1)) :
    DefaultDecoder.Decode r RPC.fresh
        = (none, { From := "", Payload := [], Stream := true }, r1)
    ∧ r.content = 0x02 :: r1.content := by
  constructor
  · simp [DefaultDecoder.Decode, h, IncomingStream, RPC.fresh]
  · have := Reader.read_content r 1
    rw [h] at this
    simpa using this.symm

theorem Decode_stream_tag_witness :
    (bytesReader [0x02, 0x10, 0x20]).read 1 = (([0x02], none), bytesReader [0x10, 0x20])
    ∧ DefaultDecoder.Decode (bytesReader [0x02, 0x10, 0x20]) RPC.fresh
        = (none, { From := "", Payload := [], Stream := true }, bytesReader [0x10, 0x20])
    ∧ (bytesReader [0x02, 0x10, 0x20]).content = 0x02 :: (bytesReader [0x10, 0x20]).content :=
  ⟨by decide, Decode_stream_tag (bytesReader [0x02, 0x10, 0x20]) (bytesReader [0x10, 0x20])
    (by decide)⟩

/-- C9: for every tag byte `t` other than `0x02` that the reader's first
`Read` hands over, followed by bytes `B` that the next `Read` delivers in one
call (without an error), `DefaultDecoder.Decode` on a fresh frame returns no
error, leaves `Stream` unset and sets the payload to exactly `B`, which is at
most 1028 bytes long; and whatever the reader does, the payload of the
decoded frame never exceeds 1028 bytes. -/
theorem Decode_message_payload (r r1 r2 : Reader) (t : UInt8) (B : List UInt8)
    (h1 : r.read 1 = (([t], none), r1)) (ht : t ≠ 0x02)
    (h2 : r1.read 1028 = ((B, none), r2)) :
    DefaultDecoder.Decode r RPC.fresh
        = (none, { From := "", Payload := B, Stream := false }, r2)
    ∧ B.length ≤ 1028
    ∧ ∀ rd : Reader, (DefaultDecoder.Decode rd RPC.fresh).2.1.Payload.length ≤ 1028 := by
  refine ⟨?_, ?_, ?_⟩
  · have : (t == IncomingStream) = false := by
      simpa [IncomingStream] using ht
    simp [DefaultDecoder.Decode, h1, h2, this, RPC.fresh]
  · have := Reader.read_length_le r1 1028
    rw [h2] at this
    exact this
  · intro rd
    have hq := Reader.read_length_le (rd.read 1).2 1028
    simp only [DefaultDecoder.Decode]
    split
    · simp [RPC.fresh]
    · split
      · simp [RPC.fresh]
      · split
        · simp [RPC.fresh]
        · exact hq

theorem Decode_message_payload_witness :
    (bytesReader [0x01, 0xAA, 0xBB]).read 1 = (([0x01], none), bytesReader [0xAA, 0xBB])
    ∧ (0x01 : UInt8) ≠ 0x02
    ∧ (bytesReader [0xAA, 0xBB]).read 1028 = (([0xAA, 0xBB], none), bytesReader [])
    ∧ DefaultDecoder.Decode (bytesReader [0x01, 0xAA, 0xBB]) RPC.fresh
        = (none, { From := "", Payload := [0xAA, 0xBB], Stream := false }, bytesReader [])
    ∧ [(0xAA : UInt8), 0xBB].length ≤ 1028
    ∧ ∀ rd : Reader, (DefaultDecoder.Decode rd RPC.fresh).2.1.Payload.length ≤ 1028 :=
  ⟨by decide, by decide, by decide,
    Decode_message_payload (bytesReader [0x01, 0xAA, 0xBB]) (bytesReader [0xAA, 0xBB])
      (bytesReader []) 0x01 [0xAA, 0xBB] (by decide) (by decide) (by decide)⟩

/-! ## Lemmas: `io.Copy` and the file system -/

theorem ioCopyLoop_clean {ω : Type} [IOWriter ω]
    (ok : ω → Prop) (app : ω → List UInt8 → ω) (H : Accepts ok app) :
    ∀ (fuel : Nat) (src : Reader) (dst : ω) (written : Nat),
      src.clean = true → src.fuel < fuel → ok dst →
      ioCopyLoop fuel src dst written
        = some { n := written + src.content.length, err := none, src := src.drained,
                 dst := app dst src.content } := by
  intro fuel
  induction fuel with
  | zero => intro src _ _ _ hf; exact absurd hf (Nat.not_lt_zero _)
  | succ fuel ih =>
    intro src dst written hc hf hok
    have hcont := Reader.read_content src (32 * 1024)
    obtain ⟨hc', herr⟩ := Reader.read_clean src (32 * 1024) hc
    have hdr := Reader.read_drained src (32 * 1024)
    rw [ioCopyLoop]
    simp only [H.write_eq _ _ hok, ne_eq, not_true_eq_false, if_false]
    by_cases hz : 0 < (src.read (32 * 1024)).1.1.length
    · rw [if_pos hz]
      rcases herr with hnone | heof
      · have hfu := Reader.read_fuel src (32 * 1024) (by decide) hnone
        simp only [hnone, reduceCtorEq, if_false, not_true_eq_false]
        rw [ih _ _ _ hc' (by omega) (H.ok_app _ _ hok)]
        simp only [hdr, H.app_app, hcont]
        rw [← hcont, List.length_append, Nat.add_assoc, hcont]
      · obtain ⟨h1, h2⟩ := Reader.read_eof src (32 * 1024) hc heof
        simp only [heof, if_true, h1, h2]
    · rw [if_neg hz]
      have hnil : (src.read (32 * 1024)).1.1 = [] := List.length_eq_zero.mp (by omega)
      rcases herr with hnone | heof
      · have hfu := Reader.read_fuel src (32 * 1024) (by decide) hnone
        rw [hnil, List.nil_append] at hcont
        simp only [hnone, reduceCtorEq, if_false, not_true_eq_false]
        rw [ih _ _ _ hc' (by omega) hok, hdr, hcont]
      · obtain ⟨h1, h2⟩ := Reader.read_eof src (32 * 1024) hc heof
        simp only [heof, if_true]
        rw [← h2, hnil, h1]
        simp [H.app_nil _ hok]

theorem FS.get_set_self (fs : FS) (p : List String) (n : Node) (hp : p ≠ []) :
    (fs.set p n).get p = some n := by
  simp [FS.get, FS.set, hp]

theorem FS.get_set_ne (fs : FS) (p q : List String) (n : Node) (h : q ≠ p) :
    (fs.set p n).get q = fs.get q := by
  simp only [FS.get, FS.set, h, if_false]

theorem FS.set_set (fs : FS) (p : List String) (n m : Node) :
    (fs.set p n).set p m = fs.set p m := by
  simp only [FS.set]
  congr 1
  funext q
  by_cases h : q = p <;> simp [h]

theorem FS.get_file_ne_nil (fs : FS) (p : List String) (c : List UInt8)
    (h : fs.get p = some (Node.file c)) : p ≠ [] := by
  intro e
  subst e
  simp [FS.get] at h

theorem FS.set_same (fs : FS) (p : List String) (n : Node) (hp : p ≠ [])
    (h : fs.get p = some n) : fs.set p n = fs := by
  cases fs with
  | mk nodes =>
    simp only [FS.get, hp, if_false] at h
    simp only [FS.set]
    congr 1
    funext q
    by_cases hq : q = p
    · subst hq; simp [h]
    · simp [hq]

/-- The writer after `p` has been appended to an open file. -/
theorem fileHandle_accepts :
    Accepts (fun f : FileHandle => ∃ c, f.fs.get f.path = some (Node.file c))
      (fun f p =>
        match f.fs.get f.path with
        | some (Node.file c) => { f with fs := f.fs.set f.path (Node.file (c ++ p)) }
        | _ => f) where
  write_eq := by
    rintro f p ⟨c, hc⟩
    show FileHandle.write f p = _
    simp only [FileHandle.write, hc]
  ok_app := by
    rintro f p ⟨c, hc⟩
    have hp := FS.get_file_ne_nil _ _ _ hc
    simp only [hc]
    exact ⟨c ++ p, FS.get_set_self _ _ _ hp⟩
  app_nil := by
    rintro f ⟨c, hc⟩
    have hp := FS.get_file_ne_nil _ _ _ hc
    simp only [hc, List.append_nil]
    rw [FS.set_same _ _ _ hp hc]
  app_app := by
    intro f p q
    cases hg : f.fs.get f.path with
    | none => simp [hg]
    | some n =>
      cases n with
      | dir => simp [hg]
      | file c =>
        have hp := FS.get_file_ne_nil _ _ _ hg
        simp only [hg, FS.get_set_self _ _ _ hp, FS.set_set, List.append_assoc]

theorem FS.walk_congr (fs fs' : FS)
    (h : ∀ q, fs.get q = some Node.dir → fs'.get q = some Node.dir) :
    ∀ (cs cur p : List String), fs.walk cur cs = .ok p → fs'.walk cur cs = .ok p := by
  intro cs
  induction cs with
  | nil => intro cur p hw; simpa [FS.walk] using hw
  | cons c rest ih =>
    intro cur p hw
    simp only [FS.walk] at hw ⊢
    cases hg : fs.get cur with
    | none => simp [hg] at hw
    | some n =>
      cases n with
      | file _ => simp [hg] at hw
      | dir =>
        rw [hg] at hw
        rw [h cur hg]
        simp only at hw ⊢
        split
        · rename_i h1
          rw [if_pos h1] at hw
          exact ih _ _ hw
        · rename_i h1
          rw [if_neg h1] at hw
          split
          · rename_i h2
            rw [if_pos h2] at hw
            exact ih _ _ hw
          · rename_i h2
            rw [if_neg h2] at hw
            split
            · rename_i h3
              rw [if_pos h3] at hw
              cases hw
            · rename_i h3
              rw [if_neg h3] at hw
              exact ih _ _ hw

/-- A path that is not empty and shorter than `pathMax` resolves as its
components do. -/
theorem FS.resolve_eq_walk (fs : FS) (path : String) (h1 : path ≠ "")
    (h2 : path.utf8ByteSize < pathMax) :
    fs.resolve path = fs.walk [] (stringsSplit path '/') := by
  simp only [FS.resolve, h1, if_false, Nat.not_le.mpr h2]

/-- A path that resolves, or fails with anything but `ENAMETOOLONG`, is not
empty or is missing, and is shorter than `pathMax`. -/
theorem FS.resolve_short (fs : FS) (path : String) (r : Except Err (List String))
    (h : fs.resolve path = r) (hr : r ≠ .error Err.ENAMETOOLONG) (hne : path ≠ "") :
    path.utf8ByteSize < pathMax ∧ fs.walk [] (stringsSplit path '/') = r := by
  simp only [FS.resolve, hne, if_false] at h
  by_cases hl : pathMax ≤ path.utf8ByteSize
  · rw [if_pos hl] at h
    exact absurd h.symm hr
  · rw [if_neg hl] at h
    exact ⟨Nat.lt_of_not_le hl, h⟩

theorem FS.resolve_ok (fs : FS) (path : String) (p : List String)
    (h : fs.resolve path = .ok p) :
    path ≠ "" ∧ path.utf8ByteSize < pathMax ∧ fs.walk [] (stringsSplit path '/') = .ok p := by
  have hne : path ≠ "" := by
    intro e
    simp [FS.resolve, e] at h
  obtain ⟨h1, h2⟩ := FS.resolve_short fs path _ h (by simp) hne
  exact ⟨hne, h1, h2⟩

theorem utf8ByteSize_go_append (a b : List Char) :
    String.utf8ByteSize.go (a ++ b) = String.utf8ByteSize.go a + String.utf8ByteSize.go b := by
  induction a with
  | nil => simp [String.utf8ByteSize.go]
  | cons c cs ih =>
    rw [List.cons_append, String.utf8ByteSize.go, String.utf8ByteSize.go, ih]
    omega

theorem String.utf8ByteSize_app (s t : String) :
    (s ++ t).utf8ByteSize = s.utf8ByteSize + t.utf8ByteSize := by
  cases s with
  | mk a =>
    cases t with
    | mk b =>
      show String.utf8ByteSize.go (a ++ b) = _
      exact utf8ByteSize_go_append a b

theorem String.utf8ByteSize_append_lt (s t : String) (n : Nat)
    (h : (s ++ t).utf8ByteSize < n) : s.utf8ByteSize < n := by
  rw [String.utf8ByteSize_app] at h
  omega

theorem osCreate_ok (fs : FS) (path : String) (f : FileHandle)
    (h : osCreate fs path = .ok f) :
    fs.resolve path = .ok f.path ∧ f.fs = fs.set f.path (Node.file [])
    ∧ fs.get f.path ≠ some Node.dir := by
  simp only [osCreate] at h
  cases hr : fs.resolve path with
  | error e => simp [hr] at h
  | ok p =>
    rw [hr] at h
    simp only at h
    cases hg : fs.get p with
    | none =>
      rw [hg] at h
      simp only [Except.ok.injEq] at h
      subst h
      simp [hg]
    | some n =>
      cases n with
      | dir => simp [hg] at h
      | file c =>
        rw [hg] at h
        simp only [Except.ok.injEq] at h
        subst h
        simp [hg]

theorem FS.resolve_set_file (fs : FS) (path : String) (p : List String) (c : List UInt8)
    (hr : fs.resolve path = .ok p) (hg : fs.get p ≠ some Node.dir) :
    (fs.set p (Node.file c)).resolve path = .ok p := by
  obtain ⟨h1, h2, hw⟩ := FS.resolve_ok fs path p hr
  rw [FS.resolve_eq_walk _ _ h1 h2]
  refine FS.walk_congr fs _ ?_ _ _ _ hw
  intro q hq
  have : q ≠ p := by
    intro e; subst e; exact hg hq
  rw [FS.get_set_ne _ _ _ _ this, hq]

theorem Store.openFileForWriting_ok (s : Store) (fs : FS) (id key : String) (f : FileHandle)
    (ho : s.openFileForWriting fs id key = .ok f) :
    ∃ g, osCreate g (s.Root ++ "/" ++ id ++ "/" ++ (s.PathTransformFunc key).FullPath) = .ok f
      ∧ f.path ≠ [] ∧ f.fs.get f.path = some (Node.file []) := by
  simp only [Store.openFileForWriting] at ho
  split at ho
  · simp at ho
  · split at ho
    · simp at ho
    · rename_i f' hc
      simp only [Except.ok.injEq] at ho
      subst ho
      obtain ⟨_, h2, h3⟩ := osCreate_ok _ _ _ hc
      have hp : f'.path ≠ [] := by
        intro e
        rw [e] at h3
        exact h3 (by simp [FS.get])
      refine ⟨_, hc, hp, ?_⟩
      rw [h2]
      exact FS.get_set_self _ _ _ hp

theorem Store.writeStream_clean (s : Store) (fs : FS) (id key : String) (r : Reader)
    (hr : r.clean = true) :
    (∃ e, s.openFileForWriting fs id key = .error e
      ∧ s.writeStream fs id key r = some { n := 0, err := some e.1, fs := e.2, src := r })
    ∨ (∃ f, s.openFileForWriting fs id key = .ok f
      ∧ s.writeStream fs id key r
          = some { n := r.content.length, err := none,
                   fs := f.fs.set f.path (Node.file r.content), src := r.drained }) := by
  cases ho : s.openFileForWriting fs id key with
  | error e =>
    left
    exact ⟨e, rfl, by simp only [Store.writeStream, ho]⟩
  | ok f =>
    right
    obtain ⟨g, _, _, hfile⟩ := Store.openFileForWriting_ok s fs id key f ho
    have hcopy := ioCopyLoop_clean _ _ fileHandle_accepts (r.fuel + 1) r f 0 hr
      (Nat.lt_succ_self _) ⟨[], hfile⟩
    refine ⟨f, rfl, ?_⟩
    simp only [Store.writeStream, ho, ioCopy, hcopy, hfile, List.nil_append, Nat.zero_add]

/-- After a write through an open file, the path string of the file resolves
to the file and `stat` finds the content. -/
theorem Store.stat_after_write (s : Store) (fs : FS) (id key : String) (f : FileHandle)
    (c : List UInt8) (ho : s.openFileForWriting fs id key = .ok f) :
    (f.fs.set f.path (Node.file c)).resolve
        (s.Root ++ "/" ++ id ++ "/" ++ (s.PathTransformFunc key).FullPath) = .ok f.path
    ∧ osStat (f.fs.set f.path (Node.file c))
        (s.Root ++ "/" ++ id ++ "/" ++ (s.PathTransformFunc key).FullPath)
        = .ok (Node.file c) := by
  obtain ⟨g, hc, hp, hfile⟩ := Store.openFileForWriting_ok s fs id key f ho
  obtain ⟨h1, h2, h3⟩ := osCreate_ok g _ f hc
  have hres : (f.fs.set f.path (Node.file c)).resolve
      (s.Root ++ "/" ++ id ++ "/" ++ (s.PathTransformFunc key).FullPath) = .ok f.path := by
    rw [h2, FS.set_set]
    exact FS.resolve_set_file g _ _ _ h1 h3
  have hget : (f.fs.set f.path (Node.file c)).get f.path = some (Node.file c) :=
    FS.get_set_self _ _ _ hp
  exact ⟨hres, by simp only [osStat, hres, hget]⟩

/-- C5: for every store, node id, key and source that delivers a byte sequence
`D` without error, `Store.Write` returns, and when it returns no error it
returns `|D|`, and afterwards `Store.Has` is true and `Store.Read` succeeds
with size `|D|` and a reader whose content is exactly `D`. -/
theorem Store.Write_then_Has_and_Read (s : Store) (fs : FS) (id key : String) (r : Reader)
    (hr : r.clean = true) :
    ∃ res : WriteResult, s.Write fs id key r = some res
      ∧ (res.err = none →
          res.n = r.content.length
          ∧ s.Has res.fs id key = true
          ∧ s.Read res.fs id key = .ok (r.content.length, bytesReader r.content)
          ∧ (bytesReader r.content).content = r.content) := by
  rcases Store.writeStream_clean s fs id key r hr with ⟨e, _, hw⟩ | ⟨f, ho, hw⟩
  · exact ⟨_, hw, fun h => by simp at h⟩
  · refine ⟨_, hw, fun _ => ?_⟩
    obtain ⟨_, hstat⟩ := Store.stat_after_write s fs id key f r.content ho
    refine ⟨rfl, ?_, ?_, ?_⟩
    · simp [Store.Has, hstat, isNotExist]
    · simp [Store.Read, Store.readStream, osOpen, hstat]
    · simp only [bytesReader]
      split
      · rename_i h; simp [Reader.content, h]
      · simp [Reader.content]

theorem Store.Write_then_Has_and_Read_witness :
    (Reader.script [([1, 2], none), ([3], none)]).clean = true
    ∧ ((NewStore { Root := "", PathTransformFunc := some CASPathTransformFunc }).Write
          FS.empty "node" "foo_1" (Reader.script [([1, 2], none), ([3], none)])).map
        (fun res => (res.n, res.err)) = some (3, none)
    ∧ ∃ res : WriteResult,
        (NewStore { Root := "", PathTransformFunc := some CASPathTransformFunc }).Write
            FS.empty "node" "foo_1" (Reader.script [([1, 2], none), ([3], none)]) = some res
        ∧ (res.err = none →
            res.n = (Reader.script [([1, 2], none), ([3], none)]).content.length
            ∧ (NewStore { Root := "", PathTransformFunc := some CASPathTransformFunc }).Has
                res.fs "node" "foo_1" = true
            ∧ (NewStore { Root := "", PathTransformFunc := some CASPathTransformFunc }).Read
                res.fs "node" "foo_1"
                = .ok ((Reader.script [([1, 2], none), ([3], none)]).content.length,
                    bytesReader (Reader.script [([1, 2], none), ([3], none)]).content)
            ∧ (bytesReader (Reader.script [([1, 2], none), ([3], none)]).content).content
                = (Reader.script [([1, 2], none), ([3], none)]).content) :=
  ⟨by decide, by set_option maxRecDepth 100000 in decide,
    Store.Write_then_Has_and_Read
      (NewStore { Root := "", PathTransformFunc := some CASPathTransformFunc })
      FS.empty "node" "foo_1" (Reader.script [([1, 2], none), ([3], none)]) (by decide)⟩

/-! ## Lemmas: path resolution and removal -/

theorem splitChars_ne_nil (sep : Char) (l : List Char) : splitChars sep l ≠ [] := by
  induction l with
  | nil => simp [splitChars]
  | cons c cs ih =>
    simp only [splitChars]
    split
    · simp
    · split <;> simp

theorem splitChars_append (sep : Char) (a b : List Char) :
    splitChars sep (a ++ sep :: b) = splitChars sep a ++ splitChars sep b := by
  induction a with
  | nil => simp [splitChars]
  | cons c a ih =>
    by_cases hc : c = sep
    · simp [splitChars, hc, ih]
    · cases hs : splitChars sep a with
      | nil => exact absurd hs (splitChars_ne_nil sep a)
      | cons w ws =>
        have ih' : splitChars sep (a.append (sep :: b))
            = splitChars sep a ++ splitChars sep b := ih
        simp only [List.cons_append, splitChars, hc, if_false]
        rw [ih', hs]
        rfl

theorem stringsSplit_append (s t : String) :
    stringsSplit (s ++ "/" ++ t) '/' = stringsSplit s '/' ++ stringsSplit t '/' := by
  simp only [stringsSplit, String.data_append]
  rw [List.append_assoc, List.singleton_append, splitChars_append, List.map_append]

theorem stringsSplit_ne_nil (s : String) : stringsSplit s '/' ≠ [] := by
  simp only [stringsSplit, ne_eq, List.map_eq_nil_iff]
  exact splitChars_ne_nil _ _

theorem FS.walk_append (fs : FS) (cs ds : List String) :
    ∀ cur, fs.walk cur (cs ++ ds)
      = match fs.walk cur cs with
        | .ok p => fs.walk p ds
        | .error e => .error e := by
  induction cs with
  | nil => intro cur; simp [FS.walk]
  | cons c rest ih =>
    intro cur
    simp only [List.cons_append, FS.walk]
    cases fs.get cur with
    | none => rfl
    | some n =>
      cases n with
      | file _ => rfl
      | dir =>
        simp only
        split
        · exact ih _
        · split
          · exact ih _
          · split
            · rfl
            · exact ih _

theorem FS.walk_sub (fs fs' : FS) (h : ∀ q n, fs'.get q = some n → fs.get q = some n) :
    ∀ (cs cur : List String),
      fs'.walk cur cs = fs.walk cur cs ∨ fs'.walk cur cs = .error Err.ENOENT := by
  intro cs
  induction cs with
  | nil => intro cur; left; rfl
  | cons c rest ih =>
    intro cur
    simp only [FS.walk]
    cases hg : fs'.get cur with
    | none => right; rfl
    | some n =>
      rw [h cur n hg]
      cases n with
      | file _ => left; rfl
      | dir =>
        simp only
        split
        · exact ih _
        · split
          · exact ih _
          · split
            · left; rfl
            · exact ih _

theorem FS.removeTree_sub (fs : FS) (p : List String) :
    ∀ q n, (fs.removeTree p).get q = some n → fs.get q = some n := by
  intro q n h
  simp only [FS.get, FS.removeTree] at h ⊢
  split at h
  · rename_i hq; simpa [hq] using h
  · rename_i hq
    simp only [hq, if_false]
    split at h
    · simp at h
    · exact h

theorem FS.removeTree_get_self (fs : FS) (p : List String) (hp : p ≠ []) :
    (fs.removeTree p).get p = none := by
  simp [FS.get, FS.removeTree, hp]

theorem String.append_ne_empty_of_slash (s t : String) : s ++ "/" ++ t ≠ "" := by
  intro e
  have := congrArg String.length e
  simp only [String.length_append] at this
  have h1 : ("/" : String).length = 1 := rfl
  have h0 : ("" : String).length = 0 := rfl
  omega

/-- After a removal that reports no error nothing below the removed path can
be found. -/
theorem osRemoveAll_then_stat (fs : FS) (s t : String) (hs : s ≠ "")
    (hlen : (s ++ "/" ++ t).utf8ByteSize < pathMax)
    (h : (osRemoveAll fs s).1 = none) :
    osStat (osRemoveAll fs s).2 (s ++ "/" ++ t) = .error Err.ENOENT := by
  have hne := String.append_ne_empty_of_slash s t
  have hslt : s.utf8ByteSize < pathMax :=
    String.utf8ByteSize_append_lt s "/" _ (String.utf8ByteSize_append_lt (s ++ "/") t _ hlen)
  have hnl : ¬ (pathMax ≤ s.utf8ByteSize ∧ pathMax ≤ (splitPath s).1.utf8ByteSize) :=
    fun hh => absurd hh.1 (Nat.not_le.mpr hslt)
  simp only [osRemoveAll, hs, if_false, if_neg hnl] at h ⊢
  split at h
  · simp at h
  · rename_i hdot
    rw [if_neg hdot]
    cases hw : fs.walk [] (stringsSplit s '/') with
    | error e =>
      rw [hw] at h
      have he : e = Err.ENOENT := by
        cases e <;> simp at h ⊢
      subst he
      simp only [osStat, FS.resolve_eq_walk _ _ hne hlen, stringsSplit_append,
        FS.walk_append, hw]
    | ok p =>
      rw [hw] at h
      simp only at h ⊢
      split at h
      · simp at h
      · rename_i hp
        rw [if_neg hp]
        simp only [osStat, FS.resolve_eq_walk _ _ hne hlen, stringsSplit_append,
          FS.walk_append]
        rcases FS.walk_sub fs (fs.removeTree p) (FS.removeTree_sub fs p)
            (stringsSplit s '/') [] with h1 | h1
        · rw [h1, hw]
          simp only
          cases hsp : stringsSplit t '/' with
          | nil => exact absurd hsp (stringsSplit_ne_nil t)
          | cons c rest =>
            simp only [FS.walk, FS.removeTree_get_self fs p hp]
        · rw [h1]

/-! ## Lemmas: the CAS path of a key -/

theorem cutBlocks_succ_of_ne_nil (n fuel : Nat) (l : List Char) (h : l ≠ []) :
    cutBlocks n (fuel + 1) l = String.mk (l.take n) :: cutBlocks n fuel (l.drop n) := by
  simp [cutBlocks, h]

theorem stringsSplit_no_sep (a : String) (h : '/' ∉ a.data) : stringsSplit a '/' = [a] := by
  simp only [stringsSplit, splitChars_no_sep _ _ h, List.map_cons, List.map_nil]

/-- The first path segment of the CAS path is the first five hex characters,
and the full path continues it after a `/`. -/
theorem CAS_first_segment (key : String) :
    (CASPathTransformFunc key).FirstPathName
        = String.mk ((CASPathTransformFunc key).Filename.data.take 5)
    ∧ (∃ rest : String, (CASPathTransformFunc key).FullPath
        = String.mk ((CASPathTransformFunc key).Filename.data.take 5) ++ "/" ++ rest)
    ∧ (String.mk ((CASPathTransformFunc key).Filename.data.take 5)).length = 5
    ∧ '/' ∉ (String.mk ((CASPathTransformFunc key).Filename.data.take 5)).data := by
  have hl : (hexEncodeToString (sha1Sum (stringBytes key))).data.length = 40 :=
    hashStr_length key
  have hmem : ∀ c ∈ (hexEncodeToString (sha1Sum (stringBytes key))).data, c ∈ hextable :=
    fun c hc => hexEncodeToString_mem _ c hc
  rw [CASPathTransformFunc_eq]
  simp only
  have hne : (hexEncodeToString (sha1Sum (stringBytes key))).data ≠ [] := by
    intro e; rw [e] at hl; simp at hl
  have hne2 : (hexEncodeToString (sha1Sum (stringBytes key))).data.drop 5 ≠ [] := by
    intro e
    have := congrArg List.length e
    simp [List.length_drop, hl] at this
  obtain ⟨b, tail, hcut⟩ : ∃ b tail,
      cutBlocks 5 8 (hexEncodeToString (sha1Sum (stringBytes key))).data
        = String.mk ((hexEncodeToString (sha1Sum (stringBytes key))).data.take 5)
          :: b :: tail :=
    ⟨_, _, by rw [cutBlocks_succ_of_ne_nil 5 7 _ hne, cutBlocks_succ_of_ne_nil 5 6 _ hne2]⟩
  have hslash : '/' ∉ (String.mk
      ((hexEncodeToString (sha1Sum (stringBytes key))).data.take 5)).data := by
    intro hin
    have := hmem _ (List.mem_of_mem_take hin)
    revert this
    decide
  rw [hcut]
  refine ⟨?_, ⟨stringsJoin (b :: tail) "/" ++ "/"
      ++ hexEncodeToString (sha1Sum (stringBytes key)), ?_⟩, ?_, hslash⟩
  · simp only [PathKey.FirstPathName, stringsJoin, stringsSplit_append,
      stringsSplit_no_sep _ hslash, List.singleton_append]
  · simp only [PathKey.FullPath, stringsJoin, String.append_assoc]
  · simp [String.length, List.length_take, hl]

theorem FS.walk_plain_last (fs : FS) (cs : List String) (a : String) (cur p : List String)
    (ha : a ≠ "" ∧ a ≠ "." ∧ a ≠ "..") (h : fs.walk cur (cs ++ [a]) = .ok p) : p ≠ [] := by
  rw [FS.walk_append] at h
  cases hq : fs.walk cur cs with
  | error e => simp [hq] at h
  | ok q =>
    rw [hq] at h
    simp only [FS.walk] at h
    cases hg : fs.get q with
    | none => simp [hg] at h
    | some n =>
      cases n with
      | file _ => simp [hg] at h
      | dir =>
        rw [hg] at h
        simp only [ha.1, ha.2.1, ha.2.2, or_self, if_false] at h
        split at h
        · cases h
        · simp only [Except.ok.injEq] at h
          rw [← h]
          simp

theorem plain_of_length_five (a : String) (h : a.length = 5) :
    a ≠ "" ∧ a ≠ "." ∧ a ≠ ".." := by
  refine ⟨?_, ?_, ?_⟩ <;> intro e <;> rw [e] at h <;> exact absurd h (by decide)

/-- When a path resolves or is missing, so does (or is) the path before any
of its `/`. -/
theorem FS.resolve_prefix (fs : FS) (s t : String) (hs : s ≠ "")
    (h : (∃ p, fs.resolve (s ++ "/" ++ t) = .ok p)
      ∨ fs.resolve (s ++ "/" ++ t) = .error Err.ENOENT) :
    (∃ p, fs.resolve s = .ok p) ∨ fs.resolve s = .error Err.ENOENT := by
  have hne := String.append_ne_empty_of_slash s t
  have key : ∀ r, fs.resolve (s ++ "/" ++ t) = r → r ≠ .error Err.ENAMETOOLONG →
      (∀ e, r = .error e → e = Err.ENOENT) →
      (∃ p, fs.resolve s = .ok p) ∨ fs.resolve s = .error Err.ENOENT := by
    intro r hr hr1 hr2
    obtain ⟨hl, hw⟩ := FS.resolve_short fs _ r hr hr1 hne
    have hslt : s.utf8ByteSize < pathMax :=
      String.utf8ByteSize_append_lt s "/" _ (String.utf8ByteSize_append_lt (s ++ "/") t _ hl)
    rw [FS.resolve_eq_walk fs s hs hslt]
    rw [stringsSplit_append, FS.walk_append] at hw
    cases hw2 : fs.walk [] (stringsSplit s '/') with
    | ok p => left; exact ⟨p, rfl⟩
    | error e =>
      right
      rw [hw2] at hw
      rw [hr2 e hw.symm]
  rcases h with ⟨p, hp⟩ | he
  · exact key _ hp (by simp) (fun e h => by cases h)
  · exact key _ he (by simp) (fun e h => by cases h; rfl)

/-- Removal below a prefix path `pre/a`, `a` a plain name: no error is
reported as soon as the path resolves or is missing. -/
theorem osRemoveAll_no_error (fs : FS) (pre a : String) (ha : a.length = 5)
    (hs : '/' ∉ a.data)
    (h : (∃ p, fs.resolve (pre ++ "/" ++ a) = .ok p)
      ∨ fs.resolve (pre ++ "/" ++ a) = .error Err.ENOENT) :
    (osRemoveAll fs (pre ++ "/" ++ a)).1 = none := by
  have hne := String.append_ne_empty_of_slash pre a
  have hpl := plain_of_length_five a ha
  have hlast : (stringsSplit (pre ++ "/" ++ a) '/').getLast? = some a := by
    rw [stringsSplit_append, stringsSplit_no_sep a hs]
    simp
  have key : ∀ r, fs.resolve (pre ++ "/" ++ a) = r → r ≠ .error Err.ENAMETOOLONG →
      ¬ (pathMax ≤ (pre ++ "/" ++ a).utf8ByteSize
          ∧ pathMax ≤ (splitPath (pre ++ "/" ++ a)).1.utf8ByteSize)
      ∧ fs.walk [] (stringsSplit (pre ++ "/" ++ a) '/') = r := by
    intro r hr hr1
    obtain ⟨hl, hw⟩ := FS.resolve_short fs _ r hr hr1 hne
    exact ⟨fun hh => absurd hh.1 (Nat.not_le.mpr hl), hw⟩
  simp only [osRemoveAll, hne, if_false, hlast, Option.some.injEq, hpl.2.1, hpl.2.2, or_self]
  rcases h with ⟨p, hp⟩ | he
  · obtain ⟨hnl, hw⟩ := key _ hp (by simp)
    have hpne : p ≠ [] := by
      rw [stringsSplit_append, stringsSplit_no_sep a hs] at hw
      exact FS.walk_plain_last fs _ a [] p hpl hw
    simp [hnl, hw, hpne]
  · obtain ⟨hnl, hw⟩ := key _ he (by simp)
    simp [hnl, hw]

/-- What `stat` finds or misses, path resolution finds or misses. -/
theorem osStat_resolve (fs : FS) (path : String)
    (h : ∀ e, osStat fs path = .error e → e = Err.ENOENT) :
    (∃ p, fs.resolve path = .ok p) ∨ fs.resolve path = .error Err.ENOENT := by
  cases hr : fs.resolve path with
  | ok p => left; exact ⟨p, rfl⟩
  | error e =>
    right
    rw [h e (by simp only [osStat, hr])]

/-- A key that `Has` finds or reports missing has a path that `stat` finds or
reports missing. -/
theorem Store.Has_false_stat (s : Store) (fs : FS) (id key : String)
    (h : s.Has fs id key = false) :
    osStat fs (s.Root ++ "/" ++ id ++ "/" ++ (s.PathTransformFunc key).FullPath)
      = .error Err.ENOENT := by
  simp only [Store.Has] at h
  split at h
  · simp [isNotExist] at h
  · rename_i e he
    have : e = Err.ENOENT := by
      simpa [isNotExist] using h
    rw [he, this]

/-- In a CAS store, right after a file has been written through an open
handle, `Delete` of its key returns no error and the key is not held any more. -/
theorem Store.CAS_Delete_after_write (st : Store) (fs : FS) (id k : String) (f : FileHandle)
    (c : List UInt8) (hcas : st.PathTransformFunc = CASPathTransformFunc)
    (ho : st.openFileForWriting fs id k = .ok f) :
    (st.Delete (f.fs.set f.path (Node.file c)) id k).1 = none
    ∧ st.Has (st.Delete (f.fs.set f.path (Node.file c)) id k).2 id k = false := by
  obtain ⟨hfirst, ⟨rest, hfull⟩, hlen, hslash⟩ := CAS_first_segment k
  obtain ⟨hres, _⟩ := Store.stat_after_write st fs id k f c ho
  have hne2 := String.append_ne_empty_of_slash (st.Root ++ "/" ++ id)
      (String.mk ((CASPathTransformFunc k).Filename.data.take 5))
  have hres' : (f.fs.set f.path (Node.file c)).resolve
      (st.Root ++ "/" ++ id ++ "/"
        ++ String.mk ((CASPathTransformFunc k).Filename.data.take 5) ++ "/" ++ rest)
      = .ok f.path := by
    simp only [hcas, hfull] at hres
    simp only [String.append_assoc] at hres ⊢
    exact hres
  have hdel : (st.Delete (f.fs.set f.path (Node.file c)) id k).1 = none := by
    simp only [Store.Delete, hcas, hfirst]
    apply osRemoveAll_no_error _ _ _ hlen hslash
    exact FS.resolve_prefix _ _ rest hne2 (Or.inl ⟨f.path, hres'⟩)
  refine ⟨hdel, ?_⟩
  simp only [Store.Delete, hcas, hfirst] at hdel ⊢
  have := osRemoveAll_then_stat (f.fs.set f.path (Node.file c)) _ rest hne2
    (FS.resolve_ok _ _ _ hres').2.1 hdel
  simp only [Store.Has, hcas, hfull]
  simp only [String.append_assoc] at this ⊢
  rw [this]
  rfl

/-- C6, as stated, fails in both parts.  With `ggnetwork/node1` a regular
file, no blob of node `node1` has ever been written (its path cannot even be
looked up), and `Store.Delete` returns the error of `os.RemoveAll`, a path
component that is not a directory.  And for a node id of 4000 bytes in an
empty store, `Store.Delete` returns no error (nothing is there), after which
`Store.Has` for the same key is true: `stat` of the longer blob path fails
with "name too long", which `Has` takes for presence. -/
theorem Store.Delete_error_or_Has_true_after :
    osStat exampleFileAsDir ("ggnetwork" ++ "/" ++ "node1" ++ "/"
        ++ (CASPathTransformFunc "momsbestpicture").FullPath) = .error Err.ENOTDIR
    ∧ (Store.Delete { Root := "ggnetwork", PathTransformFunc := CASPathTransformFunc }
        exampleFileAsDir "node1" "momsbestpicture").1 = some Err.ENOTDIR
    ∧ exampleLongId.utf8ByteSize = 4000
    ∧ (Store.Delete { Root := "ggnetwork", PathTransformFunc := CASPathTransformFunc }
        FS.empty exampleLongId "momsbestpicture").1 = none
    ∧ Store.Has { Root := "ggnetwork", PathTransformFunc := CASPathTransformFunc }
        (Store.Delete { Root := "ggnetwork", PathTransformFunc := CASPathTransformFunc }
          FS.empty exampleLongId "momsbestpicture").2 exampleLongId "momsbestpicture"
        = true := by
  refine ⟨?_, ?_, ?_, ?_, ?_⟩
  · set_option maxRecDepth 100000 in rfl
  · set_option maxRecDepth 100000 in decide
  · decide!
  · decide!
  · decide!

/-- C6, amended: with the CAS path mapper, for every root, node id and key `k`:
once `Store.Delete(id, k)` has returned without error, `Store.Has(id, k')` is
false for every key `k'` whose SHA-1 hex starts with the same five characters
as that of `k` and whose blob path is shorter than `pathMax` (for `k` itself in
particular); right after a successful write of `k` the delete does return
without error and `Has(id, k)` is false afterwards; and `Delete` returns no
error whenever `stat` of `Root/id/<first segment>` succeeds or fails with
"does not exist", as it does for every key that the store does not hold
(`Has` false). -/
theorem Store.Delete_then_Has_false (root : String) (fs : FS) (id k : String) :
    (∀ k' : String,
      (CASPathTransformFunc k').Filename.data.take 5
          = (CASPathTransformFunc k).Filename.data.take 5 →
      (root ++ "/" ++ id ++ "/" ++ (CASPathTransformFunc k').FullPath).utf8ByteSize
          < pathMax →
      (Store.Delete { Root := root, PathTransformFunc := CASPathTransformFunc } fs id k).1
          = none →
      Store.Has { Root := root, PathTransformFunc := CASPathTransformFunc }
        (Store.Delete { Root := root, PathTransformFunc := CASPathTransformFunc } fs id k).2
        id k' = false)
    ∧ (∀ (r : Reader) (res : WriteResult), r.clean = true →
        Store.Write { Root := root, PathTransformFunc := CASPathTransformFunc } fs id k r
          = some res →
        res.err = none →
        (Store.Delete { Root := root, PathTransformFunc := CASPathTransformFunc }
          res.fs id k).1 = none
        ∧ Store.Has { Root := root, PathTransformFunc := CASPathTransformFunc }
            (Store.Delete { Root := root, PathTransformFunc := CASPathTransformFunc }
              res.fs id k).2 id k = false)
    ∧ ((∀ e, osStat fs (root ++ "/" ++ id ++ "/" ++ (CASPathTransformFunc k).FirstPathName)
          = .error e → e = Err.ENOENT) →
        (Store.Delete { Root := root, PathTransformFunc := CASPathTransformFunc } fs id k).1
          = none)
    ∧ (Store.Has { Root := root, PathTransformFunc := CASPathTransformFunc } fs id k = false →
        (Store.Delete { Root := root, PathTransformFunc := CASPathTransformFunc } fs id k).1
          = none) := by
  obtain ⟨hfirst, ⟨rest, hfull⟩, hlen, hslash⟩ := CAS_first_segment k
  refine ⟨?_, ?_, ?_, ?_⟩
  · intro k' hshare hshort hdel
    obtain ⟨_, ⟨rest', hfull'⟩, _, _⟩ := CAS_first_segment k'
    simp only [Store.Delete, hfirst] at hdel ⊢
    have hne : root ++ "/" ++ id ++ "/"
        ++ String.mk ((CASPathTransformFunc k).Filename.data.take 5) ≠ "" :=
      String.append_ne_empty_of_slash _ _
    have hshort' : (root ++ "/" ++ id ++ "/"
        ++ String.mk ((CASPathTransformFunc k).Filename.data.take 5) ++ "/" ++ rest').utf8ByteSize
        < pathMax := by
      rw [hfull', hshare] at hshort
      simp only [String.append_assoc] at hshort ⊢
      exact hshort
    have := osRemoveAll_then_stat fs _ rest' hne hshort' hdel
    simp only [Store.Has, hfull', hshare]
    simp only [String.append_assoc] at this ⊢
    rw [this]
    rfl
  · intro r res hr hw herr
    rcases Store.writeStream_clean
        { Root := root, PathTransformFunc := CASPathTransformFunc } fs id k r hr
      with ⟨e, _, hw'⟩ | ⟨f, ho, hw'⟩
    · rw [Store.Write, hw'] at hw
      simp only [Option.some.injEq] at hw
      subst hw
      simp at herr
    · rw [Store.Write, hw'] at hw
      simp only [Option.some.injEq] at hw
      subst hw
      exact Store.CAS_Delete_after_write
        { Root := root, PathTransformFunc := CASPathTransformFunc } fs id k f r.content rfl ho
  · intro hstat
    simp only [Store.Delete]
    rw [hfirst] at hstat ⊢
    exact osRemoveAll_no_error fs _ _ hlen hslash (osStat_resolve fs _ hstat)
  · intro hhas
    have hst := Store.Has_false_stat _ fs id k hhas
    simp only [Store.Delete, hfirst]
    apply osRemoveAll_no_error fs _ _ hlen hslash
    have hne2 := String.append_ne_empty_of_slash (root ++ "/" ++ id)
        (String.mk ((CASPathTransformFunc k).Filename.data.take 5))
    apply FS.resolve_prefix fs _ rest hne2
    apply osStat_resolve
    intro e he
    simp only [hfull] at hst
    simp only [String.append_assoc] at hst he
    rw [hst] at he
    cases he
    rfl

theorem Store.Delete_then_Has_false_witness :
    Store.Has { Root := "ggnetwork", PathTransformFunc := CASPathTransformFunc }
        exampleFS "node" "foo_1" = true
    ∧ (CASPathTransformFunc "foo_1").Filename.data.take 5
        = (CASPathTransformFunc "foo_1").Filename.data.take 5
    ∧ ("ggnetwork" ++ "/" ++ "node" ++ "/" ++ (CASPathTransformFunc "foo_1").FullPath).utf8ByteSize
        < pathMax
    ∧ (Store.Delete { Root := "ggnetwork", PathTransformFunc := CASPathTransformFunc }
        exampleFS "node" "foo_1").1 = none
    ∧ Store.Has { Root := "ggnetwork", PathTransformFunc := CASPathTransformFunc }
        (Store.Delete { Root := "ggnetwork", PathTransformFunc := CASPathTransformFunc }
          exampleFS "node" "foo_1").2 "node" "foo_1" = false
    ∧ (bytesReader [1, 2, 3]).clean = true
    ∧ Store.Write { Root := "ggnetwork", PathTransformFunc := CASPathTransformFunc }
        FS.empty "node" "foo_1" (bytesReader [1, 2, 3]) = some exampleWrite
    ∧ exampleWrite.err = none
    ∧ ((Store.Delete { Root := "ggnetwork", PathTransformFunc := CASPathTransformFunc }
        exampleWrite.fs "node" "foo_1").1 = none
      ∧ Store.Has { Root := "ggnetwork", PathTransformFunc := CASPathTransformFunc }
          (Store.Delete { Root := "ggnetwork", PathTransformFunc := CASPathTransformFunc }
            exampleWrite.fs "node" "foo_1").2 "node" "foo_1" = false)
    ∧ osStat FS.empty ("ggnetwork" ++ "/" ++ "node" ++ "/"
        ++ (CASPathTransformFunc "foo_1").FirstPathName) = .error Err.ENOENT
    ∧ (Store.Delete { Root := "ggnetwork", PathTransformFunc := CASPathTransformFunc }
        FS.empty "node" "foo_1").1 = none
    ∧ Store.Has { Root := "ggnetwork", PathTransformFunc := CASPathTransformFunc }
        exampleFileAsDir "node" "foo_1" = false
    ∧ (Store.Delete { Root := "ggnetwork", PathTransformFunc := CASPathTransformFunc }
        exampleFileAsDir "node" "foo_1").1 = none :=
  ⟨by set_option maxRecDepth 100000 in decide, rfl,
    by set_option maxRecDepth 100000 in decide,
    by set_option maxRecDepth 100000 in decide,
    (Store.Delete_then_Has_false "ggnetwork" exampleFS "node" "foo_1").1 "foo_1" rfl
      (by set_option maxRecDepth 100000 in decide)
      (by set_option maxRecDepth 100000 in decide),
    by decide, by set_option maxRecDepth 100000 in rfl,
    by set_option maxRecDepth 100000 in decide,
    (Store.Delete_then_Has_false "ggnetwork" FS.empty "node" "foo_1").2.1
      (bytesReader [1, 2, 3]) exampleWrite (by decide)
      (by set_option maxRecDepth 100000 in rfl)
      (by set_option maxRecDepth 100000 in decide),
    by set_option maxRecDepth 100000 in rfl,
    (Store.Delete_then_Has_false "ggnetwork" FS.empty "node" "foo_1").2.2.1
      (by
        intro e he
        have h0 : osStat FS.empty ("ggnetwork" ++ "/" ++ "node" ++ "/"
            ++ (CASPathTransformFunc "foo_1").FirstPathName) = .error Err.ENOENT := by
          set_option maxRecDepth 100000 in rfl
        rw [h0] at he
        cases he
        rfl),
    by set_option maxRecDepth 100000 in decide,
    (Store.Delete_then_Has_false "ggnetwork" exampleFileAsDir "node" "foo_1").2.2.2
      (by set_option maxRecDepth 100000 in decide)⟩

/-! ## `Store.Has` and failing `stat` -/

/-- C7 fails on the code: `Store.Has` is to tell whether the file exists on
disk, and returns `!errors.Is(err, os.ErrNotExist)`.  With `ggnetwork/node1` a
regular file, no file can exist at the derived path `ggnetwork/node1/...`:
`stat` fails (a path component is not a directory), and yet `Store.Has`
returns true. -/
theorem Store.Has_true_when_stat_fails :
    osStat exampleFileAsDir ("ggnetwork" ++ "/" ++ "node1" ++ "/"
        ++ (CASPathTransformFunc "momsbestpicture").FullPath) = .error Err.ENOTDIR
    ∧ Store.Has (NewStore { Root := "", PathTransformFunc := some CASPathTransformFunc })
        exampleFileAsDir "node1" "momsbestpicture" = true := by
  constructor
  · set_option maxRecDepth 100000 in rfl
  · set_option maxRecDepth 100000 in decide

/-- What `Store.Has` computes, for every store, node id and key: false exactly
when `stat` of the derived path fails with "does not exist", true when `stat`
succeeds, and true as well when `stat` fails with any other error. -/
theorem Store.Has_false_iff_not_exist (s : Store) (fs : FS) (id key : String) :
    (s.Has fs id key = false ↔
      osStat fs (s.Root ++ "/" ++ id ++ "/" ++ (s.PathTransformFunc key).FullPath)
        = .error Err.ENOENT)
    ∧ (∀ n, osStat fs (s.Root ++ "/" ++ id ++ "/" ++ (s.PathTransformFunc key).FullPath)
        = .ok n → s.Has fs id key = true)
    ∧ (∀ e, osStat fs (s.Root ++ "/" ++ id ++ "/" ++ (s.PathTransformFunc key).FullPath)
        = .error e → e ≠ Err.ENOENT → s.Has fs id key = true) := by
  simp only [Store.Has]
  cases h : osStat fs (s.Root ++ "/" ++ id ++ "/" ++ (s.PathTransformFunc key).FullPath) with
  | ok n => simp [isNotExist]
  | error e => simp [isNotExist]

theorem Store.Has_false_iff_not_exist_example :
    osStat exampleFileAsDir
        ((NewStore { Root := "", PathTransformFunc := none }).Root ++ "/" ++ "node1" ++ "/"
          ++ ((NewStore { Root := "", PathTransformFunc := none }).PathTransformFunc
            "pic").FullPath) = .error Err.ENOTDIR
    ∧ Err.ENOTDIR ≠ Err.ENOENT
    ∧ (NewStore { Root := "", PathTransformFunc := none }).Has exampleFileAsDir "node1" "pic"
        = true
    ∧ osStat exampleFS ("ggnetwork" ++ "/" ++ "node" ++ "/"
        ++ (CASPathTransformFunc "foo_1").FullPath) = .ok (Node.file [1, 2, 3])
    ∧ Store.Has { Root := "ggnetwork", PathTransformFunc := CASPathTransformFunc }
        exampleFS "node" "foo_1" = true
    ∧ osStat FS.empty ("ggnetwork" ++ "/" ++ "node" ++ "/"
        ++ (CASPathTransformFunc "foo_1").FullPath) = .error Err.ENOENT
    ∧ Store.Has { Root := "ggnetwork", PathTransformFunc := CASPathTransformFunc }
        FS.empty "node" "foo_1" = false :=
  ⟨by rfl, by decide,
    (Store.Has_false_iff_not_exist (NewStore { Root := "", PathTransformFunc := none })
      exampleFileAsDir "node1" "pic").2.2 Err.ENOTDIR (by rfl) (by decide),
    by set_option maxRecDepth 100000 in rfl,
    (Store.Has_false_iff_not_exist
      { Root := "ggnetwork", PathTransformFunc := CASPathTransformFunc }
      exampleFS "node" "foo_1").2.1 (Node.file [1, 2, 3])
      (by set_option maxRecDepth 100000 in rfl),
    by set_option maxRecDepth 100000 in rfl,
    (Store.Has_false_iff_not_exist
      { Root := "ggnetwork", PathTransformFunc := CASPathTransformFunc }
      FS.empty "node" "foo_1").1.mpr (by set_option maxRecDepth 100000 in rfl)⟩

/-! ## Lemmas: peers, fan-out writer and broadcast -/

/-- The peer after its connection has accepted the bytes `b`. -/
theorem tcpPeer_accepts :
    Accepts (fun p : TCPPeer => p.conn.room = none)
      (fun p b => { p with conn := { p.conn with written := p.conn.written ++ b } }) where
  write_eq := by
    intro p b h
    show TCPPeer.write p b = _
    simp only [TCPPeer.write, Sink.write, h]
  ok_app := by intro p b h; exact h
  app_nil := by intro p _; simp
  app_app := by intro p a b; simp

theorem multiWrite_accepts {ω : Type} [IOWriter ω] (ok : ω → Prop)
    (app : ω → List UInt8 → ω) (H : Accepts ok app) (p : List UInt8) :
    ∀ ws : List ω, (∀ w ∈ ws, ok w) →
      multiWrite ws p = ((p.length, none), ws.map fun w => app w p) := by
  intro ws
  induction ws with
  | nil => intro _; rfl
  | cons w ws ih =>
    intro h
    have hw := H.write_eq w p (h w (by simp))
    have ih' := ih (fun x hx => h x (List.mem_cons_of_mem _ hx))
    simp only [multiWrite, hw, ih', ne_eq, not_true_eq_false, if_false, List.map_cons]

theorem multiWriter_accepts {ω : Type} [IOWriter ω] (ok : ω → Prop)
    (app : ω → List UInt8 → ω) (H : Accepts ok app) :
    Accepts (fun m : MultiWriter ω => ∀ w ∈ m.writers, ok w)
      (fun m p => { writers := m.writers.map fun w => app w p }) where
  write_eq := by
    intro m p h
    show ((multiWrite m.writers p).1, ({ writers := (multiWrite m.writers p).2 } : MultiWriter ω))
      = _
    rw [multiWrite_accepts ok app H p m.writers h]
  ok_app := by
    intro m p h w hw
    simp only [List.mem_map] at hw
    obtain ⟨v, hv, rfl⟩ := hw
    exact H.ok_app v p (h v hv)
  app_nil := by
    intro m h
    cases m with
    | mk ws =>
      simp only [MultiWriter.mk.injEq]
      have : ∀ w ∈ ws, app w [] = w := fun w hw => H.app_nil w (h w hw)
      calc ws.map (fun w => app w []) = ws.map id := List.map_congr_left this
        _ = ws := List.map_id ws
  app_app := by
    intro m p q
    simp only [List.map_map, MultiWriter.mk.injEq]
    apply List.map_congr_left
    intro w _
    exact H.app_app w p q

theorem broadcastLoop_ok (buf : List UInt8) :
    ∀ peers : List TCPPeer, (∀ p ∈ peers, p.conn.room = none) →
      broadcastLoop buf peers
        = (none, peers.map fun p =>
            { p with conn := { p.conn with
                written := p.conn.written ++ [IncomingMessage] ++ buf } }) := by
  intro peers
  induction peers with
  | nil => intro _; rfl
  | cons p rest ih =>
    intro h
    have hp := h p (by simp)
    have ih' := ih (fun x hx => h x (List.mem_cons_of_mem _ hx))
    simp only [broadcastLoop, TCPPeer.Send, TCPPeer.write, Sink.write, hp, ih', List.map_cons]

theorem copyEncrypt_accepts {ω : Type} [IOWriter ω]
    (aes : List UInt8 → List UInt8 → List UInt8)
    (ok : ω → Prop) (app : ω → List UInt8 → ω) (H : Accepts ok app)
    (key iv : List UInt8) (src : Reader) (dst : ω)
    (hkey : key.length = 16 ∨ key.length = 24 ∨ key.length = 32)
    (hsrc : src.clean = true) (hdst : ok dst) :
    copyEncrypt aes (.ok iv) key src dst
      = some { n := 16 + src.content.length, err := none, src := src.drained,
               dst := app (app dst iv) (xorBytes (ctrKeystream aes key iv) 0 src.content) } := by
  simp only [copyEncrypt, aesNewCipher_ok key hkey, copyStream, H.write_eq dst iv hdst, ne_eq,
    not_true_eq_false, if_false]
  rw [copyStreamLoop_clean aes ok app H _ _ _ _ _ hsrc (Nat.lt_succ_self _)
    (H.ok_app dst iv hdst)]
  simp [aesBlockSize]

theorem copyEncrypt_bad_key {ω : Type} [IOWriter ω]
    (aes : List UInt8 → List UInt8 → List UInt8) (rnd : Except Err (List UInt8))
    (key : List UInt8) (src : Reader) (dst : ω)
    (hkey : ¬ (key.length = 16 ∨ key.length = 24 ∨ key.length = 32)) :
    copyEncrypt aes rnd key src dst
      = some { n := 0, err := some Err.KeySizeError, src := src, dst := dst } := by
  simp only [copyEncrypt, aesNewCipher, hkey, if_false]

theorem bytesReader_clean_content (data : List UInt8) :
    (bytesReader data).clean = true ∧ (bytesReader data).content = data := by
  simp only [bytesReader]
  split
  · rename_i h; simp [Reader.clean, cleanEvents, Reader.content, h]
  · simp [Reader.clean, cleanEvents, Reader.content]

/-! ## `FileServer.Store` -/

/-- C10: for every key and every source that delivers `n` plaintext bytes `P`
without error, with every peer connection accepting its writes: `Store`
returns, and when it returns no error, every peer's connection has received,
after what it held before, the message sentinel and the encoding of the
`StoreFile` message whose `Size` is `n + 16`, then the stream sentinel `0x02`,
then exactly `n + 16` raw bytes, the 16 IV bytes followed by the `n`
ciphertext bytes, the same for every peer. -/
theorem FileServer.Store_announces_stream_size (lib : Lib) (s : FileServer) (key : String)
    (r : Reader) (iv : List UInt8)
    (hr : r.clean = true) (hiv : iv.length = 16)
    (hpeers : ∀ p ∈ s.peers, p.conn.room = none) :
    ∃ out : Option Err × FileServer,
      FileServer.Store lib (.ok iv) s key r = some out
      ∧ (out.1 = none →
          ∃ gob : List UInt8,
            lib.gobEncode (Message.storeFile
              { ID := s.ID, Key := hashKey lib key, Size := (r.content.length : Int) + 16 })
              = .ok gob
            ∧ out.2.peers = s.peers.map (fun p =>
                { p with conn := { p.conn with
                    written := p.conn.written ++ [IncomingMessage] ++ gob ++ [IncomingStream]
                      ++ (iv ++ xorBytes (ctrKeystream lib.aes s.EncKey iv) 0 r.content) } })
            ∧ ((iv ++ xorBytes (ctrKeystream lib.aes s.EncKey iv) 0 r.content).length : Int)
                = (r.content.length : Int) + 16) := by
  have htee : (Reader.tee r []).clean = true := by simpa [Reader.clean] using hr
  simp only [FileServer.Store, Store.Write]
  rcases Store.writeStream_clean s.store s.disk s.ID key (Reader.tee r []) htee
    with ⟨e, _, hw⟩ | ⟨f, _, hw⟩
  · rw [hw]
    exact ⟨_, rfl, fun h => by simp at h⟩
  · rw [hw]
    simp only [Reader.content, Reader.drained, Reader.teeBuf, List.nil_append,
      FileServer.broadcast]
    cases hg : lib.gobEncode (Message.storeFile
        { ID := s.ID, Key := hashKey lib key, Size := (r.content.length : Int) + 16 }) with
    | error e => exact ⟨_, rfl, fun h => by simp at h⟩
    | ok gob =>
      simp only [broadcastLoop_ok gob s.peers hpeers]
      have hmw := multiWriter_accepts _ _ tcpPeer_accepts
      have hok1 : ∀ w ∈ (List.map (fun p : TCPPeer =>
          { p with conn := { p.conn with
              written := p.conn.written ++ [IncomingMessage] ++ gob } }) s.peers),
          w.conn.room = none := by
        intro w hw'
        simp only [List.mem_map] at hw'
        obtain ⟨p, hp, rfl⟩ := hw'
        exact hpeers p hp
      rw [hmw.write_eq { writers := _ } [IncomingStream] hok1]
      simp only
      by_cases hkey : s.EncKey.length = 16 ∨ s.EncKey.length = 24 ∨ s.EncKey.length = 32
      · obtain ⟨hbc, hbd⟩ := bytesReader_clean_content r.content
        rw [copyEncrypt_accepts lib.aes _ _ hmw s.EncKey iv (bytesReader r.content) _ hkey hbc
          (hmw.ok_app { writers := _ } [IncomingStream] hok1)]
        refine ⟨_, rfl, fun _ => ⟨gob, rfl, ?_, ?_⟩⟩
        · simp only [List.map_map, hbd]
          apply List.map_congr_left
          intro p _
          simp [Function.comp, List.append_assoc]
        · simp [xorBytes_length, hiv]
          omega
      · rw [copyEncrypt_bad_key lib.aes _ s.EncKey _ _ hkey]
        exact ⟨_, rfl, fun h => by simp at h⟩

theorem FileServer.Store_announces_stream_size_witness :
    exampleSource.clean = true ∧ exampleIV.length = 16
    ∧ (∀ p ∈ exampleServer.peers, p.conn.room = none)
    ∧ (FileServer.Store exampleLib (.ok exampleIV) exampleServer "pic" exampleSource).map
        (fun out => out.1) = some none
    ∧ ∃ out : Option Err × FileServer,
      FileServer.Store exampleLib (.ok exampleIV) exampleServer "pic" exampleSource = some out
      ∧ (out.1 = none →
          ∃ gob : List UInt8,
            exampleLib.gobEncode (Message.storeFile
              { ID := exampleServer.ID, Key := hashKey exampleLib "pic",
                Size := (exampleSource.content.length : Int) + 16 }) = .ok gob
            ∧ out.2.peers = exampleServer.peers.map (fun p =>
                { p with conn := { p.conn with
                    written := p.conn.written ++ [IncomingMessage] ++ gob ++ [IncomingStream]
                      ++ (exampleIV ++ xorBytes
                        (ctrKeystream exampleLib.aes exampleServer.EncKey exampleIV) 0
                        exampleSource.content) } })
            ∧ ((exampleIV ++ xorBytes
                  (ctrKeystream exampleLib.aes exampleServer.EncKey exampleIV) 0
                  exampleSource.content).length : Int)
                = (exampleSource.content.length : Int) + 16) :=
  ⟨by decide, by decide, by decide, by decide,
    FileServer.Store_announces_stream_size exampleLib exampleServer "pic" exampleSource
      exampleIV (by decide) (by decide) (by decide)⟩

/-! ## `copyDecrypt`: the IV read and the byte counts -/

/-- What `copyDecrypt` does on a source that delivers its bytes without error:
it fails when the first `Read` reports the end of the source, and otherwise
takes the bytes of that one `Read` (zero padded) as IV and decrypts the rest. -/
theorem copyDecrypt_clean {ω : Type} [IOWriter ω]
    (aes : List UInt8 → List UInt8 → List UInt8)
    (ok : ω → Prop) (app : ω → List UInt8 → ω) (H : Accepts ok app)
    (key : List UInt8) (src : Reader) (dst : ω)
    (hkey : key.length = 16 ∨ key.length = 24 ∨ key.length = 32)
    (hsrc : src.clean = true) (hdst : ok dst) :
    ((src.read aesBlockSize).1.2 = some Err.EOF
      ∧ copyDecrypt aes key src dst
          = some { n := 0, err := some Err.EOF, src := (src.read aesBlockSize).2, dst := dst })
    ∨ ((src.read aesBlockSize).1.2 = none
      ∧ copyDecrypt aes key src dst
          = some { n := 16 + (src.read aesBlockSize).2.content.length, err := none,
                   src := (src.read aesBlockSize).2.drained,
                   dst := app dst (xorBytes
                     (ctrKeystream aes key ((src.read aesBlockSize).1.1
                       ++ List.replicate (aesBlockSize - (src.read aesBlockSize).1.1.length) 0))
                     0 (src.read aesBlockSize).2.content) }) := by
  obtain ⟨hc, he⟩ := Reader.read_clean src aesBlockSize hsrc
  rcases he with he | he
  · right
    refine ⟨he, ?_⟩
    simp only [copyDecrypt, aesNewCipher_ok key hkey, he, ne_eq, not_true_eq_false, if_false,
      copyStream]
    rw [copyStreamLoop_clean aes ok app H _ _ _ _ _ hc (Nat.lt_succ_self _) hdst]
    simp [aesBlockSize]
  · left
    refine ⟨he, ?_⟩
    simp [copyDecrypt, aesNewCipher_ok key hkey, he]

/-- C16 fails on the code: `copyDecrypt` takes the IV from a single `Read`.
Encrypting `1, 2, 3` gives the IV followed by `17, 18, 19`.  A source that
hands over only the first 8 of the 16 IV bytes in its first read makes the
decryption use those 8 bytes and 8 zero bytes as IV and treat the other 8 IV
bytes as ciphertext: 11 bytes come out, none of them the plaintext, and no
error is reported.  A source that ends after 5 bytes makes it return 16 and no
error. -/
theorem copyDecrypt_takes_iv_from_one_read :
    (copyEncrypt exampleBlock (.ok exampleIV) exampleKey (bytesReader [1, 2, 3])
        (Sink.buffer [])).map (fun res => (res.err, res.dst.written))
      = some (none, exampleIV ++ [17, 18, 19])
    ∧ (copyDecrypt exampleBlock exampleKey
        (Reader.script [(exampleIV.take 8, none), (exampleIV.drop 8 ++ [17, 18, 19], none)])
        (Sink.buffer [])).map (fun res => (res.n, res.err, res.dst.written))
      = some (27, none, [25, 25, 25, 25, 25, 25, 25, 25, 22, 21, 20])
    ∧ (copyDecrypt exampleBlock exampleKey (Reader.script [([9, 9, 9, 9, 9], none)])
        (Sink.buffer [])).map (fun res => (res.n, res.err, res.dst.written))
      = some (16, none, []) := by
  decide

/-- C17: for every valid key and every source that delivers its bytes without
error: `copyEncrypt` returns 16 plus the number of plaintext bytes;
`copyDecrypt`, when it succeeds, returns 16 plus the number of bytes it wrote to
the sink; decrypting the buffer that encrypting `P` filled reports `|P| + 16`;
and `Store.WriteDecrypt`, when it succeeds, returns the same count, 16 plus
the size of the blob it stored. -/
theorem crypto_counts_include_iv (aes : List UInt8 → List UInt8 → List UInt8)
    (key : List UInt8) (hkey : key.length = 16 ∨ key.length = 24 ∨ key.length = 32) :
    (∀ (iv : List UInt8) (src : Reader) (pre : List UInt8), src.clean = true →
      ∃ res : CopyResult Sink,
        copyEncrypt aes (.ok iv) key src (Sink.buffer pre) = some res
        ∧ res.err = none ∧ res.n = 16 + src.content.length)
    ∧ (∀ (src : Reader) (pre : List UInt8), src.clean = true →
      ∃ res : CopyResult Sink,
        copyDecrypt aes key src (Sink.buffer pre) = some res
        ∧ (res.err = none → res.n = 16 + (res.dst.written.length - pre.length)))
    ∧ (∀ (iv : List UInt8) (src : Reader), iv.length = 16 → src.clean = true →
      ∃ enc dec : CopyResult Sink,
        copyEncrypt aes (.ok iv) key src (Sink.buffer []) = some enc
        ∧ copyDecrypt aes key (bytesReader enc.dst.written) (Sink.buffer []) = some dec
        ∧ dec.err = none ∧ dec.n = src.content.length + 16)
    ∧ (∀ (s : Store) (fs : FS) (id k : String) (src : Reader), src.clean = true →
      ∃ res : WriteResult,
        Store.WriteDecrypt aes s fs key id k src = some res
        ∧ (res.err = none →
            ∃ blob : List UInt8,
              s.Read res.fs id k = .ok (blob.length, bytesReader blob)
              ∧ res.n = 16 + blob.length)) := by
  refine ⟨?_, ?_, ?_, ?_⟩
  · intro iv src pre hsrc
    exact ⟨_, copyEncrypt_buffer aes key iv src pre hkey hsrc, rfl, rfl⟩
  · intro src pre hsrc
    rcases copyDecrypt_clean aes _ _ sink_accepts key src (Sink.buffer pre) hkey hsrc rfl
      with ⟨_, h⟩ | ⟨_, h⟩
    · exact ⟨_, h, fun he => by simp at he⟩
    · refine ⟨_, h, fun _ => ?_⟩
      simp [Sink.buffer, xorBytes_length]
  · intro iv src hiv hsrc
    obtain ⟨dec, hd1, hd2, hd3, _⟩ := copyDecrypt_buffer aes key iv
      (xorBytes (ctrKeystream aes key iv) 0 src.content) [] hkey hiv
    refine ⟨_, dec, copyEncrypt_buffer aes key iv src [] hkey hsrc, ?_, hd3, ?_⟩
    · simpa [Sink.buffer] using hd1
    · rw [hd2, xorBytes_length]; omega
  · intro s fs id k src hsrc
    simp only [Store.WriteDecrypt]
    cases ho : s.openFileForWriting fs id k with
    | error e => exact ⟨_, rfl, fun he => by simp at he⟩
    | ok f =>
      obtain ⟨_, _, _, hfile⟩ := Store.openFileForWriting_ok s fs id k f ho
      rcases copyDecrypt_clean aes _ _ fileHandle_accepts key src f hkey hsrc ⟨[], hfile⟩
        with ⟨_, h⟩ | ⟨_, h⟩
      · simp only [h]
        exact ⟨_, rfl, fun he => by simp at he⟩
      · simp only [h, hfile, List.nil_append]
        refine ⟨_, rfl, fun _ => ⟨xorBytes (ctrKeystream aes key ((src.read aesBlockSize).1.1
              ++ List.replicate (aesBlockSize - (src.read aesBlockSize).1.1.length) 0))
              0 (src.read aesBlockSize).2.content, ?_, ?_⟩⟩
        · obtain ⟨_, hstat⟩ := Store.stat_after_write s fs id k f
            (xorBytes (ctrKeystream aes key ((src.read aesBlockSize).1.1
              ++ List.replicate (aesBlockSize - (src.read aesBlockSize).1.1.length) 0))
              0 (src.read aesBlockSize).2.content) ho
          simp only [Store.Read, Store.readStream, osOpen, hstat]
        · simp [xorBytes_length]

theorem crypto_counts_include_iv_witness :
    (exampleKey.length = 16 ∨ exampleKey.length = 24 ∨ exampleKey.length = 32)
    ∧ (bytesReader [70, 111, 111, 32, 110, 111, 116, 32, 98, 97, 114]).clean = true
    ∧ exampleIV.length = 16
    ∧ (∃ res : CopyResult Sink,
        copyEncrypt exampleBlock (.ok exampleIV) exampleKey
            (bytesReader [70, 111, 111, 32, 110, 111, 116, 32, 98, 97, 114]) (Sink.buffer [])
          = some res
        ∧ res.err = none
        ∧ res.n = 16
            + (bytesReader [70, 111, 111, 32, 110, 111, 116, 32, 98, 97, 114]).content.length)
    ∧ (∃ res : CopyResult Sink,
        copyDecrypt exampleBlock exampleKey
            (bytesReader [70, 111, 111, 32, 110, 111, 116, 32, 98, 97, 114]) (Sink.buffer [])
          = some res
        ∧ (res.err = none →
            res.n = 16 + (res.dst.written.length - ([] : List UInt8).length)))
    ∧ (∃ enc dec : CopyResult Sink,
        copyEncrypt exampleBlock (.ok exampleIV) exampleKey
            (bytesReader [70, 111, 111, 32, 110, 111, 116, 32, 98, 97, 114]) (Sink.buffer [])
          = some enc
        ∧ copyDecrypt exampleBlock exampleKey (bytesReader enc.dst.written) (Sink.buffer [])
          = some dec
        ∧ dec.err = none
        ∧ dec.n
          = (bytesReader [70, 111, 111, 32, 110, 111, 116, 32, 98, 97, 114]).content.length + 16)
    ∧ (∃ res : WriteResult,
        Store.WriteDecrypt exampleBlock
            { Root := "ggnetwork", PathTransformFunc := DefaultPathTransformFunc } FS.empty
            exampleKey "node" "pic" (bytesReader (exampleIV ++ [17, 18, 19])) = some res
        ∧ (res.err = none →
            ∃ blob : List UInt8,
              Store.Read { Root := "ggnetwork", PathTransformFunc := DefaultPathTransformFunc }
                  res.fs "node" "pic" = .ok (blob.length, bytesReader blob)
              ∧ res.n = 16 + blob.length))
    ∧ (Store.WriteDecrypt exampleBlock
          { Root := "ggnetwork", PathTransformFunc := DefaultPathTransformFunc } FS.empty
          exampleKey "node" "pic" (bytesReader (exampleIV ++ [17, 18, 19]))).map
        (fun res => (res.n, res.err)) = some (19, none) :=
  ⟨by decide, by decide, by decide,
    (crypto_counts_include_iv exampleBlock exampleKey (by decide)).1 exampleIV
      (bytesReader [70, 111, 111, 32, 110, 111, 116, 32, 98, 97, 114]) [] (by decide),
    (crypto_counts_include_iv exampleBlock exampleKey (by decide)).2.1
      (bytesReader [70, 111, 111, 32, 110, 111, 116, 32, 98, 97, 114]) [] (by decide),
    (crypto_counts_include_iv exampleBlock exampleKey (by decide)).2.2.1 exampleIV
      (bytesReader [70, 111, 111, 32, 110, 111, 116, 32, 98, 97, 114]) (by decide) (by decide),
    (crypto_counts_include_iv exampleBlock exampleKey (by decide)).2.2.2
      { Root := "ggnetwork", PathTransformFunc := DefaultPathTransformFunc } FS.empty
      "node" "pic" (bytesReader (exampleIV ++ [17, 18, 19])) (by decide),
    by decide⟩

/-! ## The default decoder and an empty tag read -/

/-- C18 fails on the code: `DefaultDecoder.Decode` looks at the error of the
tag read only and not at its byte count.  When the read of the tag byte yields
zero bytes and no error, nothing has been read, and yet `Decode` goes on to
the payload read; here it returns a frame whose payload is `7, 8, 9`. -/
theorem Decode_empty_tag_read_without_error :
    (Reader.script [([], none), ([7, 8, 9], none)]).read 1
        = (([], none), Reader.script [([7, 8, 9], none)])
    ∧ DefaultDecoder.Decode (Reader.script [([], none), ([7, 8, 9], none)]) RPC.fresh
        = (none, { From := "", Payload := [7, 8, 9], Stream := false }, Reader.script []) := by
  decide

/-- For every reader whose read of the tag byte returns an error such as EOF
(with zero bytes in particular), `DefaultDecoder.Decode` returns no error and
leaves the frame as it was, `Stream` unset and payload empty for a fresh
frame; the reader is left as that one read left it, so no further read is
made. -/
theorem Decode_swallows_tag_read_error (r r1 : Reader) (b : List UInt8) (e : Err)
    (h : r.read 1 = ((b, some e), r1)) :
    DefaultDecoder.Decode r RPC.fresh
      = (none, { From := "", Payload := [], Stream := false }, r1) := by
  simp [DefaultDecoder.Decode, h, RPC.fresh]

theorem Decode_swallows_tag_read_error_example :
    (Reader.script []).read 1 = (([], some Err.EOF), Reader.script [])
    ∧ DefaultDecoder.Decode (Reader.script []) RPC.fresh
        = (none, { From := "", Payload := [], Stream := false }, Reader.script []) :=
  ⟨by decide, Decode_swallows_tag_read_error (Reader.script []) (Reader.script []) []
    Err.EOF (by decide)⟩

/-! ## Lemmas: copy loops on arbitrary sources -/

/-- On a writer that accepts every write, `copyStream` does what it does on an
in-memory buffer: same count, same error, same reader, and the buffer's bytes
appended to the writer. -/
theorem copyStreamLoop_as_buffer {ω : Type} [IOWriter ω]
    (aes : List UInt8 → List UInt8 → List UInt8)
    (ok : ω → Prop) (app : ω → List UInt8 → ω) (H : Accepts ok app) :
    ∀ (fuel : Nat) (stream : CTRStream) (src : Reader) (dst : ω) (pre : List UInt8) (nw : Nat),
      ok dst →
      copyStreamLoop aes fuel stream src (app dst pre) nw
        = (copyStreamLoop aes fuel stream src (Sink.buffer pre) nw).map fun r =>
            { n := r.n, err := r.err, src := r.src, dst := app dst r.dst.written } := by
  intro fuel
  induction fuel with
  | zero => intro _ _ _ _ _ _; rfl
  | succ fuel ih =>
    intro stream src dst pre nw hok
    have hw := H.write_eq (app dst pre)
      (xorBytes (ctrKeystream aes stream.key stream.iv) stream.pos (src.read (32 * 1024)).1.1)
      (H.ok_app dst pre hok)
    have hs : IOWriter.write (Sink.buffer pre)
        (xorBytes (ctrKeystream aes stream.key stream.iv) stream.pos (src.read (32 * 1024)).1.1)
        = (((xorBytes (ctrKeystream aes stream.key stream.iv) stream.pos
              (src.read (32 * 1024)).1.1).length, none),
            Sink.buffer (pre ++ xorBytes (ctrKeystream aes stream.key stream.iv) stream.pos
              (src.read (32 * 1024)).1.1)) := rfl
    rw [copyStreamLoop, copyStreamLoop]
    simp only [CTRStream.xorKeyStream, hw, hs, H.app_app, ne_eq, not_true_eq_false, if_false]
    split
    · split
      · simp [Sink.buffer]
      · split
        · simp [Sink.buffer]
        · exact ih _ _ _ _ _ hok
    · split
      · simp [Sink.buffer]
      · split
        · simp [Sink.buffer]
        · exact ih _ _ _ _ _ hok

theorem copyStreamLoop_buffer_terminates (aes : List UInt8 → List UInt8 → List UInt8) :
    ∀ (fuel : Nat) (stream : CTRStream) (src : Reader) (pre : List UInt8) (nw : Nat),
      src.fuel < fuel →
      ∃ r : CopyResult Sink, copyStreamLoop aes fuel stream src (Sink.buffer pre) nw = some r
        ∧ ∃ out, r.dst = Sink.buffer (pre ++ out) := by
  intro fuel
  induction fuel with
  | zero => intro _ src _ _ hf; exact absurd hf (Nat.not_lt_zero _)
  | succ fuel ih =>
    intro stream src pre nw hf
    have hs : IOWriter.write (Sink.buffer pre)
        (xorBytes (ctrKeystream aes stream.key stream.iv) stream.pos (src.read (32 * 1024)).1.1)
        = (((xorBytes (ctrKeystream aes stream.key stream.iv) stream.pos
              (src.read (32 * 1024)).1.1).length, none),
            Sink.buffer (pre ++ xorBytes (ctrKeystream aes stream.key stream.iv) stream.pos
              (src.read (32 * 1024)).1.1)) := rfl
    rw [copyStreamLoop]
    simp only [CTRStream.xorKeyStream, hs, ne_eq, not_true_eq_false, if_false]
    split
    · split
      · exact ⟨_, rfl, _, rfl⟩
      · split
        · exact ⟨_, rfl, _, rfl⟩
        · rename_i h1 h2
          have hnone : (src.read (32 * 1024)).1.2 = none := by
            simpa using h2
          have hfu := Reader.read_fuel src (32 * 1024) (by decide) hnone
          obtain ⟨r, hr, out, ho⟩ := ih
            { stream with pos := stream.pos + (src.read (32 * 1024)).1.1.length }
            (src.read (32 * 1024)).2
            (pre ++ xorBytes (ctrKeystream aes stream.key stream.iv) stream.pos
              (src.read (32 * 1024)).1.1)
            (nw + (xorBytes (ctrKeystream aes stream.key stream.iv) stream.pos
              (src.read (32 * 1024)).1.1).length) (by omega)
          exact ⟨r, hr, _, by rw [ho, List.append_assoc]⟩
    · split
      · exact ⟨_, rfl, [], by simp⟩
      · split
        · exact ⟨_, rfl, [], by simp⟩
        · rename_i h1 h2
          have hnone : (src.read (32 * 1024)).1.2 = none := by
            simpa using h2
          have hfu := Reader.read_fuel src (32 * 1024) (by decide) hnone
          exact ih _ _ _ _ (by omega)

theorem copyDecrypt_as_buffer {ω : Type} [IOWriter ω]
    (aes : List UInt8 → List UInt8 → List UInt8)
    (ok : ω → Prop) (app : ω → List UInt8 → ω) (H : Accepts ok app)
    (key : List UInt8) (src : Reader) (dst : ω) (hok : ok dst) :
    copyDecrypt aes key src dst
      = (copyDecrypt aes key src (Sink.buffer [])).map fun r =>
          { n := r.n, err := r.err, src := r.src, dst := app dst r.dst.written } := by
  have hnil := H.app_nil dst hok
  unfold copyDecrypt
  cases aesNewCipher key with
  | error e => simp [Sink.buffer, hnil]
  | ok block =>
    simp only []
    split
    · simp [Sink.buffer, hnil]
    · have h := copyStreamLoop_as_buffer aes ok app H ((src.read aesBlockSize).2.fuel + 1)
        { key := block,
          iv := (src.read aesBlockSize).1.1
            ++ List.replicate (aesBlockSize - (src.read aesBlockSize).1.1.length) 0,
          pos := 0 } (src.read aesBlockSize).2 dst [] aesBlockSize hok
      rw [hnil] at h
      exact h

theorem copyDecrypt_buffer_terminates (aes : List UInt8 → List UInt8 → List UInt8)
    (key : List UInt8) (src : Reader) :
    ∃ r : CopyResult Sink, copyDecrypt aes key src (Sink.buffer []) = some r := by
  unfold copyDecrypt
  cases aesNewCipher key with
  | error e => exact ⟨_, rfl⟩
  | ok block =>
    simp only []
    split
    · exact ⟨_, rfl⟩
    · obtain ⟨r, hr, _⟩ := copyStreamLoop_buffer_terminates aes
        ((src.read aesBlockSize).2.fuel + 1)
        { key := block,
          iv := (src.read aesBlockSize).1.1
            ++ List.replicate (aesBlockSize - (src.read aesBlockSize).1.1.length) 0,
          pos := 0 } (src.read aesBlockSize).2 [] aesBlockSize (Nat.lt_succ_self _)
      exact ⟨r, hr⟩

/-- Once the target file has been opened, `WriteDecrypt` returns, and the file
holds exactly what `copyDecrypt` writes into an empty buffer. -/
theorem Store.WriteDecrypt_after_open (aes : List UInt8 → List UInt8 → List UInt8)
    (s : Store) (fs : FS) (encKey : List UInt8) (id key : String) (rd : Reader)
    (f : FileHandle) (ho : s.openFileForWriting fs id key = .ok f) :
    ∃ r : CopyResult Sink, copyDecrypt aes encKey rd (Sink.buffer []) = some r
      ∧ s.WriteDecrypt aes fs encKey id key rd
          = some { n := r.n, err := r.err,
                   fs := f.fs.set f.path (Node.file r.dst.written), src := r.src } := by
  obtain ⟨g, _, _, hfile⟩ := Store.openFileForWriting_ok s fs id key f ho
  obtain ⟨r, hr⟩ := copyDecrypt_buffer_terminates aes encKey rd
  have h := copyDecrypt_as_buffer aes _ _ fileHandle_accepts encKey rd f ⟨[], hfile⟩
  rw [hr] at h
  refine ⟨r, hr, ?_⟩
  simp only [Store.WriteDecrypt, ho, h, Option.map_some', hfile, List.nil_append]

theorem Store.Has_Read_after_write (s : Store) (fs : FS) (id key : String) (f : FileHandle)
    (c : List UInt8) (ho : s.openFileForWriting fs id key = .ok f) :
    s.Has (f.fs.set f.path (Node.file c)) id key = true
      ∧ s.Read (f.fs.set f.path (Node.file c)) id key = .ok (c.length, bytesReader c) := by
  have hst := (Store.stat_after_write s fs id key f c ho).2
  constructor
  · simp only [Store.Has, hst]; rfl
  · simp only [Store.Read, Store.readStream, osOpen, hst]

/-! ## Lemmas: opening a file again -/

/-- `mkdirWalk` keeps every directory that is there. -/
theorem FS.mkdirWalk_keeps_dirs :
    ∀ (cs : List String) (fs : FS) (cur : List String) (q : List String),
      fs.get q = some Node.dir → ((fs.mkdirWalk cur cs).2).get q = some Node.dir := by
  intro cs
  induction cs with
  | nil =>
    intro fs cur q hq
    simp only [FS.mkdirWalk]
    split <;> exact hq
  | cons c rest ih =>
    intro fs cur q hq
    simp only [FS.mkdirWalk]
    split
    · exact hq
    · exact hq
    · split
      · exact ih fs cur q hq
      · split
        · exact ih fs _ q hq
        · split
          · exact hq
          · split
            · rename_i hnone
              apply ih
              have hne : q ≠ cur ++ [c] := by
                intro e; rw [e, hnone] at hq; cases hq
              rw [FS.get_set_ne _ _ _ _ hne]
              exact hq
            · exact ih fs _ q hq

/-- After `mkdirWalk` has succeeded, it succeeds again without a change, also
when a node that is not a directory has been replaced meanwhile. -/
theorem FS.mkdirWalk_again :
    ∀ (cs : List String) (fs : FS) (cur : List String) (m : FS),
      fs.mkdirWalk cur cs = (none, m) →
      m.get cur = some Node.dir
        ∧ ∀ (p : List String) (n : Node), m.get p ≠ some Node.dir →
            (m.set p n).mkdirWalk cur cs = (none, m.set p n) := by
  intro cs
  induction cs with
  | nil =>
    intro fs cur m h
    simp only [FS.mkdirWalk] at h
    split at h
    · rename_i hd
      simp only [Prod.mk.injEq, true_and] at h
      subst h
      refine ⟨hd, ?_⟩
      intro p n hp
      have hne : cur ≠ p := by intro e; rw [e] at hd; exact hp hd
      simp only [FS.mkdirWalk, FS.get_set_ne _ _ _ _ hne, hd]
    · simp at h
    · simp at h
  | cons c rest ih =>
    intro fs cur m h
    simp only [FS.mkdirWalk] at h
    split at h
    · simp at h
    · simp at h
    · rename_i hd
      have step : ∀ (fs1 : FS) (nxt : List String), fs1.get cur = some Node.dir →
          fs1.mkdirWalk nxt rest = (none, m) → m.get cur = some Node.dir := by
        intro fs1 nxt h1 h2
        have := FS.mkdirWalk_keeps_dirs rest fs1 nxt cur h1
        rw [h2] at this
        exact this
      split at h
      · rename_i hc
        obtain ⟨_, h2⟩ := ih fs cur m h
        have hcur := step fs cur hd h
        refine ⟨hcur, ?_⟩
        intro p n hp
        have hne : cur ≠ p := by intro e; rw [e] at hcur; exact hp hcur
        simp only [FS.mkdirWalk, FS.get_set_ne _ _ _ _ hne, hcur, hc, if_true]
        exact h2 p n hp
      · rename_i hc
        split at h
        · rename_i hdd
          obtain ⟨_, h2⟩ := ih fs _ m h
          have hcur := step fs _ hd h
          refine ⟨hcur, ?_⟩
          intro p n hp
          have hne : cur ≠ p := by intro e; rw [e] at hcur; exact hp hcur
          simp only [FS.mkdirWalk, FS.get_set_ne _ _ _ _ hne, hcur, hc, hdd, if_true, if_false]
          exact h2 p n hp
        · rename_i hdd
          by_cases hnm : nameMax < c.utf8ByteSize
          · rw [if_pos hnm] at h
            simp at h
          · rw [if_neg hnm] at h
            have key : ∀ fs1 : FS, fs1.get cur = some Node.dir →
                fs1.mkdirWalk (cur ++ [c]) rest = (none, m) →
                m.get cur = some Node.dir
                  ∧ ∀ (p : List String) (n : Node), m.get p ≠ some Node.dir →
                      (m.set p n).mkdirWalk cur (c :: rest) = (none, m.set p n) := by
              intro fs1 h1 hw
              obtain ⟨h3, h2⟩ := ih fs1 _ m hw
              have hcur := step fs1 _ h1 hw
              refine ⟨hcur, ?_⟩
              intro p n hp
              have hne : cur ≠ p := by intro e; rw [e] at hcur; exact hp hcur
              have hne2 : cur ++ [c] ≠ p := by intro e; rw [e] at h3; exact hp h3
              simp only [FS.mkdirWalk, FS.get_set_ne _ _ _ _ hne, FS.get_set_ne _ _ _ _ hne2,
                hcur, h3, hc, hdd, hnm, if_false]
              exact h2 p n hp
            split at h
            · rename_i hnone
              refine key _ ?_ h
              have hne : cur ≠ cur ++ [c] := by
                intro e
                have := congrArg List.length e
                simp at this
              rw [FS.get_set_ne _ _ _ _ hne]
              exact hd
            · exact key fs hd h

/-- Once a file has been opened for writing and written, opening it again
succeeds and gives the same handle on the emptied file. -/
theorem Store.openFileForWriting_again (s : Store) (fs : FS) (id key : String)
    (f : FileHandle) (c : List UInt8) (ho : s.openFileForWriting fs id key = .ok f) :
    s.openFileForWriting (f.fs.set f.path (Node.file c)) id key = .ok f := by
  obtain ⟨hres, _⟩ := Store.stat_after_write s fs id key f c ho
  obtain ⟨g, hc, hp, hfile⟩ := Store.openFileForWriting_ok s fs id key f ho
  simp only [Store.openFileForWriting] at ho
  split at ho
  · simp at ho
  · rename_i hm
    split at ho
    · simp at ho
    · rename_i f1 hcr
      simp only [Except.ok.injEq] at ho
      subst ho
      obtain ⟨h1, h2, h3⟩ := osCreate_ok _ _ _ hcr
      have hfs : f1.fs.set f1.path (Node.file c)
          = (osMkdirAll fs (s.Root ++ "/" ++ id ++ "/" ++ (s.PathTransformFunc key).PathName)).2.set
              f1.path (Node.file c) := by
        rw [h2, FS.set_set]
      have hmk : osMkdirAll (f1.fs.set f1.path (Node.file c))
          (s.Root ++ "/" ++ id ++ "/" ++ (s.PathTransformFunc key).PathName)
          = (none, f1.fs.set f1.path (Node.file c)) := by
        by_cases he : s.Root ++ "/" ++ id ++ "/" ++ (s.PathTransformFunc key).PathName = ""
        · simp [osMkdirAll, he] at hm
        · by_cases hl : pathMax ≤
              (s.Root ++ "/" ++ id ++ "/" ++ (s.PathTransformFunc key).PathName).utf8ByteSize
          · simp [osMkdirAll, he, hl] at hm
          · have hmd : osMkdirAll fs
                (s.Root ++ "/" ++ id ++ "/" ++ (s.PathTransformFunc key).PathName)
                = fs.mkdirWalk []
                    (stringsSplit
                      (s.Root ++ "/" ++ id ++ "/" ++ (s.PathTransformFunc key).PathName) '/') := by
              simp only [osMkdirAll, if_neg he, if_neg hl]
            rw [hfs]
            rw [hmd] at hm h3 ⊢
            simp only [osMkdirAll, if_neg he, if_neg hl]
            exact (FS.mkdirWalk_again _ fs [] _ (Prod.ext hm rfl)).2 _ _ h3
      have hget : (f1.fs.set f1.path (Node.file c)).get f1.path = some (Node.file c) :=
        FS.get_set_self _ _ _ hp
      simp only [Store.openFileForWriting, hmk, osCreate, hres, hget]
      congr 1
      cases f1 with
      | mk ffs fpath =>
        simp only [FileHandle.mk.injEq, and_true]
        simp only at h2
        rw [FS.set_set, h2, FS.set_set]

/-! ## Sizes on the wire -/

theorem int64LE_length (v : Int) : (int64LE v).length = 8 := by
  simp [int64LE]

theorem toUInt8_toNat (n : Nat) : (n % 256).toUInt8.toNat = n % 256 := by
  show (UInt8.ofNat (n % 256)).toNat = n % 256
  simp [UInt8.toNat, UInt8.ofNat, Fin.ofNat]

theorem leValue_int64LE (n : Nat) (h : n < 2 ^ 64) : leValue (int64LE (n : Int)) = n := by
  have h0 : ((n : Int) % 2 ^ 64).toNat = n := by
    have : ((n : Int) % 2 ^ 64) = ((n % 2 ^ 64 : Nat) : Int) := by norm_cast
    rw [this, Int.toNat_ofNat]
    exact Nat.mod_eq_of_lt h
  simp only [int64LE, h0]
  have hr : List.range 8 = [0, 1, 2, 3, 4, 5, 6, 7] := by decide
  simp only [hr, List.map, leValue, toUInt8_toNat, Nat.shiftRight_eq_div_pow]
  norm_num
  omega

theorem int64OfLE_int64LE (n : Nat) (h : n < 2 ^ 63) :
    int64OfLE (int64LE (n : Int)) = (n : Int) := by
  have h2 : n < 2 ^ 64 := by omega
  simp only [int64OfLE, leValue_int64LE n h2, if_pos h]

/-! ## `FileServer.Get` on a key held locally -/

/-- C12: for every key, if the local store has `(ID, key)`, `FileServer.Get`
returns the reader of `Store.Read(ID, key)`, or its error, and the server is
afterwards exactly as before: nothing has been written to any peer
connection, nothing has been read from any peer connection, and the disk of
the local store is unchanged. -/
theorem FileServer.Get_local_leaves_state (lib : Lib) (s : FileServer) (key : String)
    (h : s.store.Has s.disk s.ID key = true) :
    ∃ out : Except Err Reader × FileServer,
      FileServer.Get lib s key = some out
      ∧ out.1 = (match s.store.Read s.disk s.ID key with
                 | .ok x => .ok x.2
                 | .error e => .error e)
      ∧ out.2 = s
      ∧ out.2.peers.map (fun p => (p.conn.written, p.input))
          = s.peers.map (fun p => (p.conn.written, p.input))
      ∧ out.2.disk = s.disk := by
  simp only [FileServer.Get, h, if_true]
  cases hr : s.store.Read s.disk s.ID key with
  | error e => exact ⟨_, rfl, rfl, rfl, rfl, rfl⟩
  | ok x => exact ⟨_, rfl, rfl, rfl, rfl, rfl⟩

set_option maxRecDepth 100000 in
theorem FileServer.Get_local_leaves_state_witness :
    exampleHolder.store.Has exampleHolder.disk exampleHolder.ID "foo_1" = true
    ∧ (FileServer.Get exampleLib exampleHolder "foo_1").map (fun out => out.1)
        = some (.ok (bytesReader [1, 2, 3]))
    ∧ ∃ out : Except Err Reader × FileServer,
      FileServer.Get exampleLib exampleHolder "foo_1" = some out
      ∧ out.1 = (match exampleHolder.store.Read exampleHolder.disk exampleHolder.ID "foo_1" with
                 | .ok x => .ok x.2
                 | .error e => .error e)
      ∧ out.2 = exampleHolder
      ∧ out.2.peers.map (fun p => (p.conn.written, p.input))
          = exampleHolder.peers.map (fun p => (p.conn.written, p.input))
      ∧ out.2.disk = exampleHolder.disk :=
  ⟨by rfl, by rfl,
    FileServer.Get_local_leaves_state exampleLib exampleHolder "foo_1" (by rfl)⟩

/-! ## The peer map -/

theorem lookupPeer_addr : ∀ (ps : List TCPPeer) (a : String) (p : TCPPeer),
    lookupPeer ps a = some p → p.addr = a := by
  intro ps
  induction ps with
  | nil => intro a p h; simp [lookupPeer] at h
  | cons q rest ih =>
    intro a p h
    simp only [lookupPeer] at h
    split at h
    · rename_i hq
      simp only [Option.some.injEq] at h
      rw [← h]; exact hq
    · exact ih a p h

theorem lookupPeer_mem : ∀ (ps : List TCPPeer) (a : String) (p : TCPPeer),
    lookupPeer ps a = some p → p ∈ ps := by
  intro ps
  induction ps with
  | nil => intro a p h; simp [lookupPeer] at h
  | cons q rest ih =>
    intro a p h
    simp only [lookupPeer] at h
    split at h
    · simp only [Option.some.injEq] at h
      rw [← h]; exact List.mem_cons_self _ _
    · exact List.mem_cons_of_mem _ (ih a p h)

theorem lookupPeer_updatePeer : ∀ (ps : List TCPPeer) (a : String) (p q : TCPPeer),
    lookupPeer ps a = some p → q.addr = a → lookupPeer (updatePeer ps a q) a = some q := by
  intro ps
  induction ps with
  | nil => intro a p q h; simp [lookupPeer] at h
  | cons x rest ih =>
    intro a p q h hq
    simp only [lookupPeer] at h
    by_cases hx : x.addr = a
    · simp only [updatePeer, hx, if_true, lookupPeer, hq]
    · simp only [hx, if_false] at h
      simp only [updatePeer, hx, if_false, lookupPeer]
      exact ih a p q h hq

/-! ## `handleMessageGetFile` -/

/-- What `handleMessageGetFile` sends when the file of the blob holds `B` and
the sender is a known peer whose connection accepts its writes. -/
theorem FileServer.handleMessageGetFile_served (s : FileServer) (sender : String)
    (msg : MessageGetFile) (B : List UInt8) (p : TCPPeer)
    (hst : osStat s.disk
        (s.store.Root ++ "/" ++ msg.ID ++ "/" ++ (s.store.PathTransformFunc msg.Key).FullPath)
      = .ok (Node.file B))
    (hl : lookupPeer s.peers sender = some p) (hroom : p.conn.room = none) :
    s.handleMessageGetFile sender msg
      = some (none,
          { s with peers := (updatePeer s.peers sender
              { p with conn := { p.conn with
                  written := p.conn.written ++ [0x02] ++ int64LE (B.length : Int) ++ B } }) }) := by
  have hhas : s.store.Has s.disk msg.ID msg.Key = true := by
    simp only [Store.Has, hst]; rfl
  obtain ⟨hbc, hbd⟩ := bytesReader_clean_content B
  have hp2 : (binaryWriteInt64 (p.Send [IncomingStream]).2 (B.length : Int)).2
      = { p with conn := { p.conn with
            written := p.conn.written ++ [IncomingStream] ++ int64LE (B.length : Int) } } := by
    simp only [binaryWriteInt64, TCPPeer.Send]
    show (TCPPeer.write (TCPPeer.write p [IncomingStream]).2 _).2 = _
    simp only [TCPPeer.write, Sink.write, hroom]
  have hcopy := ioCopyLoop_clean _ _ tcpPeer_accepts ((bytesReader B).fuel + 1)
    (bytesReader B)
    { p with conn := { p.conn with
        written := p.conn.written ++ [IncomingStream] ++ int64LE (B.length : Int) } } 0 hbc
    (Nat.lt_succ_self _) hroom
  simp only [FileServer.handleMessageGetFile, hhas, Store.Read, Store.readStream, osOpen, hst,
    hl, ioCopy, hp2, hcopy, hbd]
  simp [IncomingStream, List.append_assoc]

/-- C14: for every inbound `GetFile` message whose `(msg.ID, msg.Key)` the
local store does not hold, `handleMessageGetFile` returns an error and leaves
the server exactly as it was: no peer connection has received a byte and the
disk is unchanged.  When the file of the blob holds the bytes `B` and the
sender is a known peer whose connection accepts its writes, the handler
returns no error and that connection has received, after what it held before,
`0x02`, then 8 bytes that are the little-endian encoding of `|B|`, then
exactly `B`; no other peer and nothing on the disk has changed. -/
theorem FileServer.handleMessageGetFile_missing_or_served (s : FileServer) (sender : String)
    (msg : MessageGetFile) :
    (s.store.Has s.disk msg.ID msg.Key = false →
      ∃ e, s.handleMessageGetFile sender msg = some (some e, s))
    ∧ (∀ (B : List UInt8) (p : TCPPeer),
        osStat s.disk
            (s.store.Root ++ "/" ++ msg.ID ++ "/" ++ (s.store.PathTransformFunc msg.Key).FullPath)
          = .ok (Node.file B) →
        lookupPeer s.peers sender = some p →
        p.conn.room = none →
        s.handleMessageGetFile sender msg
            = some (none,
                { s with peers := (updatePeer s.peers sender
                    { p with conn := { p.conn with
                        written := p.conn.written ++ [0x02] ++ int64LE (B.length : Int) ++ B } }) })
          ∧ (int64LE (B.length : Int)).length = 8
          ∧ (B.length < 2 ^ 63 → int64OfLE (int64LE (B.length : Int)) = (B.length : Int))) := by
  constructor
  · intro h
    exact ⟨_, by simp only [FileServer.handleMessageGetFile, h]; rfl⟩
  · intro B p hst hl hroom
    exact ⟨FileServer.handleMessageGetFile_served s sender msg B p hst hl hroom,
      int64LE_length _, int64OfLE_int64LE _⟩

set_option maxRecDepth 100000 in
theorem FileServer.handleMessageGetFile_missing_or_served_witness :
    exampleServer.store.Has exampleServer.disk "node" "foo_1" = false
    ∧ (∃ e, exampleServer.handleMessageGetFile ":3000" { ID := "node", Key := "foo_1" }
        = some (some e, exampleServer))
    ∧ osStat exampleHolder.disk
          (exampleHolder.store.Root ++ "/" ++ "node" ++ "/"
            ++ (exampleHolder.store.PathTransformFunc "foo_1").FullPath)
        = .ok (Node.file [1, 2, 3])
    ∧ (exampleHolder.handleMessageGetFile ":3000" { ID := "node", Key := "foo_1" }).map
          (fun out => (out.1, out.2.peers.map fun p => p.conn.written))
        = some (none, [[2, 3, 0, 0, 0, 0, 0, 0, 0, 1, 2, 3], []]) :=
  ⟨by rfl,
    (FileServer.handleMessageGetFile_missing_or_served exampleServer ":3000"
      { ID := "node", Key := "foo_1" }).1 (by rfl),
    by rfl,
    by
      rw [((FileServer.handleMessageGetFile_missing_or_served exampleHolder ":3000"
        { ID := "node", Key := "foo_1" }).2 [1, 2, 3]
        { addr := ":3000", outbound := true, conn := Sink.buffer [], input := .script [],
          wg := 0 } (by rfl) (by rfl) (by rfl)).1]
      rfl⟩

/-! ## `handleMessageStoreFile` -/

theorem TCPPeer.CloseStream_some (p q : TCPPeer) (h : p.CloseStream = some q) :
    0 < p.wg ∧ q = { p with wg := p.wg - 1 } := by
  simp only [TCPPeer.CloseStream] at h
  split at h
  · cases h
  · rename_i hw
    simp only [Option.some.injEq] at h
    exact ⟨by omega, h.symm⟩

theorem TCPPeer.CloseStream_pos (p : TCPPeer) (h : 0 < p.wg) :
    p.CloseStream = some { p with wg := p.wg - 1 } := by
  simp only [TCPPeer.CloseStream, if_neg (not_le.mpr h)]

/-- What `handleMessageStoreFile` does when the sender is known, its connection
delivers its bytes without error, the target file can be opened and the read
loop of the peer is waiting (the counter of its wait group is positive): the
blob is the first `msg.Size` bytes of what the connection delivers, or all of
it when the connection ends before that, and `CloseStream` has been called
once. -/
theorem FileServer.handleMessageStoreFile_clean (s : FileServer) (sender : String)
    (msg : MessageStoreFile) (p : TCPPeer) (f : FileHandle)
    (hl : lookupPeer s.peers sender = some p) (hc : p.input.clean = true)
    (ho : s.store.openFileForWriting s.disk msg.ID msg.Key = .ok f) (hwg : 0 < p.wg) :
    s.handleMessageStoreFile sender msg
      = some (none,
          { s with
            disk := f.fs.set f.path (Node.file (p.input.content.take msg.Size.toNat))
            peers := (updatePeer s.peers sender
              { p with input := (Reader.limit p.input msg.Size).drained.inner,
                       wg := p.wg - 1 }) }) := by
  have hcl : (Reader.limit p.input msg.Size).clean = true := by
    simpa [Reader.clean] using hc
  rcases Store.writeStream_clean s.store s.disk msg.ID msg.Key (Reader.limit p.input msg.Size) hcl
    with ⟨e, he, _⟩ | ⟨f1, hf1, hw⟩
  · rw [ho] at he; cases he
  · rw [ho] at hf1
    simp only [Except.ok.injEq] at hf1
    subst hf1
    have hcs := TCPPeer.CloseStream_pos
      { p with input := (Reader.limit p.input msg.Size).drained.inner } hwg
    simp only [FileServer.handleMessageStoreFile, hl, Store.Write, hw, hcs, Reader.content]

/-- With the counter of the wait group at zero, the `CloseStream` at the end of
a successful `handleMessageStoreFile` panics. -/
theorem FileServer.handleMessageStoreFile_panics (s : FileServer) (sender : String)
    (msg : MessageStoreFile) (p : TCPPeer) (f : FileHandle)
    (hl : lookupPeer s.peers sender = some p) (hc : p.input.clean = true)
    (ho : s.store.openFileForWriting s.disk msg.ID msg.Key = .ok f) (hwg : p.wg ≤ 0) :
    s.handleMessageStoreFile sender msg = none := by
  have hcl : (Reader.limit p.input msg.Size).clean = true := by
    simpa [Reader.clean] using hc
  rcases Store.writeStream_clean s.store s.disk msg.ID msg.Key (Reader.limit p.input msg.Size) hcl
    with ⟨e, he, _⟩ | ⟨f1, hf1, hw⟩
  · rw [ho] at he; cases he
  · simp only [FileServer.handleMessageStoreFile, hl, Store.Write, hw, TCPPeer.CloseStream,
      if_pos hwg]

/-- When the target file cannot be opened, `handleMessageStoreFile` returns the error. -/
theorem FileServer.handleMessageStoreFile_open_error (s : FileServer) (sender : String)
    (msg : MessageStoreFile) (p : TCPPeer) (e : Err × FS)
    (hl : lookupPeer s.peers sender = some p)
    (ho : s.store.openFileForWriting s.disk msg.ID msg.Key = .error e) :
    ∃ s1, s.handleMessageStoreFile sender msg = some (some e.1, s1) := by
  simp only [FileServer.handleMessageStoreFile, hl, Store.Write, Store.writeStream, ho]
  exact ⟨_, rfl⟩

/-- C13 fails on the code: `handleMessageStoreFile` copies from
`io.LimitReader(peer, msg.Size)`, which ends without error when the connection
ends first.  For a `StoreFile` message that announces 20 bytes from a known
peer whose connection delivers 5 bytes and then ends, the handler returns no
error, the blob stored under `(msg.ID, msg.Key)` holds 5 bytes, and
`CloseStream` has been called (the counter of the peer went from 1 to 0). -/
theorem FileServer.handleMessageStoreFile_accepts_short_stream :
    (exampleReceiver.handleMessageStoreFile ":3000" { ID := "node", Key := "k", Size := 20 }).map
        (fun out => (out.1, out.2.store.Read out.2.disk "node" "k",
          out.2.peers.map fun p => (p.input, p.wg)))
      = some (none, .ok (5, bytesReader [1, 2, 3, 4, 5]), [(.script [], 0)]) := by
  rfl

/-! ## The ingest loop of `FileServer.Get` -/

theorem broadcastLoop_ne_nil (buf : List UInt8) :
    ∀ peers : List TCPPeer, peers ≠ [] → (broadcastLoop buf peers).2 ≠ [] := by
  intro peers h
  cases peers with
  | nil => exact absurd rfl h
  | cons p rest =>
    simp only [broadcastLoop]
    split <;> simp

/-- Once the target file can be opened, every ingest of the loop leaves it as
a regular file: the disk the loop returns holds some blob at the file's path. -/
theorem getLoop_disk (lib : Lib) (store : Store) (encKey : List UInt8) (id key : String)
    (f : FileHandle) :
    ∀ (peers : List TCPPeer) (fs : FS) (res : Option Err × FS × List TCPPeer),
      store.openFileForWriting fs id key = .ok f →
      getLoop lib store encKey id key fs peers = some res →
      (peers = [] ∧ res.1 = none ∧ res.2.1 = fs)
        ∨ ∃ c : List UInt8, res.2.1 = f.fs.set f.path (Node.file c) := by
  intro peers
  induction peers with
  | nil =>
    intro fs res _ h
    simp only [getLoop, Option.some.injEq] at h
    subst h
    exact Or.inl ⟨rfl, rfl, rfl⟩
  | cons p rest ih =>
    intro fs res ho h
    right
    simp only [getLoop] at h
    cases hrd : binaryReadInt64 p.input 0 with
    | none => simp [hrd] at h
    | some rd =>
      simp only [hrd] at h
      obtain ⟨c, _, hw⟩ := Store.WriteDecrypt_after_open lib.aes store fs encKey id key
        (Reader.limit rd.2 rd.1.1) f ho
      simp only [hw] at h
      cases herr : c.err with
      | some e =>
        simp only [herr, Option.some.injEq] at h
        subst h
        exact ⟨_, rfl⟩
      | none =>
        simp only [herr] at h
        cases hcs : TCPPeer.CloseStream { p with input := c.src.inner } with
        | none => simp [hcs] at h
        | some q =>
          simp only [hcs] at h
          cases hrec : getLoop lib store encKey id key
              (f.fs.set f.path (Node.file c.dst.written)) rest with
          | none => simp [hrec] at h
          | some r =>
            simp only [hrec, Option.some.injEq] at h
            subst h
            rcases ih _ r (Store.openFileForWriting_again store fs id key f _ ho) hrec
              with ⟨_, _, hfs⟩ | ⟨c2, hc2⟩
            · exact ⟨_, hfs⟩
            · exact ⟨c2, hc2⟩

/-! ## `WriteDecrypt` truncates before it decrypts -/

/-- C20: `Store.WriteDecrypt` creates or truncates the target file before it
builds the cipher or reads the IV.  For every store, disk, id and key whose
target file can be opened, every key and every source: `WriteDecrypt` returns
with the error of `copyDecrypt`, and afterwards `Store.Has(id, key)` is true
and `Store.Read(id, key)` yields exactly the bytes that `copyDecrypt` wrote
before it stopped, whatever was stored under the key before; with a key of
invalid length the error is the key size error and the blob is empty, and when
the read of the IV returns an error (a source that is empty or has ended, or a
read error) that error is returned and the blob is empty.  Hence, when a
`FileServer.Get` for a key not held locally has sent its request, has a peer
to read from and returns an error, the key is held afterwards and the next
`Get` for it returns the truncated blob from the local disk, leaving the
server as it is. -/
theorem Store.WriteDecrypt_failure_leaves_truncated_file (lib : Lib) (st : Store) (fs : FS)
    (id key : String) (f : FileHandle) (ho : st.openFileForWriting fs id key = .ok f) :
    (∀ (encKey : List UInt8) (rd : Reader),
      ∃ (res : WriteResult) (c : CopyResult Sink),
        copyDecrypt lib.aes encKey rd (Sink.buffer []) = some c
        ∧ st.WriteDecrypt lib.aes fs encKey id key rd = some res
        ∧ res.err = c.err
        ∧ st.Has res.fs id key = true
        ∧ st.Read res.fs id key = .ok (c.dst.written.length, bytesReader c.dst.written)
        ∧ (¬ (encKey.length = 16 ∨ encKey.length = 24 ∨ encKey.length = 32) →
            res.err = some Err.KeySizeError ∧ c.dst.written = [])
        ∧ ((encKey.length = 16 ∨ encKey.length = 24 ∨ encKey.length = 32) →
            ∀ e, (rd.read aesBlockSize).1.2 = some e →
              res.err = some e ∧ c.dst.written = []))
    ∧ (∀ (encKey : List UInt8) (peers : List TCPPeer) (e : Err) (s1 : FileServer),
        st.Has fs id key = false →
        peers ≠ [] →
        (FileServer.broadcast lib
          { ID := id, EncKey := encKey, store := st, disk := fs, peers := peers }
          (Message.getFile { ID := id, Key := hashKey lib key })).1 = none →
        FileServer.Get lib
          { ID := id, EncKey := encKey, store := st, disk := fs, peers := peers } key
          = some (.error e, s1) →
        ∃ c : List UInt8,
          s1.store.Has s1.disk s1.ID key = true
          ∧ FileServer.Get lib s1 key = some (.ok (bytesReader c), s1)) := by
  constructor
  · intro encKey rd
    obtain ⟨c, hc, hw⟩ := Store.WriteDecrypt_after_open lib.aes st fs encKey id key rd f ho
    obtain ⟨hhas, hread⟩ := Store.Has_Read_after_write st fs id key f c.dst.written ho
    refine ⟨_, c, hc, hw, rfl, hhas, hread, ?_, ?_⟩
    · intro hk
      simp only [copyDecrypt, aesNewCipher, hk, if_false, Option.some.injEq] at hc
      subst hc
      exact ⟨rfl, rfl⟩
    · intro hk e he
      simp only [copyDecrypt, aesNewCipher, hk, if_true, he, ne_eq, reduceCtorEq,
        not_false_eq_true, Option.some.injEq] at hc
      subst hc
      exact ⟨rfl, rfl⟩
  · intro encKey peers e s1 hhas hne hb hget
    simp only [FileServer.Get, hhas, Bool.false_eq_true, if_false] at hget
    cases hbe : (FileServer.broadcast lib
        { ID := id, EncKey := encKey, store := st, disk := fs, peers := peers }
        (Message.getFile { ID := id, Key := hashKey lib key })).1 with
    | some e1 => rw [hbe] at hb; cases hb
    | none =>
      simp only [hbe] at hget
      have hb2 : (FileServer.broadcast lib
          { ID := id, EncKey := encKey, store := st, disk := fs, peers := peers }
          (Message.getFile { ID := id, Key := hashKey lib key })).2
          = { ID := id, EncKey := encKey, store := st, disk := fs,
              peers := (FileServer.broadcast lib
                { ID := id, EncKey := encKey, store := st, disk := fs, peers := peers }
                (Message.getFile { ID := id, Key := hashKey lib key })).2.peers } := by
        simp only [FileServer.broadcast]
        split <;> rfl
      have hpne : (FileServer.broadcast lib
          { ID := id, EncKey := encKey, store := st, disk := fs, peers := peers }
          (Message.getFile { ID := id, Key := hashKey lib key })).2.peers ≠ [] := by
        simp only [FileServer.broadcast]
        split
        · exact hne
        · exact broadcastLoop_ne_nil _ _ hne
      rw [hb2] at hget
      simp only at hget
      cases hg : getLoop lib st encKey id key fs
          (FileServer.broadcast lib
            { ID := id, EncKey := encKey, store := st, disk := fs, peers := peers }
            (Message.getFile { ID := id, Key := hashKey lib key })).2.peers with
      | none => simp [hg] at hget
      | some g =>
        simp only [hg] at hget
        rcases getLoop_disk lib st encKey id key f _ fs g ho hg with ⟨hnil, _, _⟩ | ⟨c, hc⟩
        · exact absurd hnil hpne
        · obtain ⟨hhas1, hread1⟩ := Store.Has_Read_after_write st fs id key f c ho
          rw [hc] at hget
          have hs1 : s1 = FileServer.mk id encKey st (f.fs.set f.path (Node.file c)) g.2.2 := by
            cases hge : g.1 with
            | some e1 =>
              simp only [hge, Option.some.injEq, Prod.mk.injEq] at hget
              exact hget.2.symm
            | none =>
              simp only [hge, hread1, Option.some.injEq, Prod.mk.injEq, reduceCtorEq,
                false_and] at hget
          subst hs1
          refine ⟨c, hhas1, ?_⟩
          simp only [FileServer.Get, hhas1, if_true, hread1]

set_option maxRecDepth 100000 in
theorem Store.WriteDecrypt_failure_leaves_truncated_file_witness :
    exampleServer.store.openFileForWriting FS.empty "node" "pic" = .ok exampleHandle
    ∧ (∃ (res : WriteResult) (c : CopyResult Sink),
        copyDecrypt exampleLib.aes [] (bytesReader [1, 2, 3]) (Sink.buffer []) = some c
        ∧ exampleServer.store.WriteDecrypt exampleLib.aes FS.empty [] "node" "pic"
            (bytesReader [1, 2, 3]) = some res
        ∧ res.err = c.err
        ∧ exampleServer.store.Has res.fs "node" "pic" = true
        ∧ exampleServer.store.Read res.fs "node" "pic"
            = .ok (c.dst.written.length, bytesReader c.dst.written)
        ∧ (¬ (([] : List UInt8).length = 16 ∨ ([] : List UInt8).length = 24
              ∨ ([] : List UInt8).length = 32) →
            res.err = some Err.KeySizeError ∧ c.dst.written = [])
        ∧ ((([] : List UInt8).length = 16 ∨ ([] : List UInt8).length = 24
              ∨ ([] : List UInt8).length = 32) →
            ∀ e, ((bytesReader [1, 2, 3]).read aesBlockSize).1.2 = some e →
              res.err = some e ∧ c.dst.written = []))
    ∧ exampleServer.store.Has FS.empty "node" "pic" = false
    ∧ exampleServer.peers ≠ []
    ∧ FileServer.Get exampleLib exampleServer "pic" = some (.error Err.EOF, exampleFailedGet)
    ∧ ∃ c : List UInt8,
        exampleFailedGet.store.Has exampleFailedGet.disk exampleFailedGet.ID "pic" = true
        ∧ FileServer.Get exampleLib exampleFailedGet "pic"
            = some (.ok (bytesReader c), exampleFailedGet) :=
  ⟨by rfl,
    (Store.WriteDecrypt_failure_leaves_truncated_file exampleLib exampleServer.store FS.empty
      "node" "pic" exampleHandle (by rfl)).1 [] (bytesReader [1, 2, 3]),
    by rfl, by simp [exampleServer], by rfl,
    (Store.WriteDecrypt_failure_leaves_truncated_file exampleLib exampleServer.store FS.empty
      "node" "pic" exampleHandle (by rfl)).2 exampleKey exampleServer.peers Err.EOF
      exampleFailedGet (by rfl) (by simp [exampleServer]) (by rfl) (by rfl)⟩

/-! ## The read loop of a connection -/

theorem handleConnLoop_eof_queue : ∀ (n : Nat) (q : List RPC),
    handleConnLoop DefaultDecoder.Decode n
        { peer := exampleClosedPeer, rpcch := q, closed := false, waiting := false }
      = { peer := exampleClosedPeer,
          rpcch := q ++ List.replicate n { From := ":3000", Payload := [], Stream := false },
          closed := false, waiting := false } := by
  intro n
  induction n with
  | zero => intro q; simp [handleConnLoop]
  | succ n ih =>
    intro q
    have hstep : handleConnStep DefaultDecoder.Decode
        { peer := exampleClosedPeer, rpcch := q, closed := false, waiting := false }
        = { peer := exampleClosedPeer,
            rpcch := q ++ [{ From := ":3000", Payload := [], Stream := false }],
            closed := false, waiting := false } := rfl
    rw [handleConnLoop, hstep, ih]
    simp [List.replicate_succ]

/-- C15 fails on the code: with the default decoder, on a connection that the
remote side has closed (every `Read` returns `io.EOF`), `Decode` returns no
error, so the read loop of `handleConn` does not return and the connection is
not closed: after `n` steps of the loop, for every `n`, the loop is still
running and has sent `n` empty frames stamped with the remote address on
`rpcch`. -/
theorem handleConn_spins_on_closed_connection (n : Nat) :
    handleConnLoop DefaultDecoder.Decode n (ConnState.start exampleClosedPeer)
      = { peer := exampleClosedPeer,
          rpcch := List.replicate n { From := ":3000", Payload := [], Stream := false },
          closed := false, waiting := false } := by
  have h := handleConnLoop_eof_queue n []
  simpa [ConnState.start] using h

theorem handleConnStep_queue (dec : Reader → RPC → Option Err × RPC × Reader)
    (addr : String) (st : ConnState) (haddr : st.peer.addr = addr)
    (hq : ∀ rpc ∈ st.rpcch, rpc.Stream = false ∧ rpc.From = addr) :
    (handleConnStep dec st).peer.addr = addr
    ∧ ∀ rpc ∈ (handleConnStep dec st).rpcch, rpc.Stream = false ∧ rpc.From = addr := by
  unfold handleConnStep
  split
  · exact ⟨haddr, hq⟩
  · split
    · split
      · exact ⟨haddr, hq⟩
      · exact ⟨haddr, hq⟩
    · simp only
      split
      · exact ⟨haddr, hq⟩
      · split
        · exact ⟨haddr, hq⟩
        · rename_i hs
          refine ⟨haddr, ?_⟩
          intro rpc hmem
          simp only [List.mem_append, List.mem_singleton] at hmem
          rcases hmem with hmem | hmem
          · exact hq rpc hmem
          · subst hmem
            exact ⟨by simpa using hs, haddr⟩

theorem handleConnRun_queue (dec : Reader → RPC → Option Err × RPC × Reader)
    (addr : String) :
    ∀ (events : List ConnEvent) (st : ConnState), st.peer.addr = addr →
      (∀ rpc ∈ st.rpcch, rpc.Stream = false ∧ rpc.From = addr) →
      ∀ rpc ∈ (handleConnRun dec st events).rpcch, rpc.Stream = false ∧ rpc.From = addr := by
  intro events
  induction events with
  | nil => intro st _ hq; exact hq
  | cons ev rest ih =>
    intro st haddr hq
    rw [handleConnRun]
    cases ev with
    | loop =>
      obtain ⟨h1, h2⟩ := handleConnStep_queue dec addr st haddr hq
      exact ih _ h1 h2
    | closeStream =>
      simp only [ConnState.apply]
      cases hcs : st.peer.CloseStream with
      | none => exact hq
      | some q =>
        obtain ⟨_, hq2⟩ := TCPPeer.CloseStream_some _ _ hcs
        refine ih _ ?_ hq
        rw [hq2]
        exact haddr
    | read cap => exact ih _ haddr hq

/-- C19: in every run of the read loop of `handleConn`, with any decoder and
whatever the other goroutines do on the peer meanwhile (calls of
`CloseStream`, reads from the connection): every frame that has been sent on
`rpcch` has `Stream` unset and `From` equal to the remote address of the
connection.  A step of the loop that decodes a frame with `Stream` set leaves
`rpcch` as it is, adds one to the peer's wait group and leaves the loop
waiting; a waiting loop does nothing (it does not decode) while the counter
is not zero, and stops waiting once it is zero. -/
theorem handleConn_queue_invariant (dec : Reader → RPC → Option Err × RPC × Reader)
    (peer : TCPPeer) (events : List ConnEvent) :
    (∀ rpc ∈ (handleConnRun dec (ConnState.start peer) events).rpcch,
      rpc.Stream = false ∧ rpc.From = peer.addr)
    ∧ (∀ (st : ConnState) (rpc : RPC) (rd : Reader),
        st.closed = false → st.waiting = false →
        dec st.peer.input RPC.fresh = (none, rpc, rd) → rpc.Stream = true →
        handleConnStep dec st
          = { st with peer := { st.peer with input := rd, wg := st.peer.wg + 1 },
                      waiting := true })
    ∧ (∀ st : ConnState, st.closed = false → st.waiting = true → st.peer.wg ≠ 0 →
        handleConnStep dec st = st)
    ∧ (∀ st : ConnState, st.closed = false → st.waiting = true → st.peer.wg = 0 →
        handleConnStep dec st = { st with waiting := false }) := by
  refine ⟨?_, ?_, ?_, ?_⟩
  · exact handleConnRun_queue dec peer.addr events (ConnState.start peer) rfl
      (by intro rpc h; simp [ConnState.start] at h)
  · intro st rpc rd hc hw hd hs
    simp [handleConnStep, hc, hw, hd, hs]
  · intro st hc hw hg
    simp [handleConnStep, hc, hw, hg]
  · intro st hc hw hg
    simp [handleConnStep, hc, hw, hg]

theorem handleConn_queue_invariant_witness :
    (handleConnRun DefaultDecoder.Decode (ConnState.start exampleBusyPeer)
        [.loop, .loop, .loop, .closeStream, .loop, .loop]).rpcch
      = [{ From := ":3000", Payload := [65, 66], Stream := false },
         { From := ":3000", Payload := [67], Stream := false }]
    ∧ (∀ rpc ∈ (handleConnRun DefaultDecoder.Decode (ConnState.start exampleBusyPeer)
          [.loop, .loop, .loop, .closeStream, .loop, .loop]).rpcch,
        rpc.Stream = false ∧ rpc.From = exampleBusyPeer.addr)
    ∧ handleConnStep DefaultDecoder.Decode
          (handleConnRun DefaultDecoder.Decode (ConnState.start exampleBusyPeer) [.loop])
        = { peer := { exampleBusyPeer with
                      input := .script [([1], none), ([67], none)], wg := 1 },
            rpcch := [{ From := ":3000", Payload := [65, 66], Stream := false }],
            closed := false, waiting := true }
    ∧ handleConnStep DefaultDecoder.Decode
          (handleConnRun DefaultDecoder.Decode (ConnState.start exampleBusyPeer) [.loop, .loop])
        = handleConnRun DefaultDecoder.Decode (ConnState.start exampleBusyPeer) [.loop, .loop]
    ∧ handleConnStep DefaultDecoder.Decode
          (handleConnRun DefaultDecoder.Decode (ConnState.start exampleBusyPeer)
            [.loop, .loop, .closeStream])
        = { peer := { exampleBusyPeer with
                      input := .script [([1], none), ([67], none)], wg := 0 },
            rpcch := [{ From := ":3000", Payload := [65, 66], Stream := false }],
            closed := false, waiting := false } :=
  ⟨by rfl,
    (handleConn_queue_invariant DefaultDecoder.Decode exampleBusyPeer
      [.loop, .loop, .loop, .closeStream, .loop, .loop]).1,
    (handleConn_queue_invariant DefaultDecoder.Decode exampleBusyPeer []).2.1
      (handleConnRun DefaultDecoder.Decode (ConnState.start exampleBusyPeer) [.loop])
      { From := "", Payload := [], Stream := true }
      (.script [([1], none), ([67], none)]) (by rfl) (by rfl) (by rfl) (by rfl),
    (handleConn_queue_invariant DefaultDecoder.Decode exampleBusyPeer []).2.2.1
      (handleConnRun DefaultDecoder.Decode (ConnState.start exampleBusyPeer) [.loop, .loop])
      (by rfl) (by rfl) (by decide),
    (handleConn_queue_invariant DefaultDecoder.Decode exampleBusyPeer []).2.2.2
      (handleConnRun DefaultDecoder.Decode (ConnState.start exampleBusyPeer)
        [.loop, .loop, .closeStream])
      (by rfl) (by rfl) (by rfl)⟩

/-! ## Lemmas: a `GetFile` answer read by `FileServer.Get` -/

theorem limit_bytesReader_read_iv (iv ct : List UInt8) (hiv : iv.length = 16) :
    ((Reader.limit (bytesReader (iv ++ ct)) ((iv ++ ct).length : Int)).read aesBlockSize).1
        = (iv, none)
    ∧ ((Reader.limit (bytesReader (iv ++ ct)) ((iv ++ ct).length : Int)).read
        aesBlockSize).2.clean = true
    ∧ ((Reader.limit (bytesReader (iv ++ ct)) ((iv ++ ct).length : Int)).read
        aesBlockSize).2.content = ct := by
  obtain ⟨h1, h2, h3⟩ := bytesReader_read_iv iv ct hiv
  have hpos : ¬ (((iv ++ ct).length : Int) ≤ 0) := by
    simp only [List.length_append, hiv]; omega
  have hmin : min aesBlockSize ((iv ++ ct).length : Int).toNat = aesBlockSize := by
    simp only [List.length_append, hiv, aesBlockSize]; omega
  simp only [Reader.read, if_neg hpos, hmin, Reader.clean, Reader.content, h1, h2, h3]
  refine ⟨trivial, trivial, ?_⟩
  apply List.take_of_length_le
  simp only [List.length_append, hiv]
  omega

theorem binaryReadInt64_answer (S : List UInt8) (hne : S ≠ []) (hlen : S.length < 2 ^ 63) :
    binaryReadInt64 (bytesReader (int64LE (S.length : Int) ++ S)) (0 : Int)
      = some (((S.length : Int), (none : Option Err)), bytesReader S) := by
  have hL := int64LE_length (S.length : Int)
  have hne2 : int64LE (S.length : Int) ++ S ≠ [] := by
    intro e
    have := congrArg List.length e
    simp [hL] at this
  have hpos : 0 < S.length := List.length_pos.mpr hne
  have hread : (Reader.script [(int64LE (S.length : Int) ++ S, none)]).read 8
      = ((int64LE (S.length : Int), none), Reader.script [(S, none)]) := by
    have hgt : ¬ (int64LE (S.length : Int) ++ S).length ≤ 8 := by
      simp only [List.length_append, hL]; omega
    simp only [Reader.read, if_neg hgt]
    rw [List.take_left' hL, List.drop_left' hL]
  have hfuel : (Reader.script [(int64LE (S.length : Int) ++ S, none)]).fuel
      = (int64LE (S.length : Int) ++ S).length + 1 := by
    simp [Reader.fuel]
  simp only [binaryReadInt64, ioReadFull, bytesReader, if_neg hne2, if_neg hne, hfuel]
  rw [readFullLoop]
  have h80 : ¬ (8 ≤ ([] : List UInt8).length) := by simp
  rw [if_neg h80]
  simp only [List.length_nil, Nat.sub_zero, hread, List.nil_append, ne_eq, not_true_eq_false,
    if_false]
  rw [readFullLoop]
  have h88 : 8 ≤ (int64LE (S.length : Int)).length := by rw [hL]
  rw [if_pos h88]
  simp only [int64OfLE_int64LE _ hlen]

theorem Store.WriteDecrypt_answer (aes : List UInt8 → List UInt8 → List UInt8)
    (st : Store) (fs : FS) (encKey : List UInt8) (id key : String) (f : FileHandle)
    (iv ct : List UInt8)
    (hkey : encKey.length = 16 ∨ encKey.length = 24 ∨ encKey.length = 32)
    (hiv : iv.length = 16) (ho : st.openFileForWriting fs id key = .ok f) :
    ∃ w : WriteResult,
      st.WriteDecrypt aes fs encKey id key
          (Reader.limit (bytesReader (iv ++ ct)) ((iv ++ ct).length : Int)) = some w
      ∧ w.err = none ∧ w.n = 16 + ct.length
      ∧ w.fs = f.fs.set f.path (Node.file (xorBytes (ctrKeystream aes encKey iv) 0 ct)) := by
  obtain ⟨g, _, _, hfile⟩ := Store.openFileForWriting_ok st fs id key f ho
  obtain ⟨h1, h2, h3⟩ := limit_bytesReader_read_iv iv ct hiv
  have hcl : (Reader.limit (bytesReader (iv ++ ct)) ((iv ++ ct).length : Int)).clean = true := by
    simpa [Reader.clean] using (bytesReader_clean_content (iv ++ ct)).1
  rcases copyDecrypt_clean aes _ _ fileHandle_accepts encKey _ f hkey hcl ⟨[], hfile⟩
    with ⟨he, _⟩ | ⟨_, hcd⟩
  · rw [h1] at he; cases he
  · rw [h1, h3] at hcd
    refine ⟨{ n := 16 + ct.length, err := none,
              fs := f.fs.set f.path (Node.file (xorBytes (ctrKeystream aes encKey iv) 0 ct)),
              src := ((Reader.limit (bytesReader (iv ++ ct)) ((iv ++ ct).length : Int)).read
                aesBlockSize).2.drained }, ?_, rfl, rfl, rfl⟩
    simp only [Store.WriteDecrypt, ho, hcd, hfile]
    simp [hiv, aesBlockSize]

/-- The ingest loop writes nothing to the peer connections. -/
theorem getLoop_written (lib : Lib) (st : Store) (encKey : List UInt8) (id key : String) :
    ∀ (ps : List TCPPeer) (fs : FS) (res : Option Err × FS × List TCPPeer),
      getLoop lib st encKey id key fs ps = some res →
      res.2.2.map (fun p => p.conn.written) = ps.map (fun p => p.conn.written) := by
  intro ps
  induction ps with
  | nil =>
    intro fs res h
    simp only [getLoop, Option.some.injEq] at h
    subst h
    rfl
  | cons p rest ih =>
    intro fs res h
    simp only [getLoop] at h
    cases hrd : binaryReadInt64 p.input 0 with
    | none => simp [hrd] at h
    | some rd =>
      simp only [hrd] at h
      cases hw : Store.WriteDecrypt lib.aes st fs encKey id key
          (Reader.limit rd.2 rd.1.1) with
      | none => simp [hw] at h
      | some w =>
        simp only [hw] at h
        cases herr : w.err with
        | some e =>
          simp only [herr, Option.some.injEq] at h
          subst h
          rfl
        | none =>
          simp only [herr] at h
          cases hcs : TCPPeer.CloseStream { p with input := w.src.inner } with
          | none => simp [hcs] at h
          | some q =>
            obtain ⟨_, hq⟩ := TCPPeer.CloseStream_some _ _ hcs
            simp only [hcs] at h
            cases hrec : getLoop lib st encKey id key w.fs rest with
            | none => simp [hrec] at h
            | some r =>
              simp only [hrec, Option.some.injEq] at h
              subst h
              simp only [List.map_cons, hq, ih _ _ hrec]

theorem getLoop_answers (lib : Lib) (st : Store) (encKey : List UInt8) (id key : String)
    (f : FileHandle) (iv D : List UInt8)
    (hkey : encKey.length = 16 ∨ encKey.length = 24 ∨ encKey.length = 32)
    (hiv : iv.length = 16)
    (hlen : (iv ++ xorBytes (ctrKeystream lib.aes encKey iv) 0 D).length < 2 ^ 63) :
    ∀ (ps : List TCPPeer) (fs : FS), st.openFileForWriting fs id key = .ok f →
      (∀ p ∈ ps, 0 < p.wg ∧ p.input = bytesReader
        (int64LE ((iv ++ xorBytes (ctrKeystream lib.aes encKey iv) 0 D).length : Int)
          ++ (iv ++ xorBytes (ctrKeystream lib.aes encKey iv) 0 D))) →
      ∃ (fs1 : FS) (ps1 : List TCPPeer),
        getLoop lib st encKey id key fs ps = some (none, fs1, ps1)
        ∧ (ps = [] → fs1 = fs)
        ∧ (ps ≠ [] → fs1 = f.fs.set f.path (Node.file D)) := by
  have hne : iv ++ xorBytes (ctrKeystream lib.aes encKey iv) 0 D ≠ [] := by
    intro e
    have := congrArg List.length e
    simp [hiv] at this
  intro ps
  induction ps with
  | nil =>
    intro fs _ _
    exact ⟨fs, [], rfl, fun _ => rfl, fun h => absurd rfl h⟩
  | cons p rest ih =>
    intro fs ho hin
    obtain ⟨hwg, hp⟩ := hin p (List.mem_cons_self _ _)
    obtain ⟨w, hw, herr, _, hfs⟩ := Store.WriteDecrypt_answer lib.aes st fs encKey id key f iv
      (xorBytes (ctrKeystream lib.aes encKey iv) 0 D) hkey hiv ho
    rw [xorBytes_cancel] at hfs
    have hagain : st.openFileForWriting w.fs id key = .ok f := by
      rw [hfs]
      exact Store.openFileForWriting_again st fs id key f D ho
    obtain ⟨fs1, ps1, hrec, h1, h2⟩ := ih w.fs hagain
      (fun q hq => hin q (List.mem_cons_of_mem _ hq))
    have hfs1 : fs1 = f.fs.set f.path (Node.file D) := by
      by_cases hr : rest = []
      · rw [h1 hr, hfs]
      · exact h2 hr
    have hcs := TCPPeer.CloseStream_pos { p with input := w.src.inner } hwg
    refine ⟨fs1, { p with input := w.src.inner, wg := p.wg - 1 } :: ps1, ?_,
      (fun h => by cases h), fun _ => hfs1⟩
    simp only [getLoop, hp, binaryReadInt64_answer _ hne hlen, hw, herr, hcs, hrec]

theorem getLoop_open_error (lib : Lib) (st : Store) (encKey : List UInt8) (id key : String)
    (S : List UInt8) (hne : S ≠ []) (hlen : S.length < 2 ^ 63)
    (p : TCPPeer) (rest : List TCPPeer) (fs : FS) (e : Err × FS)
    (ho : st.openFileForWriting fs id key = .error e)
    (hp : p.input = bytesReader (int64LE (S.length : Int) ++ S)) :
    ∃ (fs1 : FS) (ps1 : List TCPPeer),
      getLoop lib st encKey id key fs (p :: rest) = some (some e.1, fs1, ps1) := by
  simp only [getLoop, hp, binaryReadInt64_answer S hne hlen, Store.WriteDecrypt, ho]
  exact ⟨_, _, rfl⟩

theorem Store.Read_error_of_not_Has (st : Store) (fs : FS) (id key : String)
    (h : st.Has fs id key = false) : ∃ e, st.Read fs id key = .error e := by
  simp only [Store.Has] at h
  simp only [Store.Read, Store.readStream, osOpen]
  split at h
  · simp [isNotExist] at h
  · rename_i e he
    rw [he]
    exact ⟨e, rfl⟩

/-- `FileServer.Get` for a key not held locally, when every peer connection
accepts the request, is locked by a stream in progress (counter above zero)
and hands out the answer `size ++ IV ++ ciphertext` of the plaintext `D` under
the server's key in one piece: `Get` returns, a reader it returns is a reader
over `D`, and it does return one when there is a peer, the request can be
encoded and the target file can be opened. -/
theorem FileServer.Get_from_answers (lib : Lib) (s : FileServer) (key : String)
    (iv D : List UInt8)
    (hkey : s.EncKey.length = 16 ∨ s.EncKey.length = 24 ∨ s.EncKey.length = 32)
    (hiv : iv.length = 16)
    (hlen : (iv ++ xorBytes (ctrKeystream lib.aes s.EncKey iv) 0 D).length < 2 ^ 63)
    (hhas : s.store.Has s.disk s.ID key = false)
    (hpeers : ∀ p ∈ s.peers, p.conn.room = none ∧ 0 < p.wg
      ∧ p.input = bytesReader
          (int64LE ((iv ++ xorBytes (ctrKeystream lib.aes s.EncKey iv) 0 D).length : Int)
            ++ (iv ++ xorBytes (ctrKeystream lib.aes s.EncKey iv) 0 D))) :
    ∃ out : Except Err Reader × FileServer,
      FileServer.Get lib s key = some out
      ∧ (∀ rd, out.1 = .ok rd → rd = bytesReader D)
      ∧ (s.peers ≠ [] →
          (∃ f, s.store.openFileForWriting s.disk s.ID key = .ok f) →
          (∃ buf, lib.gobEncode
            (Message.getFile { ID := s.ID, Key := hashKey lib key }) = .ok buf) →
          out.1 = .ok (bytesReader D))
      ∧ (∀ buf, lib.gobEncode
            (Message.getFile { ID := s.ID, Key := hashKey lib key }) = .ok buf →
          out.2.peers.map (fun p => p.conn.written)
            = s.peers.map (fun p => p.conn.written ++ [0x01] ++ buf)) := by
  have hne : iv ++ xorBytes (ctrKeystream lib.aes s.EncKey iv) 0 D ≠ [] := by
    intro e
    have := congrArg List.length e
    simp [hiv] at this
  simp only [FileServer.Get, hhas, Bool.false_eq_true, if_false, FileServer.broadcast]
  cases hg : lib.gobEncode (Message.getFile { ID := s.ID, Key := hashKey lib key }) with
  | error e =>
    refine ⟨_, rfl, (fun rd h => by cases h), (fun _ _ h => ?_), (fun buf h => by cases h)⟩
    obtain ⟨buf, hb⟩ := h
    cases hb
  | ok buf =>
    simp only [broadcastLoop_ok buf s.peers (fun p hp => (hpeers p hp).1)]
    have hin : ∀ q ∈ s.peers.map (fun p : TCPPeer =>
        { p with conn := { p.conn with
            written := p.conn.written ++ [IncomingMessage] ++ buf } }),
        0 < q.wg ∧ q.input = bytesReader
          (int64LE ((iv ++ xorBytes (ctrKeystream lib.aes s.EncKey iv) 0 D).length : Int)
            ++ (iv ++ xorBytes (ctrKeystream lib.aes s.EncKey iv) 0 D)) := by
      intro q hq
      simp only [List.mem_map] at hq
      obtain ⟨p, hp, rfl⟩ := hq
      exact (hpeers p hp).2
    have hsent : ∀ (res : Option Err × FS × List TCPPeer),
        getLoop lib s.store s.EncKey s.ID key s.disk
          (s.peers.map (fun p : TCPPeer =>
            { p with conn := { p.conn with
                written := p.conn.written ++ [IncomingMessage] ++ buf } })) = some res →
        ∀ buf1, Except.ok (ε := Err) buf = .ok buf1 →
          res.2.2.map (fun p => p.conn.written)
            = s.peers.map (fun p => p.conn.written ++ [0x01] ++ buf1) := by
      intro res hres buf1 hb
      cases hb
      rw [getLoop_written lib s.store s.EncKey s.ID key _ _ _ hres, List.map_map]
      rfl
    cases hps : s.peers with
    | nil =>
      obtain ⟨e, he⟩ := Store.Read_error_of_not_Has s.store s.disk s.ID key hhas
      simp only [List.map_nil, getLoop, he]
      exact ⟨_, rfl, (fun rd h => by cases h), (fun h => absurd rfl h), (fun _ _ => rfl)⟩
    | cons p rest =>
      rw [hps] at hin hsent
      cases ho : s.store.openFileForWriting s.disk s.ID key with
      | error e =>
        obtain ⟨fs1, ps1, hl⟩ := getLoop_open_error lib s.store s.EncKey s.ID key _ hne hlen
          _ _ s.disk e ho (hin _ (List.mem_cons_self _ _)).2
        have hs := hsent _ hl
        simp only [List.map_cons] at hl ⊢
        rw [hl]
        refine ⟨_, rfl, (fun rd h => by cases h), (fun _ h _ => ?_), hs⟩
        obtain ⟨f, hf⟩ := h
        cases hf
      | ok f =>
        obtain ⟨fs1, ps1, hl, _, h2⟩ := getLoop_answers lib s.store s.EncKey s.ID key f iv D
          hkey hiv hlen _ s.disk ho hin
        have hs := hsent _ hl
        have hfs1 := h2 (by simp)
        obtain ⟨_, hread⟩ := Store.Has_Read_after_write s.store s.disk s.ID key f D ho
        simp only [List.map_cons] at hl ⊢
        rw [hl]
        simp only [hfs1, hread]
        exact ⟨_, rfl, (fun rd h => by cases h; rfl), (fun _ _ _ => rfl), hs⟩

/-! ## Lemmas: a successful `Store` and the delete that follows -/

theorem FileServer.Store_success (lib : Lib) (s : FileServer) (key : String)
    (r : Reader) (iv : List UInt8) (s1 : FileServer)
    (hr : r.clean = true)
    (hpeers : ∀ p ∈ s.peers, p.conn.room = none)
    (hst : FileServer.Store lib (.ok iv) s key r = some (none, s1)) :
    ∃ (f : FileHandle) (gob : List UInt8),
      s.store.openFileForWriting s.disk s.ID key = .ok f
      ∧ lib.gobEncode (Message.storeFile
          { ID := s.ID, Key := hashKey lib key, Size := (r.content.length : Int) + 16 })
          = .ok gob
      ∧ (s.EncKey.length = 16 ∨ s.EncKey.length = 24 ∨ s.EncKey.length = 32)
      ∧ s1.ID = s.ID ∧ s1.EncKey = s.EncKey ∧ s1.store = s.store
      ∧ s1.disk = f.fs.set f.path (Node.file r.content)
      ∧ s1.peers = s.peers.map (fun p =>
          { p with conn := { p.conn with
              written := p.conn.written ++ [IncomingMessage] ++ gob ++ [IncomingStream]
                ++ (iv ++ xorBytes (ctrKeystream lib.aes s.EncKey iv) 0 r.content) } }) := by
  have htee : (Reader.tee r []).clean = true := by simpa [Reader.clean] using hr
  simp only [FileServer.Store, Store.Write] at hst
  rcases Store.writeStream_clean s.store s.disk s.ID key (Reader.tee r []) htee
    with ⟨e, _, hw⟩ | ⟨f, ho, hw⟩
  · rw [hw] at hst
    simp at hst
  · rw [hw] at hst
    simp only [Reader.content, Reader.drained, Reader.teeBuf, List.nil_append,
      FileServer.broadcast] at hst
    cases hg : lib.gobEncode (Message.storeFile
        { ID := s.ID, Key := hashKey lib key, Size := (r.content.length : Int) + 16 }) with
    | error e =>
      rw [hg] at hst
      simp at hst
    | ok gob =>
      rw [hg] at hst
      simp only [broadcastLoop_ok gob s.peers hpeers] at hst
      have hmw := multiWriter_accepts _ _ tcpPeer_accepts
      have hok1 : ∀ w ∈ (List.map (fun p : TCPPeer =>
          { p with conn := { p.conn with
              written := p.conn.written ++ [IncomingMessage] ++ gob } }) s.peers),
          w.conn.room = none := by
        intro w hw'
        simp only [List.mem_map] at hw'
        obtain ⟨p, hp, rfl⟩ := hw'
        exact hpeers p hp
      rw [hmw.write_eq { writers := _ } [IncomingStream] hok1] at hst
      simp only at hst
      by_cases hkey : s.EncKey.length = 16 ∨ s.EncKey.length = 24 ∨ s.EncKey.length = 32
      · obtain ⟨hbc, hbd⟩ := bytesReader_clean_content r.content
        rw [copyEncrypt_accepts lib.aes _ _ hmw s.EncKey iv (bytesReader r.content) _ hkey hbc
          (hmw.ok_app { writers := _ } [IncomingStream] hok1)] at hst
        simp only [Option.some.injEq, Prod.mk.injEq, true_and] at hst
        subst hst
        refine ⟨f, gob, ho, rfl, hkey, rfl, rfl, rfl, rfl, ?_⟩
        simp only [List.map_map, hbd]
        apply List.map_congr_left
        intro p _
        simp [Function.comp, List.append_assoc]
      · rw [copyEncrypt_bad_key lib.aes _ s.EncKey _ _ hkey] at hst
        simp at hst

/-! ## `Store`, local delete, `Get`: the round trip over the network -/

/-- The round trip when every stream arrives in one piece.  For every key and
data `D` delivered without error by the source, on a node `C` with a CAS store
whose `Store(key, D)` has succeeded (`S` is the stream it sent, the IV followed
by the ciphertext of `D`):
the peers have received the `StoreFile` message for `(C.ID, hashKey key)` with
size `|S|`, then `0x02`, then `S`;
a peer running `handleMessageStoreFile` on that message with `S` arriving on
its connection to `C` stores `S` under `(C.ID, hashKey key)`, and its
`handleMessageGetFile` for the `GetFile` message with the same
`(C.ID, hashKey key)` then answers `0x02`, the size `|S|` and `S`;
the local delete of `(C.ID, key)` on `C` returns no error and the key is not
held any more; and `C.Get(key)`, with every peer connection locked by the
stream in progress and handing out that answer in one piece, returns,
broadcasts the `GetFile` message for `(C.ID, hashKey key)`, and a reader it
returns is a reader over exactly `D`; it does return one when `C` has a peer,
the request can be encoded and the target file can be opened. -/
theorem FileServer.roundtrip_in_one_piece (lib : Lib) (C C1 : FileServer) (key : String)
    (r : Reader) (iv S : List UInt8)
    (hr : r.clean = true) (hiv : iv.length = 16)
    (hS : S = iv ++ xorBytes (ctrKeystream lib.aes C.EncKey iv) 0 r.content)
    (hsize : S.length < 2 ^ 63)
    (hcas : C.store.PathTransformFunc = CASPathTransformFunc)
    (hpeers : ∀ p ∈ C.peers, p.conn.room = none)
    (hstore : FileServer.Store lib (.ok iv) C key r = some (none, C1)) :
    (∃ gob, lib.gobEncode (Message.storeFile
          { ID := C.ID, Key := hashKey lib key, Size := (S.length : Int) }) = .ok gob
        ∧ C1.peers = C.peers.map (fun p =>
            { p with conn := { p.conn with
                written := p.conn.written ++ [0x01] ++ gob ++ [0x02] ++ S } }))
    ∧ (∀ (n n1 : FileServer) (sender : String) (p : TCPPeer),
        lookupPeer n.peers sender = some p → p.conn.room = none →
        p.input.clean = true → p.input.content.take S.length = S →
        n.handleMessageStoreFile sender
            { ID := C.ID, Key := hashKey lib key, Size := (S.length : Int) } = some (none, n1) →
        n1.store.Read n1.disk C.ID (hashKey lib key) = .ok (S.length, bytesReader S)
        ∧ ∃ (n2 : FileServer) (p2 : TCPPeer),
            n1.handleMessageGetFile sender { ID := C.ID, Key := hashKey lib key }
              = some (none, n2)
            ∧ lookupPeer n2.peers sender = some p2
            ∧ p2.conn.written = p.conn.written ++ [0x02] ++ int64LE (S.length : Int) ++ S)
    ∧ (C.store.Delete C1.disk C.ID key).1 = none
    ∧ (∀ C3 : FileServer, C3.ID = C.ID → C3.EncKey = C.EncKey → C3.store = C.store →
        C3.disk = (C.store.Delete C1.disk C.ID key).2 →
        (∀ p ∈ C3.peers, p.conn.room = none ∧ 0 < p.wg
          ∧ p.input = bytesReader (int64LE (S.length : Int) ++ S)) →
        C3.store.Has C3.disk C3.ID key = false
        ∧ ∃ out : Except Err Reader × FileServer,
            FileServer.Get lib C3 key = some out
            ∧ (∀ rd, out.1 = .ok rd → rd = bytesReader r.content)
            ∧ (C3.peers ≠ [] →
                (∃ f, C3.store.openFileForWriting C3.disk C.ID key = .ok f) →
                (∃ buf, lib.gobEncode
                  (Message.getFile { ID := C.ID, Key := hashKey lib key }) = .ok buf) →
                out.1 = .ok (bytesReader r.content))
            ∧ (∀ buf, lib.gobEncode
                  (Message.getFile { ID := C.ID, Key := hashKey lib key }) = .ok buf →
                out.2.peers.map (fun p => p.conn.written)
                  = C3.peers.map (fun p => p.conn.written ++ [0x01] ++ buf))) := by
  obtain ⟨f, gob, ho, hgob, hkey, hid1, hkey1, hst1, hdisk1, hpeers1⟩ :=
    FileServer.Store_success lib C key r iv C1 hr hpeers hstore
  have hlenS : (S.length : Int) = (r.content.length : Int) + 16 := by
    rw [hS]
    simp only [List.length_append, xorBytes_length, hiv]
    push_cast
    omega
  have htoNat : (S.length : Int).toNat = S.length := Int.toNat_ofNat _
  obtain ⟨hdel, hhas⟩ := Store.CAS_Delete_after_write C.store C.disk C.ID key f r.content hcas ho
  rw [← hdisk1] at hdel hhas
  refine ⟨⟨gob, ?_, ?_⟩, ?_, hdel, ?_⟩
  · rw [hlenS]; exact hgob
  · rw [hpeers1, hS]
    rfl
  · intro n n1 sender p hl hroom hclean hcontent hhandle
    cases hon : n.store.openFileForWriting n.disk C.ID (hashKey lib key) with
    | error e =>
      obtain ⟨s1, hs1⟩ := FileServer.handleMessageStoreFile_open_error n sender
        { ID := C.ID, Key := hashKey lib key, Size := (S.length : Int) } p e hl hon
      rw [hs1] at hhandle
      simp at hhandle
    | ok g =>
      have hwg : 0 < p.wg := by
        by_contra hneg
        rw [FileServer.handleMessageStoreFile_panics n sender
          { ID := C.ID, Key := hashKey lib key, Size := (S.length : Int) } p g hl hclean hon
          (by omega)] at hhandle
        cases hhandle
      have hc := FileServer.handleMessageStoreFile_clean n sender
        { ID := C.ID, Key := hashKey lib key, Size := (S.length : Int) } p g hl hclean hon hwg
      rw [hc] at hhandle
      simp only [Option.some.injEq, Prod.mk.injEq, true_and, htoNat, hcontent] at hhandle
      subst hhandle
      obtain ⟨_, hread⟩ := Store.Has_Read_after_write n.store n.disk C.ID (hashKey lib key) g S hon
      obtain ⟨_, hstat⟩ := Store.stat_after_write n.store n.disk C.ID (hashKey lib key) g S hon
      have haddr := lookupPeer_addr n.peers sender p hl
      have hl1 := lookupPeer_updatePeer n.peers sender p
        { p with input := (Reader.limit p.input (S.length : Int)).drained.inner,
                 wg := p.wg - 1 } hl haddr
      refine ⟨hread, _,
        { addr := p.addr, outbound := p.outbound,
          conn := { p.conn with
            written := p.conn.written ++ [0x02] ++ int64LE (S.length : Int) ++ S },
          input := (Reader.limit p.input (S.length : Int)).drained.inner, wg := p.wg - 1 },
        FileServer.handleMessageGetFile_served _ sender
          { ID := C.ID, Key := hashKey lib key } S _ hstat hl1 hroom, ?_, rfl⟩
      exact lookupPeer_updatePeer _ sender _ _ hl1 haddr
  · intro C3 h3id h3key h3st h3disk h3peers
    have hhas3 : C3.store.Has C3.disk C3.ID key = false := by
      rw [h3st, h3disk, h3id]; exact hhas
    have hkey3 : C3.EncKey.length = 16 ∨ C3.EncKey.length = 24 ∨ C3.EncKey.length = 32 := by
      rw [h3key]; exact hkey
    have hS3 : S = iv ++ xorBytes (ctrKeystream lib.aes C3.EncKey iv) 0 r.content := by
      rw [h3key]; exact hS
    have hg := FileServer.Get_from_answers lib C3 key iv r.content hkey3 hiv
      (by rw [← hS3]; exact hsize) hhas3 (by rw [← hS3]; exact h3peers)
    rw [h3id] at hg
    exact ⟨hhas3, hg⟩

set_option maxRecDepth 100000 in
theorem FileServer.roundtrip_in_one_piece_example :
    FileServer.Store exampleLib (.ok exampleIV) exampleOrigin "pic" exampleSource
        = some (none, exampleStored)
    ∧ exampleStream = [9, 9, 9, 9, 9, 9, 9, 9, 9, 9, 9, 9, 9, 9, 9, 9, 26, 4, 14]
    ∧ (∃ gob, exampleLib.gobEncode (Message.storeFile
          { ID := exampleOrigin.ID, Key := hashKey exampleLib "pic",
            Size := (exampleStream.length : Int) }) = .ok gob
        ∧ exampleStored.peers = exampleOrigin.peers.map (fun p =>
            { p with conn := { p.conn with
                written := p.conn.written ++ [0x01] ++ gob ++ [0x02] ++ exampleStream } }))
    ∧ exampleKeeper.handleMessageStoreFile ":3000"
          { ID := exampleOrigin.ID, Key := hashKey exampleLib "pic",
            Size := (exampleStream.length : Int) } = some (none, exampleKept)
    ∧ (exampleKept.store.Read exampleKept.disk exampleOrigin.ID (hashKey exampleLib "pic")
          = .ok (exampleStream.length, bytesReader exampleStream)
        ∧ ∃ (n2 : FileServer) (p2 : TCPPeer),
            exampleKept.handleMessageGetFile ":3000"
                { ID := exampleOrigin.ID, Key := hashKey exampleLib "pic" } = some (none, n2)
            ∧ lookupPeer n2.peers ":3000" = some p2
            ∧ p2.conn.written
                = (Sink.buffer []).written ++ [0x02] ++ int64LE (exampleStream.length : Int)
                    ++ exampleStream)
    ∧ (exampleOrigin.store.Delete exampleStored.disk exampleOrigin.ID "pic").1 = none
    ∧ (exampleAsker.store.Has exampleAsker.disk exampleAsker.ID "pic" = false
        ∧ ∃ out : Except Err Reader × FileServer,
            FileServer.Get exampleLib exampleAsker "pic" = some out
            ∧ (∀ rd, out.1 = .ok rd → rd = bytesReader exampleSource.content)
            ∧ (exampleAsker.peers ≠ [] →
                (∃ f, exampleAsker.store.openFileForWriting exampleAsker.disk
                  exampleOrigin.ID "pic" = .ok f) →
                (∃ buf, exampleLib.gobEncode
                  (Message.getFile { ID := exampleOrigin.ID, Key := hashKey exampleLib "pic" })
                    = .ok buf) →
                out.1 = .ok (bytesReader exampleSource.content))
            ∧ (∀ buf, exampleLib.gobEncode
                  (Message.getFile { ID := exampleOrigin.ID, Key := hashKey exampleLib "pic" })
                    = .ok buf →
                out.2.peers.map (fun p => p.conn.written)
                  = exampleAsker.peers.map (fun p => p.conn.written ++ [0x01] ++ buf)))
    ∧ (FileServer.Get exampleLib exampleAsker "pic").map (fun out => out.1)
        = some (.ok (bytesReader [10, 20, 30])) :=
  have T := FileServer.roundtrip_in_one_piece exampleLib exampleOrigin exampleStored "pic"
    exampleSource exampleIV exampleStream (by rfl) (by rfl) (by rfl) (by decide) (by rfl)
    (by decide) (by rfl)
  ⟨by rfl, by rfl, T.1, by rfl,
    T.2.1 exampleKeeper exampleKept ":3000"
      { addr := ":3000", outbound := false, conn := Sink.buffer [],
        input := bytesReader exampleStream, wg := 1 }
      (by rfl) (by rfl) (by rfl) (by rfl) (by rfl),
    T.2.2.1,
    T.2.2.2 exampleAsker (by rfl) (by rfl) (by rfl) (by rfl)
      (by
        intro p hp
        simp only [exampleAsker, List.mem_singleton] at hp
        subst hp
        exact ⟨rfl, by decide, rfl⟩),
    by rfl⟩

set_option maxRecDepth 100000 in
/-- C11 fails on the code.  The node `exampleOrigin` has stored the bytes
`10, 20, 30` under `pic` and deleted them locally; its peer has stored the
stream (`exampleKept`) and answers the `GetFile` request with `0x02`, the size
19 and the 19 bytes of `exampleStream`.  When the size and the stream arrive in
one piece, `Get` returns a reader over `10, 20, 30`.  When the same bytes
arrive in two pieces, the first ending 8 bytes into the IV, `Get` returns no
error either, and a reader over 11 other bytes: `copyDecrypt` takes the IV
from one `Read`, which here delivers 8 bytes. -/
theorem FileServer.Get_garbles_split_answer :
    (exampleKept.handleMessageGetFile ":3000"
        { ID := "node", Key := hashKey exampleLib "pic" }).map
        (fun out => (out.1, out.2.peers.map fun p => p.conn.written))
      = some (none, [[0x02] ++ int64LE 19 ++ exampleStream])
    ∧ exampleAsker.store.Has exampleAsker.disk exampleAsker.ID "pic" = false
    ∧ exampleAsker.peers.map (fun p => p.input.content) = [int64LE 19 ++ exampleStream]
    ∧ (FileServer.Get exampleLib exampleAsker "pic").map (fun out => out.1)
        = some (.ok (bytesReader [10, 20, 30]))
    ∧ exampleSplitAsker.store.Has exampleSplitAsker.disk exampleSplitAsker.ID "pic" = false
    ∧ exampleSplitAsker.peers.map (fun p => p.input.content) = [int64LE 19 ++ exampleStream]
    ∧ (FileServer.Get exampleLib exampleSplitAsker "pic").map (fun out => out.1)
        = some (.ok (bytesReader [25, 25, 25, 25, 25, 25, 25, 25, 29, 3, 9])) := by
  refine ⟨by rfl, by decide, by decide, by rfl, by decide, by decide, by rfl⟩

/-! ## `copyStream` does not depend on the chunking of its source -/

theorem xorBytes_eq_map_range (ks : Nat → UInt8) (l : List UInt8) :
    ∀ pos, xorBytes ks pos l
      = (List.range l.length).map (fun j => l.getD j 0 ^^^ ks (pos + j)) := by
  induction l with
  | nil => intro pos; rfl
  | cons b bs ih =>
    intro pos
    rw [xorBytes, ih (pos + 1), List.length_cons, List.range_succ_eq_map, List.map_cons,
      List.map_map]
    simp only [List.getD_cons_zero, Nat.add_zero, List.cons.injEq, true_and]
    apply List.map_congr_left
    intro j _
    simp only [Function.comp, List.getD_cons_succ]
    congr 2
    omega

/-- C21: for every block function, key and IV (the keystream), every block
size and every source that delivers a byte sequence `S` without error, however
it splits `S` across its `Read` calls (a final read that returns data together
with `io.EOF` included): `copyStream` returns no error, the bytes it has
written to the sink are `S` XOR the first `|S|` keystream bytes, and the count
it returns is `blockSize + |S|`, as in the reference `copyStreamReference`, in
which no chunking appears.  Hence two such sources with the same content give
the same output and the same count. -/
theorem copyStream_chunking_independent (aes : List UInt8 → List UInt8 → List UInt8)
    (key iv : List UInt8) (blockSize : Nat) (src : Reader) (pre : List UInt8)
    (hsrc : src.clean = true) :
    (∃ r : CopyResult Sink,
      copyStream aes { key := key, iv := iv, pos := 0 } blockSize src (Sink.buffer pre) = some r
      ∧ r.err = none
      ∧ r.dst.written
          = pre ++ (copyStreamReference (ctrKeystream aes key iv) blockSize src.content).1
      ∧ r.n = (copyStreamReference (ctrKeystream aes key iv) blockSize src.content).2)
    ∧ (∀ src2 : Reader, src2.clean = true → src2.content = src.content →
        (copyStream aes { key := key, iv := iv, pos := 0 } blockSize src2 (Sink.buffer pre)).map
            (fun r => (r.n, r.err, r.dst))
          = (copyStream aes { key := key, iv := iv, pos := 0 } blockSize src
              (Sink.buffer pre)).map (fun r => (r.n, r.err, r.dst))) := by
  have hrun : ∀ s : Reader, s.clean = true →
      copyStream aes { key := key, iv := iv, pos := 0 } blockSize s (Sink.buffer pre)
        = some { n := blockSize + s.content.length, err := none, src := s.drained,
                 dst := Sink.buffer (pre ++ xorBytes (ctrKeystream aes key iv) 0 s.content) } := by
    intro s hs
    rw [copyStream, copyStreamLoop_clean aes _ _ sink_accepts _ _ _ _ _ hs (Nat.lt_succ_self _) rfl]
    simp [Sink.buffer]
  constructor
  · refine ⟨_, hrun src hsrc, rfl, ?_, rfl⟩
    simp only [Sink.buffer, copyStreamReference, xorBytes_eq_map_range, Nat.zero_add]
  · intro src2 h2 hc
    rw [hrun src hsrc, hrun src2 h2, hc]
    rfl

theorem copyStream_chunking_independent_witness :
    exampleSource.clean = true
    ∧ (Reader.script [([10], none), ([], none), ([20, 30], none)]).clean = true
    ∧ (Reader.script [([10], none), ([], none), ([20, 30], none)]).content = exampleSource.content
    ∧ (copyStream exampleBlock { key := exampleKey, iv := exampleIV, pos := 0 } 16 exampleSource
        (Sink.buffer [])).map (fun r => (r.n, r.err, r.dst.written))
        = some (19, none, [26, 4, 14])
    ∧ (∃ r : CopyResult Sink,
        copyStream exampleBlock { key := exampleKey, iv := exampleIV, pos := 0 } 16
          exampleSource (Sink.buffer []) = some r
        ∧ r.err = none
        ∧ r.dst.written
            = [] ++ (copyStreamReference (ctrKeystream exampleBlock exampleKey exampleIV) 16
                exampleSource.content).1
        ∧ r.n = (copyStreamReference (ctrKeystream exampleBlock exampleKey exampleIV) 16
            exampleSource.content).2)
    ∧ (copyStream exampleBlock { key := exampleKey, iv := exampleIV, pos := 0 } 16
          (Reader.script [([10], none), ([], none), ([20, 30], none)]) (Sink.buffer [])).map
          (fun r => (r.n, r.err, r.dst))
        = (copyStream exampleBlock { key := exampleKey, iv := exampleIV, pos := 0 } 16
            exampleSource (Sink.buffer [])).map (fun r => (r.n, r.err, r.dst)) :=
  ⟨by decide, by decide, by decide, by decide,
    (copyStream_chunking_independent exampleBlock exampleKey exampleIV 16 exampleSource []
      (by decide)).1,
    (copyStream_chunking_independent exampleBlock exampleKey exampleIV 16 exampleSource []
      (by decide)).2 (Reader.script [([10], none), ([], none), ([20, 30], none)])
      (by decide) (by decide)⟩

/-! ## The peer map only grows -/

theorem setPeer_lookup_self : ∀ (ps : List TCPPeer) (a : String) (q : TCPPeer),
    q.addr = a → lookupPeer (setPeer ps a q) a = some q := by
  intro ps
  induction ps with
  | nil => intro a q hq; simp [setPeer, lookupPeer, hq]
  | cons p rest ih =>
    intro a q hq
    by_cases hp : p.addr = a
    · simp [setPeer, lookupPeer, hp, hq]
    · simp only [setPeer, hp, if_false, lookupPeer]
      exact ih a q hq

theorem setPeer_lookup_ne : ∀ (ps : List TCPPeer) (a b : String) (q : TCPPeer),
    q.addr = a → b ≠ a → lookupPeer (setPeer ps a q) b = lookupPeer ps b := by
  intro ps
  induction ps with
  | nil =>
    intro a b q hq hb
    have : ¬ q.addr = b := by rw [hq]; exact fun e => hb e.symm
    simp [setPeer, lookupPeer, this]
  | cons p rest ih =>
    intro a b q hq hb
    by_cases hp : p.addr = a
    · have h1 : ¬ q.addr = b := by rw [hq]; exact fun e => hb e.symm
      have h2 : ¬ p.addr = b := by rw [hp]; exact fun e => hb e.symm
      have h3 : ¬ a = b := fun e => hb e.symm
      simp only [setPeer, hp, if_true, lookupPeer, h1, h2, h3, if_false]
    · simp only [setPeer, hp, if_false, lookupPeer]
      rw [ih a b q hq hb]

theorem setPeer_addrs_mem : ∀ (ps : List TCPPeer) (a : String) (q : TCPPeer) (b : String),
    q.addr = a → b ∈ (setPeer ps a q).map (fun p => p.addr) →
    b = a ∨ b ∈ ps.map (fun p => p.addr) := by
  intro ps
  induction ps with
  | nil => intro a q b hq hb; left; simpa [setPeer, hq] using hb
  | cons p rest ih =>
    intro a q b hq hb
    by_cases hp : p.addr = a
    · simp only [setPeer, hp, if_true, List.map_cons, List.mem_cons] at hb
      rcases hb with hb | hb
      · left; rw [hb, hq]
      · right; exact List.mem_cons_of_mem _ hb
    · simp only [setPeer, hp, if_false, List.map_cons, List.mem_cons] at hb
      rcases hb with hb | hb
      · right; rw [hb]; exact List.mem_cons_self _ _
      · rcases ih a q b hq hb with h | h
        · left; exact h
        · right; exact List.mem_cons_of_mem _ h

theorem setPeer_nodup : ∀ (ps : List TCPPeer) (a : String) (q : TCPPeer),
    q.addr = a → (ps.map (fun p => p.addr)).Nodup →
    ((setPeer ps a q).map (fun p => p.addr)).Nodup := by
  intro ps
  induction ps with
  | nil => intro a q _ _; simp [setPeer]
  | cons p rest ih =>
    intro a q hq hnd
    simp only [List.map_cons, List.nodup_cons] at hnd
    by_cases hp : p.addr = a
    · simp only [setPeer, hp, if_true, List.map_cons, List.nodup_cons, hq]
      rw [hp] at hnd
      exact hnd
    · simp only [setPeer, hp, if_false, List.map_cons, List.nodup_cons]
      refine ⟨?_, ih a q hq hnd.2⟩
      intro hmem
      rcases setPeer_addrs_mem rest a q p.addr hq hmem with h | h
      · exact hp h
      · exact hnd.1 h

theorem lookupPeer_isSome_iff : ∀ (ps : List TCPPeer) (a : String),
    (lookupPeer ps a).isSome = true ↔ a ∈ ps.map (fun p => p.addr) := by
  intro ps
  induction ps with
  | nil => intro a; simp [lookupPeer]
  | cons p rest ih =>
    intro a
    by_cases hp : p.addr = a
    · simp [lookupPeer, hp]
    · have : ¬ a = p.addr := fun e => hp e.symm
      simp [lookupPeer, hp, this, ih a]

/-! ### What the copy loops keep of their writer -/

theorem ioCopyLoop_dst_inv {ω : Type} [IOWriter ω] (P : ω → Prop)
    (hP : ∀ (w : ω) (b : List UInt8), P w → P (IOWriter.write w b).2) :
    ∀ (fuel : Nat) (src : Reader) (dst : ω) (written : Nat) (r : CopyResult ω),
      P dst → ioCopyLoop fuel src dst written = some r → P r.dst := by
  intro fuel
  induction fuel with
  | zero => intro src dst written r _ h; simp [ioCopyLoop] at h
  | succ fuel ih =>
    intro src dst written r hd h
    rw [ioCopyLoop] at h
    simp only at h
    split at h
    · split at h
      · cases h; exact hP _ _ hd
      · split at h
        · cases h; exact hP _ _ hd
        · split at h
          · cases h; exact hP _ _ hd
          · split at h
            · cases h; exact hP _ _ hd
            · exact ih _ _ _ _ (hP _ _ hd) h
    · split at h
      · cases h; exact hd
      · split at h
        · cases h; exact hd
        · exact ih _ _ _ _ hd h

theorem copyStreamLoop_dst_inv {ω : Type} [IOWriter ω]
    (aes : List UInt8 → List UInt8 → List UInt8) (P : ω → Prop)
    (hP : ∀ (w : ω) (b : List UInt8), P w → P (IOWriter.write w b).2) :
    ∀ (fuel : Nat) (stream : CTRStream) (src : Reader) (dst : ω) (nw : Nat)
      (r : CopyResult ω),
      P dst → copyStreamLoop aes fuel stream src dst nw = some r → P r.dst := by
  intro fuel
  induction fuel with
  | zero => intro stream src dst nw r _ h; simp [copyStreamLoop] at h
  | succ fuel ih =>
    intro stream src dst nw r hd h
    rw [copyStreamLoop] at h
    simp only at h
    split at h
    · split at h
      · cases h; exact hP _ _ hd
      · split at h
        · cases h; exact hP _ _ hd
        · split at h
          · cases h; exact hP _ _ hd
          · exact ih _ _ _ _ _ (hP _ _ hd) h
    · split at h
      · cases h; exact hd
      · split at h
        · cases h; exact hd
        · exact ih _ _ _ _ _ hd h

theorem copyEncrypt_dst_inv {ω : Type} [IOWriter ω]
    (aes : List UInt8 → List UInt8 → List UInt8) (P : ω → Prop)
    (hP : ∀ (w : ω) (b : List UInt8), P w → P (IOWriter.write w b).2)
    (rnd : Except Err (List UInt8)) (key : List UInt8) (src : Reader) (dst : ω)
    (r : CopyResult ω) (hd : P dst) (h : copyEncrypt aes rnd key src dst = some r) :
    P r.dst := by
  unfold copyEncrypt at h
  split at h
  · cases h; exact hd
  · split at h
    · cases h; exact hd
    · simp only at h
      split at h
      · cases h; exact hP _ _ hd
      · exact copyStreamLoop_dst_inv aes P hP _ _ _ _ _ _ (hP _ _ hd) h

theorem multiWrite_entries (b : List UInt8) :
    ∀ ws : List TCPPeer, peerEntries (multiWrite ws b).2 = peerEntries ws := by
  intro ws
  induction ws with
  | nil => rfl
  | cons w ws ih =>
    simp only [multiWrite]
    split
    · rfl
    · split
      · rfl
      · simp only [peerEntries, List.map_cons] at ih ⊢
        rw [ih]
        rfl

theorem broadcastLoop_entries (buf : List UInt8) :
    ∀ ps : List TCPPeer, peerEntries (broadcastLoop buf ps).2 = peerEntries ps := by
  intro ps
  induction ps with
  | nil => rfl
  | cons p rest ih =>
    simp only [broadcastLoop]
    split
    · rfl
    · simp only [peerEntries, List.map_cons] at ih ⊢
      rw [ih]
      rfl

theorem updatePeer_entries : ∀ (ps : List TCPPeer) (a : String) (p q : TCPPeer),
    lookupPeer ps a = some p → q.addr = p.addr → q.outbound = p.outbound →
    peerEntries (updatePeer ps a q) = peerEntries ps := by
  intro ps
  induction ps with
  | nil => intro a p q h; simp [lookupPeer] at h
  | cons x rest ih =>
    intro a p q h h1 h2
    by_cases hx : x.addr = a
    · simp only [lookupPeer, hx, if_true, Option.some.injEq] at h
      subst h
      simp only [updatePeer, hx, if_true, peerEntries, List.map_cons, h1, h2]
    · simp only [lookupPeer, hx, if_false] at h
      simp only [updatePeer, hx, if_false, peerEntries, List.map_cons]
      have := ih a p q h h1 h2
      simp only [peerEntries] at this
      rw [this]

theorem getLoop_entries (lib : Lib) (st : Store) (encKey : List UInt8) (id key : String) :
    ∀ (ps : List TCPPeer) (fs : FS) (res : Option Err × FS × List TCPPeer),
      getLoop lib st encKey id key fs ps = some res →
      peerEntries res.2.2 = peerEntries ps := by
  intro ps
  induction ps with
  | nil =>
    intro fs res h
    simp only [getLoop, Option.some.injEq] at h
    subst h
    rfl
  | cons p rest ih =>
    intro fs res h
    simp only [getLoop] at h
    cases hrd : binaryReadInt64 p.input 0 with
    | none => simp [hrd] at h
    | some rd =>
      simp only [hrd] at h
      cases hw : Store.WriteDecrypt lib.aes st fs encKey id key
          (Reader.limit rd.2 rd.1.1) with
      | none => simp [hw] at h
      | some w =>
        simp only [hw] at h
        cases herr : w.err with
        | some e =>
          simp only [herr, Option.some.injEq] at h
          subst h
          rfl
        | none =>
          simp only [herr] at h
          cases hcs : TCPPeer.CloseStream { p with input := w.src.inner } with
          | none => simp [hcs] at h
          | some q =>
            obtain ⟨_, hq⟩ := TCPPeer.CloseStream_some _ _ hcs
            simp only [hcs] at h
            cases hrec : getLoop lib st encKey id key w.fs rest with
            | none => simp [hrec] at h
            | some r =>
              simp only [hrec, Option.some.injEq] at h
              subst h
              have := ih _ _ hrec
              simp only [peerEntries] at this
              simp only [peerEntries, List.map_cons, hq, this]

/-! ### The operations of the server keep the entries of the peer map -/

theorem FileServer.broadcast_entries (lib : Lib) (s : FileServer) (msg : Message) :
    peerEntries (s.broadcast lib msg).2.peers = peerEntries s.peers := by
  simp only [FileServer.broadcast]
  split
  · rfl
  · exact broadcastLoop_entries _ _

theorem FileServer.Store_entries (lib : Lib) (rnd : Except Err (List UInt8)) (s : FileServer)
    (key : String) (r : Reader) (out : Option Err × FileServer)
    (h : FileServer.Store lib rnd s key r = some out) :
    peerEntries out.2.peers = peerEntries s.peers := by
  simp only [FileServer.Store] at h
  split at h
  · cases h
  · rename_i w hw
    split at h
    · cases h; rfl
    · have hb := FileServer.broadcast_entries lib { s with disk := w.fs }
        (Message.storeFile { ID := s.ID, Key := hashKey lib key, Size := (w.n : Int) + 16 })
      split at h
      · cases h; exact hb
      · have hinv := copyEncrypt_dst_inv lib.aes
          (fun m : MultiWriter TCPPeer => peerEntries m.writers = peerEntries s.peers)
          (fun m b hm => by
            show peerEntries (multiWrite m.writers b).2 = _
            rw [multiWrite_entries]; exact hm)
        split at h
        · cases h
        · rename_i c hc
          have hdst := hinv _ _ _ _ c
            (by
              show peerEntries (multiWrite _ _).2 = _
              rw [multiWrite_entries]
              exact hb) hc
          split at h
          · cases h; exact hdst
          · cases h; exact hdst

theorem FileServer.Get_entries (lib : Lib) (s : FileServer) (key : String)
    (out : Except Err Reader × FileServer) (h : FileServer.Get lib s key = some out) :
    peerEntries out.2.peers = peerEntries s.peers := by
  simp only [FileServer.Get] at h
  split at h
  · split at h
    · cases h; rfl
    · cases h; rfl
  · have hb := FileServer.broadcast_entries lib s
      (Message.getFile { ID := s.ID, Key := hashKey lib key })
    split at h
    · cases h; exact hb
    · split at h
      · cases h
      · rename_i g hg
        have hge := getLoop_entries lib _ _ _ _ _ _ _ hg
        split at h
        · cases h; exact hge.trans hb
        · split at h
          · cases h; exact hge.trans hb
          · cases h; exact hge.trans hb

theorem FileServer.handleMessage_entries (s : FileServer) (sender : String) (msg : Message)
    (out : Option Err × FileServer) (h : s.handleMessage sender msg = some out) :
    peerEntries out.2.peers = peerEntries s.peers := by
  cases msg with
  | storeFile v =>
    simp only [FileServer.handleMessage, FileServer.handleMessageStoreFile] at h
    split at h
    · cases h; rfl
    · rename_i peer hl
      split at h
      · cases h
      · split at h
        · cases h
          exact updatePeer_entries _ _ peer _ hl rfl rfl
        · split at h
          · cases h
          · rename_i q hq
            obtain ⟨_, hq1⟩ := TCPPeer.CloseStream_some _ _ hq
            cases h
            rw [hq1]
            exact updatePeer_entries _ _ peer _ hl rfl rfl
  | getFile v =>
    simp only [FileServer.handleMessage, FileServer.handleMessageGetFile] at h
    split at h
    · cases h; rfl
    · split at h
      · cases h; rfl
      · split at h
        · cases h; rfl
        · rename_i peer hl
          split at h
          · cases h
          · rename_i c hc
            have hinv := ioCopyLoop_dst_inv
              (fun w : TCPPeer => w.addr = peer.addr ∧ w.outbound = peer.outbound)
              (fun w b hw => ⟨hw.1, hw.2⟩) _ _
              (binaryWriteInt64 (peer.Send [IncomingStream]).2 _).2 _ c ⟨rfl, rfl⟩ hc
            split at h
            · cases h
              exact updatePeer_entries _ _ peer _ hl hinv.1 hinv.2
            · cases h
              exact updatePeer_entries _ _ peer _ hl hinv.1 hinv.2

/-- C23: the peer set of a `FileServer` only grows.  `OnPeer(p)` always
returns `nil`; afterwards the entry under the remote address of `p` is `p`,
every other entry is as before, every address that had an entry still has
one, and addresses that were pairwise distinct still are.  No other operation
removes or changes an entry: after `broadcast`, `Store`, `Get` and the message
handlers (whatever they return, a failed send included) the peer map has the
same entries in the same places, `Stop` leaves the server as it is, and
`handleConn` leaves the server as `OnPeer` left it however its read loop runs
and ends (or as it was, when the handshake fails). -/
theorem FileServer.peers_only_grow (s : FileServer) :
    (∀ p : TCPPeer,
        (s.OnPeer p).1 = none
        ∧ lookupPeer (s.OnPeer p).2.peers p.addr = some p
        ∧ (∀ a, a ≠ p.addr → lookupPeer (s.OnPeer p).2.peers a = lookupPeer s.peers a)
        ∧ (∀ a, (lookupPeer s.peers a).isSome = true →
            (lookupPeer (s.OnPeer p).2.peers a).isSome = true)
        ∧ ((s.peers.map fun q => q.addr).Nodup →
            ((s.OnPeer p).2.peers.map fun q => q.addr).Nodup))
    ∧ (∀ (lib : Lib) (msg : Message),
        peerEntries (s.broadcast lib msg).2.peers = peerEntries s.peers)
    ∧ (∀ (lib : Lib) (rnd : Except Err (List UInt8)) (key : String) (r : Reader)
        (out : Option Err × FileServer),
        FileServer.Store lib rnd s key r = some out →
        peerEntries out.2.peers = peerEntries s.peers)
    ∧ (∀ (lib : Lib) (key : String) (out : Except Err Reader × FileServer),
        FileServer.Get lib s key = some out →
        peerEntries out.2.peers = peerEntries s.peers)
    ∧ (∀ (sender : String) (msg : Message) (out : Option Err × FileServer),
        s.handleMessage sender msg = some out →
        peerEntries out.2.peers = peerEntries s.peers)
    ∧ (∀ (quit : Bool) (out : FileServer × Bool), s.Stop quit = some out → out.1 = s)
    ∧ (∀ (dec : Reader → RPC → Option Err × RPC × Reader) (hs : TCPPeer → Option Err)
        (peer : TCPPeer) (events : List ConnEvent),
        (hs peer = none → (handleConn dec hs s peer events).1 = (s.OnPeer peer).2)
        ∧ (hs peer ≠ none → (handleConn dec hs s peer events).1 = s)) := by
  refine ⟨?_, ?_, ?_, ?_, ?_, ?_, ?_⟩
  · intro p
    refine ⟨rfl, setPeer_lookup_self _ _ _ rfl, fun a ha => setPeer_lookup_ne _ _ _ _ rfl ha,
      ?_, setPeer_nodup _ _ _ rfl⟩
    intro a ha
    by_cases hap : a = p.addr
    · rw [hap]
      show (lookupPeer (setPeer s.peers p.addr p) p.addr).isSome = true
      rw [setPeer_lookup_self _ _ _ rfl]
      rfl
    · show (lookupPeer (setPeer s.peers p.addr p) a).isSome = true
      rw [setPeer_lookup_ne _ _ _ _ rfl hap]
      exact ha
  · exact fun lib msg => FileServer.broadcast_entries lib s msg
  · exact fun lib rnd key r out h => FileServer.Store_entries lib rnd s key r out h
  · exact fun lib key out h => FileServer.Get_entries lib s key out h
  · exact fun sender msg out h => FileServer.handleMessage_entries s sender msg out h
  · intro quit out h
    simp only [FileServer.Stop] at h
    split at h
    · cases h
    · cases h; rfl
  · intro dec hs peer events
    constructor
    · intro h
      simp only [handleConn, h, FileServer.OnPeer]
    · intro h
      cases hh : hs peer with
      | none => exact absurd hh h
      | some e => simp only [handleConn, hh]

set_option maxRecDepth 100000 in
theorem FileServer.peers_only_grow_witness :
    ((exampleServer.OnPeer exampleClosedPeer).1 = none
      ∧ lookupPeer (exampleServer.OnPeer exampleClosedPeer).2.peers exampleClosedPeer.addr
          = some exampleClosedPeer
      ∧ lookupPeer (exampleServer.OnPeer exampleClosedPeer).2.peers ":7000"
          = lookupPeer exampleServer.peers ":7000"
      ∧ (lookupPeer (exampleServer.OnPeer exampleClosedPeer).2.peers ":7000").isSome = true
      ∧ ((exampleServer.OnPeer exampleClosedPeer).2.peers.map fun q => q.addr).Nodup)
    ∧ peerEntries (exampleServer.OnPeer exampleBrokenPeer).2.peers
        = [(":3000", true), (":7000", true), (":9000", true)]
    ∧ (FileServer.Store exampleLib (.ok exampleIV) exampleCrowd "pic" exampleSource
          = some exampleCrowdStored
        ∧ exampleCrowdStored.1 = some (Err.other "write failed")
        ∧ peerEntries exampleCrowdStored.2.peers = peerEntries exampleCrowd.peers)
    ∧ (FileServer.Get exampleLib exampleServer "pic" = some (.error Err.EOF, exampleFailedGet)
        ∧ peerEntries exampleFailedGet.peers = peerEntries exampleServer.peers)
    ∧ (exampleReceiver.handleMessage ":3000"
          (.storeFile { ID := "node", Key := "k", Size := 20 }) = some exampleReceived
        ∧ peerEntries exampleReceived.2.peers = peerEntries exampleReceiver.peers)
    ∧ (exampleServer.Stop false = some (exampleServer, true)
        ∧ (exampleServer, true).1 = exampleServer)
    ∧ ((handleConn DefaultDecoder.Decode NOPHandshakeFunc exampleServer exampleResetPeer
          [.loop, .loop]).2.closed = true
        ∧ (handleConn DefaultDecoder.Decode NOPHandshakeFunc exampleServer exampleResetPeer
            [.loop, .loop]).1 = (exampleServer.OnPeer exampleResetPeer).2
        ∧ lookupPeer (handleConn DefaultDecoder.Decode NOPHandshakeFunc exampleServer
            exampleResetPeer [.loop, .loop]).1.peers ":8000" = some exampleResetPeer) :=
  ⟨⟨((FileServer.peers_only_grow exampleServer).1 exampleClosedPeer).1,
      ((FileServer.peers_only_grow exampleServer).1 exampleClosedPeer).2.1,
      ((FileServer.peers_only_grow exampleServer).1 exampleClosedPeer).2.2.1 ":7000"
        (by decide),
      ((FileServer.peers_only_grow exampleServer).1 exampleClosedPeer).2.2.2.1 ":7000"
        (by rfl),
      ((FileServer.peers_only_grow exampleServer).1 exampleClosedPeer).2.2.2.2
        (by decide)⟩,
    by rfl,
    ⟨by rfl, by rfl,
      (FileServer.peers_only_grow exampleCrowd).2.2.1 exampleLib (.ok exampleIV) "pic"
        exampleSource exampleCrowdStored (by rfl)⟩,
    ⟨by rfl,
      (FileServer.peers_only_grow exampleServer).2.2.2.1 exampleLib "pic"
        (.error Err.EOF, exampleFailedGet) (by rfl)⟩,
    ⟨by rfl,
      (FileServer.peers_only_grow exampleReceiver).2.2.2.2.1 ":3000"
        (.storeFile { ID := "node", Key := "k", Size := 20 }) exampleReceived (by rfl)⟩,
    ⟨by rfl,
      (FileServer.peers_only_grow exampleServer).2.2.2.2.2.1 false (exampleServer, true)
        (by rfl)⟩,
    ⟨by rfl,
      ((FileServer.peers_only_grow exampleServer).2.2.2.2.2.2 DefaultDecoder.Decode
        NOPHandshakeFunc exampleResetPeer [.loop, .loop]).1 (by rfl),
      by rfl⟩⟩

/-! ## What `Delete` leaves alone -/

theorem plainComps_cons_skip (c : String) (rest : List String) (h : c = "" ∨ c = ".") :
    plainComps (c :: rest) = plainComps rest := by
  have hb : (!(decide (c = "") || decide (c = "."))) = false := by
    rcases h with e | e <;> simp [e]
  simp only [plainComps, List.filter_cons, hb]
  rfl

theorem plainComps_cons_keep (c : String) (rest : List String) (h : ¬ (c = "" ∨ c = ".")) :
    plainComps (c :: rest) = c :: plainComps rest := by
  have hb : (!(decide (c = "") || decide (c = "."))) = true := by
    simp only [not_or] at h
    simp [h.1, h.2]
  simp only [plainComps, List.filter_cons, hb]
  rfl

theorem plainComps_append (a b : List String) :
    plainComps (a ++ b) = plainComps a ++ plainComps b := by
  simp [plainComps]

theorem FS.walk_result (fs : FS) :
    ∀ (cs cur q : List String), ".." ∉ cs → fs.walk cur cs = .ok q →
      q = cur ++ plainComps cs := by
  intro cs
  induction cs with
  | nil =>
    intro cur q _ h
    simp only [FS.walk, Except.ok.injEq] at h
    simp [plainComps, h]
  | cons c rest ih =>
    intro cur q hdd h
    have hc : c ≠ ".." := fun e => hdd (by simp [e])
    have hrest : ".." ∉ rest := fun e => hdd (List.mem_cons_of_mem _ e)
    simp only [FS.walk] at h
    cases hg : fs.get cur with
    | none => simp [hg] at h
    | some n =>
      cases n with
      | file _ => simp [hg] at h
      | dir =>
        simp only [hg] at h
        by_cases hce : c = "" ∨ c = "."
        · rw [if_pos hce] at h
          rw [plainComps_cons_skip c rest hce]
          exact ih cur q hrest h
        · rw [if_neg hce, if_neg hc] at h
          by_cases hnm : nameMax < c.utf8ByteSize
          · rw [if_pos hnm] at h
            cases h
          · rw [if_neg hnm] at h
            rw [plainComps_cons_keep c rest hce, ih (cur ++ [c]) q hrest h]
            simp

theorem FS.walk_agree (fs fs2 : FS) :
    ∀ (cs cur : List String), ".." ∉ cs →
      (∀ t, t <+: plainComps cs → fs2.get (cur ++ t) = fs.get (cur ++ t)) →
      fs2.walk cur cs = fs.walk cur cs := by
  intro cs
  induction cs with
  | nil => intro cur _ _; rfl
  | cons c rest ih =>
    intro cur hdd hag
    have hc : c ≠ ".." := fun e => hdd (by simp [e])
    have hrest : ".." ∉ rest := fun e => hdd (List.mem_cons_of_mem _ e)
    have h0 : fs2.get cur = fs.get cur := by
      have := hag [] (List.nil_prefix)
      simpa using this
    simp only [FS.walk, h0]
    cases fs.get cur with
    | none => rfl
    | some n =>
      cases n with
      | file _ => rfl
      | dir =>
        simp only
        by_cases hce : c = "" ∨ c = "."
        · rw [if_pos hce, if_pos hce]
          apply ih cur hrest
          intro t ht
          apply hag
          rw [plainComps_cons_skip c rest hce]
          exact ht
        · rw [if_neg hce, if_neg hce, if_neg hc, if_neg hc]
          by_cases hnm : nameMax < c.utf8ByteSize
          · rw [if_pos hnm, if_pos hnm]
          · rw [if_neg hnm, if_neg hnm]
            apply ih (cur ++ [c]) hrest
            intro t ht
            have := hag (c :: t) (by
              rw [plainComps_cons_keep c rest hce]
              exact (List.prefix_cons_inj c).mpr ht)
            simpa [List.append_assoc] using this

theorem FS.removeTree_get_of_not_prefix (fs : FS) (p q : List String) (h : ¬ p <+: q) :
    (fs.removeTree p).get q = fs.get q := by
  have hb : p.isPrefixOf q = false := by
    cases hh : p.isPrefixOf q with
    | false => rfl
    | true => exact absurd (List.isPrefixOf_iff_prefix.mp hh) h
  simp only [FS.get, FS.removeTree, hb]
  rfl

theorem splitChars_mem_chars (sep : Char) :
    ∀ (l w : List Char), w ∈ splitChars sep l → ∀ c ∈ w, c ∈ l := by
  intro l
  induction l with
  | nil =>
    intro w hw c hc
    simp only [splitChars, List.mem_singleton] at hw
    subst hw
    cases hc
  | cons x xs ih =>
    intro w hw c hc
    simp only [splitChars] at hw
    split at hw
    · simp only [List.mem_cons] at hw
      rcases hw with hw | hw
      · subst hw; cases hc
      · exact List.mem_cons_of_mem _ (ih w hw c hc)
    · cases hs : splitChars sep xs with
      | nil => exact absurd hs (splitChars_ne_nil sep xs)
      | cons v vs =>
        rw [hs] at hw
        simp only [List.mem_cons] at hw
        rcases hw with hw | hw
        · subst hw
          simp only [List.mem_cons] at hc
          rcases hc with hc | hc
          · rw [hc]; exact List.mem_cons_self _ _
          · exact List.mem_cons_of_mem _ (ih v (by rw [hs]; exact List.mem_cons_self _ _) c hc)
        · exact List.mem_cons_of_mem _
            (ih w (by rw [hs]; exact List.mem_cons_of_mem _ hw) c hc)

theorem stringsSplit_no_dotdot (s : String) (h : '.' ∉ s.data) :
    ".." ∉ stringsSplit s '/' := by
  intro hin
  simp only [stringsSplit, List.mem_map] at hin
  obtain ⟨w, hw, he⟩ := hin
  have hd : '.' ∈ w := by
    have : w = ['.', '.'] := by
      have := congrArg String.data he
      simpa using this
    rw [this]
    simp
  exact h (splitChars_mem_chars '/' _ w hw '.' hd)

theorem stringsJoin_chars : ∀ (segs : List String) (c : Char),
    c ∈ (stringsJoin segs "/").data → c = '/' ∨ ∃ s ∈ segs, c ∈ s.data := by
  intro segs
  induction segs with
  | nil => intro c hc; simp [stringsJoin] at hc
  | cons s rest ih =>
    intro c hc
    cases rest with
    | nil =>
      right
      exact ⟨s, List.mem_cons_self _ _, by simpa [stringsJoin] using hc⟩
    | cons t rest =>
      simp only [stringsJoin, String.data_append, List.mem_append] at hc
      rcases hc with (hc | hc) | hc
      · right; exact ⟨s, List.mem_cons_self _ _, hc⟩
      · left; simpa using hc
      · rcases ih c hc with h | ⟨u, hu, hcu⟩
        · left; exact h
        · right; exact ⟨u, List.mem_cons_of_mem _ hu, hcu⟩

theorem CAS_FullPath_no_dot (key : String) :
    '.' ∉ (CASPathTransformFunc key).FullPath.data := by
  have hl : (hexEncodeToString (sha1Sum (stringBytes key))).data.length = 5 * 8 :=
    hashStr_length key
  have hmem : ∀ c ∈ (hexEncodeToString (sha1Sum (stringBytes key))).data, c ∈ hextable :=
    fun c hc => hexEncodeToString_mem _ c hc
  have hnot : '.' ∉ hextable := by decide
  obtain ⟨_, _, hchars, _⟩ := cutBlocks_props 8 _ hl
  rw [CASPathTransformFunc_eq]
  simp only [PathKey.FullPath, String.data_append, List.mem_append, not_or]
  refine ⟨⟨?_, by decide⟩, fun h => hnot (hmem _ h)⟩
  intro h
  rcases stringsJoin_chars _ _ h with h | ⟨s, hs, hc⟩
  · exact absurd h (by decide)
  · exact hnot (hmem _ (hchars s hs _ hc))

theorem plainComps_single (a : String) (h : a ≠ "" ∧ a ≠ ".") : plainComps [a] = [a] := by
  rw [plainComps_cons_keep a [] (by simp [h.1, h.2])]
  rfl

/-- In a CAS store whose root has no `..` component, for node ids that are
plain names: `stat` of the file of `(id2, k2)` gives the same result before and
after `Delete(id, k)`, as soon as the ids differ or the two hashes differ in
their first five characters. -/
theorem Store.CAS_Delete_frame_stat (root : String) (fs : FS) (id k id2 k2 : String)
    (hroot : ".." ∉ stringsSplit root '/')
    (hid : id ≠ "" ∧ id ≠ "." ∧ id ≠ ".." ∧ '/' ∉ id.data)
    (hid2 : id2 ≠ "" ∧ id2 ≠ "." ∧ id2 ≠ ".." ∧ '/' ∉ id2.data)
    (hdiff : id2 ≠ id ∨ (CASPathTransformFunc k2).Filename.data.take 5
        ≠ (CASPathTransformFunc k).Filename.data.take 5) :
    osStat (Store.Delete { Root := root, PathTransformFunc := CASPathTransformFunc } fs id k).2
        (root ++ "/" ++ id2 ++ "/" ++ (CASPathTransformFunc k2).FullPath)
      = osStat fs (root ++ "/" ++ id2 ++ "/" ++ (CASPathTransformFunc k2).FullPath) := by
  obtain ⟨hfirst, _, hlen, hslash⟩ := CAS_first_segment k
  obtain ⟨_, ⟨rest2, hfull2⟩, hlen2, hslash2⟩ := CAS_first_segment k2
  obtain ⟨hp1, hp2, hp3⟩ := plain_of_length_five _ hlen
  obtain ⟨hq1, hq2, _⟩ := plain_of_length_five _ hlen2
  simp only [Store.Delete, hfirst, osRemoveAll]
  split
  · rfl
  · split
    · rfl
    · split
      · rfl
      · split
        · rfl
        · rfl
        · rename_i p hres
          split
          · rfl
          · -- the removed directory
            have hcomps : stringsSplit (root ++ "/" ++ id ++ "/"
                ++ String.mk ((CASPathTransformFunc k).Filename.data.take 5)) '/'
                = stringsSplit root '/' ++ [id]
                  ++ [String.mk ((CASPathTransformFunc k).Filename.data.take 5)] := by
              rw [stringsSplit_append, stringsSplit_append, stringsSplit_no_sep id hid.2.2.2,
                stringsSplit_no_sep _ hslash]
            have hdd : ".." ∉ stringsSplit root '/' ++ [id]
                ++ [String.mk ((CASPathTransformFunc k).Filename.data.take 5)] := by
              simp only [List.mem_append, List.mem_singleton, not_or]
              exact ⟨⟨hroot, fun e => hid.2.2.1 e.symm⟩, fun e => hp3 e.symm⟩
            rw [hcomps] at hres
            have hp := FS.walk_result fs _ [] p hdd hres
            rw [List.nil_append, List.append_assoc, plainComps_append] at hp
            have hkeep : plainComps ([id]
                ++ [String.mk ((CASPathTransformFunc k).Filename.data.take 5)])
                = [id, String.mk ((CASPathTransformFunc k).Filename.data.take 5)] := by
              show plainComps (id :: [String.mk ((CASPathTransformFunc k).Filename.data.take 5)])
                = _
              rw [plainComps_cons_keep id _ (by simp [hid.1, hid.2.1]),
                plainComps_single _ ⟨hp1, hp2⟩]
            rw [hkeep] at hp
            -- the path of the other blob
            have hcomps2 : stringsSplit (root ++ "/" ++ id2 ++ "/"
                ++ (CASPathTransformFunc k2).FullPath) '/'
                = stringsSplit root '/' ++ [id2]
                  ++ stringsSplit (CASPathTransformFunc k2).FullPath '/' := by
              rw [stringsSplit_append, stringsSplit_append, stringsSplit_no_sep id2 hid2.2.2.2]
            have hdd2 : ".." ∉ stringsSplit root '/' ++ [id2]
                ++ stringsSplit (CASPathTransformFunc k2).FullPath '/' := by
              simp only [List.mem_append, List.mem_singleton, not_or]
              exact ⟨⟨hroot, fun e => hid2.2.2.1 e.symm⟩,
                stringsSplit_no_dotdot _ (CAS_FullPath_no_dot k2)⟩
            have hplain2 : plainComps (stringsSplit root '/' ++ [id2]
                ++ stringsSplit (CASPathTransformFunc k2).FullPath '/')
                = plainComps (stringsSplit root '/')
                  ++ id2 :: String.mk ((CASPathTransformFunc k2).Filename.data.take 5)
                    :: plainComps (stringsSplit rest2 '/') := by
              rw [hfull2, stringsSplit_append, stringsSplit_no_sep _ hslash2, List.append_assoc,
                plainComps_append]
              show _ ++ plainComps (id2
                  :: String.mk ((CASPathTransformFunc k2).Filename.data.take 5)
                  :: stringsSplit rest2 '/') = _
              rw [plainComps_cons_keep id2 _ (by simp [hid2.1, hid2.2.1]),
                plainComps_cons_keep _ _ (by simp [hq1, hq2])]
            have hsafe : ∀ t, t <+: plainComps (stringsSplit root '/' ++ [id2]
                ++ stringsSplit (CASPathTransformFunc k2).FullPath '/') →
                (fs.removeTree p).get ([] ++ t) = fs.get ([] ++ t) := by
              intro t ht
              rw [List.nil_append]
              apply FS.removeTree_get_of_not_prefix
              intro hpt
              have hpf := hpt.trans ht
              rw [hp, hplain2, List.prefix_append_right_inj] at hpf
              obtain ⟨e1, hpf2⟩ := List.cons_prefix_cons.mp hpf
              obtain ⟨e2, _⟩ := List.cons_prefix_cons.mp hpf2
              rcases hdiff with hd | hd
              · exact hd e1.symm
              · exact hd (by
                  have := congrArg String.data e2
                  simpa using this.symm)
            have hne2 := String.append_ne_empty_of_slash (root ++ "/" ++ id2)
              (CASPathTransformFunc k2).FullPath
            have hwalk := FS.walk_agree fs (fs.removeTree p) _ [] hdd2 hsafe
            by_cases hl : pathMax ≤ (root ++ "/" ++ id2 ++ "/"
                ++ (CASPathTransformFunc k2).FullPath).utf8ByteSize
            · simp only [osStat, FS.resolve, hne2, if_false, if_pos hl]
            · simp only [osStat, FS.resolve, hne2, if_false, if_neg hl, hcomps2, hwalk]
              cases hw : fs.walk [] (stringsSplit root '/' ++ [id2]
                  ++ stringsSplit (CASPathTransformFunc k2).FullPath '/') with
              | error e => rfl
              | ok q =>
                have hq := FS.walk_result fs _ [] q hdd2 hw
                have := hsafe (plainComps (stringsSplit root '/' ++ [id2]
                  ++ stringsSplit (CASPathTransformFunc k2).FullPath '/')) (List.prefix_refl _)
                rw [← hq] at this
                simp only [this]

set_option maxRecDepth 100000 in
/-- C22 fails as stated.  Node ids and the root go into the path as they are:
a blob stored under the node id `node/.` lies in the directory of the node id
`node`, so `Delete("node", "foo_1")` removes it; and with the root
`a/node/95c73/../..`, which passes through the directory that
`Delete("node", "pic")` removes, the blob of `("other", "foo_1")` cannot be
reached any more after that delete. -/
theorem Store.Delete_reaches_other_node_id :
    ("node/." ≠ "node"
      ∧ Store.Has { Root := "ggnetwork", PathTransformFunc := CASPathTransformFunc }
          exampleAliasWrite.fs "node/." "foo_1" = true
      ∧ Store.Has { Root := "ggnetwork", PathTransformFunc := CASPathTransformFunc }
          (Store.Delete { Root := "ggnetwork", PathTransformFunc := CASPathTransformFunc }
            exampleAliasWrite.fs "node" "foo_1").2 "node/." "foo_1" = false)
    ∧ ("other" ≠ "node"
      ∧ Store.Has { Root := "a/node/95c73/../..", PathTransformFunc := CASPathTransformFunc }
          exampleClimbWrite.fs "other" "foo_1" = true
      ∧ Store.Has { Root := "a/node/95c73/../..", PathTransformFunc := CASPathTransformFunc }
          (Store.Delete
            { Root := "a/node/95c73/../..", PathTransformFunc := CASPathTransformFunc }
            exampleClimbWrite.fs "node" "pic").2 "other" "foo_1" = false) :=
  ⟨⟨by decide, by rfl, by rfl⟩, ⟨by decide, by rfl, by rfl⟩⟩

/-- C22, amended: with the CAS path mapper, when no component of the root is
`..` and the node ids are plain names (not empty, without `/`, neither `.`
nor `..`), `Store.Delete(id, k)` leaves unchanged every blob stored under a
different node id and every blob stored under the same id whose SHA-1 hex
differs from that of `k` in its first five characters: for each such
`(id2, k2)`, `Has` and the result of `Read` are the same before and after the
delete. -/
theorem Store.Delete_leaves_other_blobs (root : String) (fs : FS) (id k id2 k2 : String)
    (hroot : ".." ∉ stringsSplit root '/')
    (hid : id ≠ "" ∧ id ≠ "." ∧ id ≠ ".." ∧ '/' ∉ id.data)
    (hid2 : id2 ≠ "" ∧ id2 ≠ "." ∧ id2 ≠ ".." ∧ '/' ∉ id2.data)
    (hdiff : id2 ≠ id ∨ (CASPathTransformFunc k2).Filename.data.take 5
        ≠ (CASPathTransformFunc k).Filename.data.take 5) :
    Store.Has { Root := root, PathTransformFunc := CASPathTransformFunc }
        (Store.Delete { Root := root, PathTransformFunc := CASPathTransformFunc } fs id k).2
        id2 k2
      = Store.Has { Root := root, PathTransformFunc := CASPathTransformFunc } fs id2 k2
    ∧ Store.Read { Root := root, PathTransformFunc := CASPathTransformFunc }
        (Store.Delete { Root := root, PathTransformFunc := CASPathTransformFunc } fs id k).2
        id2 k2
      = Store.Read { Root := root, PathTransformFunc := CASPathTransformFunc } fs id2 k2 := by
  have h := Store.CAS_Delete_frame_stat root fs id k id2 k2 hroot hid hid2 hdiff
  constructor
  · simp only [Store.Has, h]
  · simp only [Store.Read, Store.readStream, osOpen, h]

set_option maxRecDepth 100000 in
theorem Store.Delete_leaves_other_blobs_witness :
    Store.Read { Root := "ggnetwork", PathTransformFunc := CASPathTransformFunc }
        exampleTwoBlobs "node" "pic" = .ok (2, bytesReader [4, 5])
    ∧ Store.Has { Root := "ggnetwork", PathTransformFunc := CASPathTransformFunc }
        exampleTwoBlobs "node" "foo_1" = true
    ∧ Store.Has { Root := "ggnetwork", PathTransformFunc := CASPathTransformFunc }
        (Store.Delete { Root := "ggnetwork", PathTransformFunc := CASPathTransformFunc }
          exampleTwoBlobs "node" "foo_1").2 "node" "foo_1" = false
    ∧ (Store.Has { Root := "ggnetwork", PathTransformFunc := CASPathTransformFunc }
          (Store.Delete { Root := "ggnetwork", PathTransformFunc := CASPathTransformFunc }
            exampleTwoBlobs "node" "foo_1").2 "node" "pic"
        = Store.Has { Root := "ggnetwork", PathTransformFunc := CASPathTransformFunc }
            exampleTwoBlobs "node" "pic"
      ∧ Store.Read { Root := "ggnetwork", PathTransformFunc := CASPathTransformFunc }
          (Store.Delete { Root := "ggnetwork", PathTransformFunc := CASPathTransformFunc }
            exampleTwoBlobs "node" "foo_1").2 "node" "pic"
        = Store.Read { Root := "ggnetwork", PathTransformFunc := CASPathTransformFunc }
            exampleTwoBlobs "node" "pic") :=
  ⟨by rfl, by rfl, by rfl,
    Store.Delete_leaves_other_blobs "ggnetwork" exampleTwoBlobs "node" "foo_1" "node" "pic"
      (by decide) (by decide) (by decide) (Or.inr (by decide))⟩

end DFS
